import Mathlib

/-!
Verification of the alpha-beta pruning practice core (`src/lib/tree.ts` and
`src/lib/types.ts`): the tree model, the tree generator, the reversible
action log (`ActionListQueue`), the search-to-actions compiler (`alphaBeta`
with its inner `abActions` and `generatePruneActionList`), and the
verification tools (`checkAnswer`, `setSolution`).

Modelling conventions (shallow embedding):
* JavaScript numbers as used by the search are integers together with
  `Number.NEGATIVE_INFINITY` / `Number.POSITIVE_INFINITY`; they are modelled
  by `EVal` (ℤ extended with two infinities).  No arithmetic is performed on
  them by the source, only comparisons and assignments, so NaN never arises.
* JavaScript `null` and `undefined` are both modelled as `Option.none`
  (resp. `false` for boolean-valued fields).  The source only distinguishes
  them via strict equality between a visible field and its shadow
  counterpart, and in all states the claims quantify over, the two are
  interchangeable there.
* Nodes are identified by their path from the root (`List ℕ` of child
  indices); the mutable object graph becomes a state `TState` mapping
  field locations (`Loc`) to field values (`FV`).
* The generator's `Math.random()` draw is abstracted by a caller-supplied
  assignment `leafVal : List ℕ → ℤ` of integer values to leaf paths, which
  is exactly the information the draw produces.
-/

namespace AB

/-- JavaScript numeric values used by the search: integers and the two
infinities.  Ordered like the reals. -/
inductive EVal : Type where
  | negInf : EVal
  | fin (z : ℤ) : EVal
  | posInf : EVal
deriving DecidableEq, Repr

namespace EVal

/-- Boolean `≤` on extended values, mirroring JS `<=` on the value domain. -/
def ble : EVal → EVal → Bool
  | negInf, _ => true
  | _, posInf => true
  | posInf, _ => false
  | fin _, negInf => false
  | fin a, fin b => decide (a ≤ b)

instance : LE EVal := ⟨fun a b => a.ble b = true⟩

theorem le_def (a b : EVal) : a ≤ b ↔ a.ble b = true := Iff.rfl

instance decLE : ∀ a b : EVal, Decidable (a ≤ b) := fun a b =>
  decidable_of_iff (a.ble b = true) (le_def a b).symm

instance : LinearOrder EVal where
  le_refl a := by cases a <;> simp [le_def, ble]
  le_trans a b c := by
    cases a <;> cases b <;> cases c <;> simp [le_def, ble] <;> omega
  le_antisymm a b := by
    cases a <;> cases b <;> simp [le_def, ble] <;> omega
  le_total a b := by
    cases a <;> cases b <;> simp [le_def, ble] <;> omega
  decidableLE := decLE

theorem negInf_le (a : EVal) : negInf ≤ a := by cases a <;> simp [le_def, ble]

theorem le_posInf (a : EVal) : a ≤ posInf := by cases a <;> simp [le_def, ble]

theorem negInf_lt_fin (z : ℤ) : negInf < fin z := by
  constructor <;> simp [le_def, ble]

theorem fin_lt_posInf (z : ℤ) : fin z < posInf := by
  constructor <;> simp [le_def, ble]

theorem negInf_lt_posInf : (negInf : EVal) < posInf := by
  constructor <;> simp [le_def, ble]

end EVal

/-- `TreeNodeType` from `types.ts`. -/
inductive NodeKind : Type where
  | maxNode | minNode | randNode | leafNode
deriving DecidableEq, Repr

/-- `oppositeNodeType` from `types.ts`. -/
def oppositeNodeType : NodeKind → NodeKind
  | .maxNode => .minNode
  | .minNode => .maxNode
  | t => t

/-- The pure tree structure of `TreeNode`: its kind and its ordered children.
All mutable per-node fields (value, alpha, beta, entered, pruned, and the
shadow copies) live in `TState`, addressed by the node's path.  A leaf's
children array in the source holds `bFac` `undefined` slots that every
traversal skips, so it is modelled by the empty list. -/
inductive TNode : Type where
  | mk (nodeType : NodeKind) (children : List TNode)

namespace TNode

def nodeType : TNode → NodeKind
  | .mk nt _ => nt

def children : TNode → List TNode
  | .mk _ cs => cs

end TNode

/-- A mutable visible field of the object graph, addressed by the owning
node's path from the root.  `eEntered p` / `ePruned p` address the fields of
the edge from `p`'s parent into `p` (which exists for every non-root node).
Each `Loc` also has a hidden shadow counterpart (`__value`, `__alpha`,
`__beta`, `__pruned` in the source), kept in a second component of the
state. -/
inductive Loc : Type where
  | nValue (p : List ℕ)
  | nAlpha (p : List ℕ)
  | nBeta (p : List ℕ)
  | nEntered (p : List ℕ)
  | nPruned (p : List ℕ)
  | eEntered (p : List ℕ)
  | ePruned (p : List ℕ)
deriving DecidableEq, Repr

/-- A field value: numeric fields hold `number | null | undefined`
(both nullish values collapsed to `none`), flag fields hold booleans
(with `undefined` collapsed to `false`). -/
inductive FV : Type where
  | fvN (v : Option EVal)
  | fvB (b : Bool)
deriving DecidableEq, Repr

/-- Read a numeric field value; a flag value never sits in a numeric field
in any state produced by the modelled code. -/
def FV.getN : FV → Option EVal
  | .fvN v => v
  | .fvB _ => none

/-- Truthiness of a field value, mirroring `|| false` coercions. -/
def FV.isTrue : FV → Bool
  | .fvB b => b
  | .fvN _ => false

/-- The `Action` record from `tree.ts`: a target object/field (or `none`
when the constructed action's object is `undefined`, as for the root's
missing parent edge), the old value and the new value. -/
structure Action : Type where
  loc : Option Loc
  oldVal : FV
  newVal : FV
deriving DecidableEq, Repr

/-- The mutable state of the whole object graph: visible fields and their
hidden shadow copies.  Paths outside the actual tree are never read or
written by runs on well-formed trees. -/
structure TState : Type where
  vis : Loc → FV
  shadow : Loc → FV

namespace TState

def setVis (s : TState) (l : Loc) (v : FV) : TState :=
  { s with vis := Function.update s.vis l v }

def setShadow (s : TState) (l : Loc) (v : FV) : TState :=
  { s with shadow := Function.update s.shadow l v }

end TState

/-- `Action.apply`: write the new value to the target field (no-op when the
target object is `undefined`). -/
def Action.apply (a : Action) (s : TState) : TState :=
  match a.loc with
  | none => s
  | some l => s.setVis l a.newVal

/-- `Action.reverse`: write the old value back. -/
def Action.reverse (a : Action) (s : TState) : TState :=
  match a.loc with
  | none => s
  | some l => s.setVis l a.oldVal

/-- Apply every action of one step in recorded order
(`for (const action of actionList) action.apply()`). -/
def applyStep (st : List Action) (s : TState) : TState :=
  st.foldl (fun s a => a.apply s) s

/-- Reverse every action of one step in recorded order
(`for (const action of actionList) action.reverse()`). -/
def revStep (st : List Action) (s : TState) : TState :=
  st.foldl (fun s a => a.reverse s) s

/-- The old value recorded by the last action of a step on a given
location, if any: what reversing the step in recorded order leaves
there. -/
def lastOldA : List Action → Loc → Option FV
  | [], _ => none
  | x :: st, l =>
    match lastOldA st l with
    | some v => some v
    | none => if x.loc = some l then some x.oldVal else none

/-- The new value written by the last action of a step on a given
location, if any: what applying the step in recorded order leaves
there. -/
def lastNewA : List Action → Loc → Option FV
  | [], _ => none
  | x :: st, l =>
    match lastNewA st l with
    | some v => some v
    | none => if x.loc = some l then some x.newVal else none

/-- The old value a full backward replay leaves at a location: the last
recorded old value within the earliest step that touches the location. -/
def firstOld : List (List Action) → Loc → Option FV
  | [], _ => none
  | st :: rest, l =>
    match lastOldA st l with
    | some v => some v
    | none => firstOld rest l

/-- Forward playback of a list of steps in order. -/
def forA : List (List Action) → TState → TState
  | [], s => s
  | st :: rest, s => forA rest (applyStep st s)

/-- Backward playback of a list of steps: the last step is reversed
first, the first step last. -/
def backA : List (List Action) → TState → TState
  | [], s => s
  | st :: rest, s => revStep st (backA rest s)

/-- The `ActionListQueue` state from `tree.ts`.  `length` is the separately
maintained counter field of the class (kept in sync with the array by the
methods). -/
structure ALQ : Type where
  inAction : Bool
  lastAction : ℤ
  actionListQueue : List (List Action)
  length : ℕ
deriving DecidableEq, Repr

namespace ALQ

/-- A fresh `new ActionListQueue()`. -/
def new : ALQ := ⟨false, -1, [], 0⟩

/-- Integer-indexed array access `xs[i]`, returning `none` out of bounds
(the source uses a non-null assertion at these sites). -/
def getI (xs : List (List Action)) (i : ℤ) : Option (List Action) :=
  if 0 ≤ i then xs.get? i.toNat else none

/-- `pushActionList` from `tree.ts`. -/
def pushActionList (q : ALQ) (actionList : List Action) : Bool × ALQ :=
  if q.inAction then (false, q)
  else (true, { q with actionListQueue := q.actionListQueue ++ [actionList],
                       length := q.length + 1 })

/-- `extendActionList` from `tree.ts`. -/
def extendActionList (q : ALQ) (actionLists : List (List Action)) : Bool × ALQ :=
  if q.inAction then (false, q)
  else (true, { q with actionListQueue := q.actionListQueue ++ actionLists,
                       length := q.length + actionLists.length })

/-- `stepForward` from `tree.ts`; also carries the tree state the applied
actions mutate. -/
def stepForward (q : ALQ) (s : TState) : Bool × ALQ × TState :=
  if ¬ q.inAction ∨ q.lastAction = (q.actionListQueue.length : ℤ) - 1 then
    (false, q, s)
  else
    let la := q.lastAction + 1
    let actionList := (getI q.actionListQueue la).getD []
    (true, { q with lastAction := la }, applyStep actionList s)

/-- `stepBackward` from `tree.ts`. -/
def stepBackward (q : ALQ) (s : TState) : Bool × ALQ × TState :=
  if ¬ q.inAction ∨ q.lastAction = -1 then
    (false, q, s)
  else
    let actionList := (getI q.actionListQueue q.lastAction).getD []
    (true, { q with lastAction := q.lastAction - 1 }, revStep actionList s)

/-- Loop body of `goToEnd` (`while (this.stepForward()) {}`), driven by
explicit fuel.  Under the cursor invariant the fuel supplied by `goToEnd`
always suffices, so the fueled loop agrees with the source's `while`. -/
def driveForward : ℕ → ALQ → TState → ALQ × TState
  | 0, q, s => (q, s)
  | fuel + 1, q, s =>
    match q.stepForward s with
    | (false, q', s') => (q', s')
    | (true, q', s') => driveForward fuel q' s'

/-- Loop body of `goToBeginning`. -/
def driveBackward : ℕ → ALQ → TState → ALQ × TState
  | 0, q, s => (q, s)
  | fuel + 1, q, s =>
    match q.stepBackward s with
    | (false, q', s') => (q', s')
    | (true, q', s') => driveBackward fuel q' s'

/-- `goToEnd` from `tree.ts`. -/
def goToEnd (q : ALQ) (s : TState) : ALQ × TState :=
  if ¬ q.inAction then (q, s)
  else driveForward (q.actionListQueue.length + 1) q s

/-- `goToBeginning` from `tree.ts`. -/
def goToBeginning (q : ALQ) (s : TState) : ALQ × TState :=
  if ¬ q.inAction then (q, s)
  else driveBackward (q.actionListQueue.length + 1) q s

end ALQ

/-- The `Tree` aggregate from `types.ts`. -/
structure Tree : Type where
  rootNode : Option TNode
  treeType : NodeKind
  depth : ℕ
  branchingFactor : ℕ
  mutableFlag : Bool

/-- `createTree` from `tree.ts`. -/
def createTree (treeType : NodeKind) (depth branchingFactor : ℕ) : Tree :=
  ⟨none, treeType, depth, branchingFactor, true⟩

/-- The inner recursion `generateSubTree` of `generateABTreeRootNode`,
phrased over the number of levels remaining below the current node
(`maxDepth - depth`; the source recurses with `depth + 1` until
`depth === maxDepth`, starting from the root at depth 1). -/
def generateSubTree (nodeType : NodeKind) : ℕ → ℕ → TNode
  | 0, _bFac => .mk .leafNode []
  | remaining + 1, bFac =>
    .mk nodeType ((List.range bFac).map fun _ =>
      generateSubTree (oppositeNodeType nodeType) remaining bFac)

/-- `generateABTreeRootNode` (tree shape): the root sits at depth 1, so it
has `maxDepth - 1` levels below it.  The random leaf scores live in the
initial state (`initState`), not in the shape. -/
def generateABTreeRootNode (treeType : NodeKind) (maxDepth bFac : ℕ) : TNode :=
  generateSubTree treeType (maxDepth - 1) bFac

/-- The node of `t` reached from path `p` of child indices, if any. -/
def nodeAt : TNode → List ℕ → Option TNode
  | t, [] => some t
  | t, k :: p =>
    match t.children.get? k with
    | none => none
    | some c => nodeAt c p

/-- `p` addresses a leaf of `t`. -/
def isLeafPath (t : TNode) (p : List ℕ) : Bool :=
  match nodeAt t p with
  | some u => u.nodeType = .leafNode
  | none => false

/-- The state of the object graph right after `generateABTreeRootNode`
built the tree `t` with leaf scores `L`: every visible flag is unset
(`pruned: false` on fresh edges, `entered`/`pruned`/shadows still
`undefined`), interior values/bounds are `null`/`undefined`, and each leaf
holds its generated integer score. -/
def initState (t : TNode) (L : List ℕ → ℤ) : TState where
  vis l :=
    match l with
    | .nValue p => if isLeafPath t p then .fvN (some (.fin (L p))) else .fvN none
    | .nAlpha _ => .fvN none
    | .nBeta _ => .fvN none
    | .nEntered _ => .fvB false
    | .nPruned _ => .fvB false
    | .eEntered _ => .fvB false
    | .ePruned _ => .fvB false
  shadow l :=
    match l with
    | .nValue _ => .fvN none
    | .nAlpha _ => .fvN none
    | .nBeta _ => .fvN none
    | .nEntered _ => .fvB false
    | .nPruned _ => .fvB false
    | .eEntered _ => .fvB false
    | .ePruned _ => .fvB false

/-- The location of the `entered`/`pruned` fields of `node.edgeToParent`:
`none` for the root (whose `edgeToParent` is `undefined`, making actions on
it no-ops). -/
def edgeEnteredLoc (p : List ℕ) : Option Loc :=
  if p = [] then none else some (.eEntered p)

mutual

/-- `pruneInner` of `generatePruneActionList`: record a visible
`pruned: false → true` action for the edge into every node of the subtree
and set the edge's shadow `__pruned` immediately; preorder over children.
(Called on skipped children of a searched node, so `p ≠ []` throughout;
the `n.edgeToParent` guard corresponds to the `p = []` test.) -/
def pruneInner : TNode → List ℕ → TState → List Action × TState
  | .mk _nt cs, p, s =>
    let (acts, s1) :=
      if p = [] then ([], s)
      else ([⟨some (.ePruned p), .fvB false, .fvB true⟩],
            s.setShadow (.ePruned p) (.fvB true))
    let (acts2, s2) := pruneChildren cs p 0 s1
    (acts ++ acts2, s2)
termination_by t _ _ => sizeOf t
decreasing_by all_goals simp_wf

/-- The `for (let k = 0; k < bFac; k++) pruneInner(n.children[k])` loop. -/
def pruneChildren (cs : List TNode) (p : List ℕ) (k : ℕ) (s : TState) :
    List Action × TState :=
  match cs with
  | [] => ([], s)
  | c :: rest =>
    let (acts, s1) := pruneInner c (p ++ [k]) s
    let (acts2, s2) := pruneChildren rest p (k + 1) s1
    (acts ++ acts2, s2)
termination_by sizeOf cs
decreasing_by all_goals simp_wf <;> omega

end

/-- `generatePruneActionList` from `tree.ts`. -/
def generatePruneActionList (t : TNode) (p : List ℕ) (s : TState) :
    List Action × TState :=
  pruneInner t p s

/-- The result record of `abActions`, together with the state carrying the
shadow writes the call performed. -/
structure ABRes : Type where
  returnVal : EVal
  enterActions : List Action
  childActionsList : List (List Action)
  exitActions : List Action
  st : TState

/-- The loop state after one searched-child iteration of `abActions`:
the updated bounds and best value, the groups for the child's entry and
exit, and the state after the parent's shadow value/bound writes. -/
structure IterRes : Type where
  newA : EVal
  newB : EVal
  newCurVal : EVal
  newEnter : List Action
  newExit : List Action
  st : TState

/-- The body of one searched-child iteration of the `abActions` loop, after
the recursive call returned `res`: the `curVal` update with its `value`
action, the bound tightening with its `alpha`/`beta` action (each action's
old value read from the current shadow), and the attachment of the update
actions and of the pending previous-child exit group (lines 186–206 resp.
220–240 of `tree.ts`). -/
def abIter (p : List ℕ) (a b : EVal) (m : Bool) (lce : List Action)
    (curVal : EVal) (res : ABRes) : IterRes :=
  let improved : Bool :=
    if m then decide (curVal < res.returnVal)
    else decide (res.returnVal < curVal)
  let curVal' := if improved then res.returnVal else curVal
  let setValActs1 : List Action :=
    if improved then
      [⟨some (.nValue p), res.st.shadow (.nValue p), .fvN (some res.returnVal)⟩]
    else []
  let t1 := if improved then
      res.st.setShadow (.nValue p) (.fvN (some res.returnVal))
    else res.st
  let tightened : Bool :=
    if m then decide (a < res.returnVal) else decide (res.returnVal < b)
  let a' := if m ∧ tightened then res.returnVal else a
  let b' := if ¬ m ∧ tightened then res.returnVal else b
  let setValActs2 : List Action :=
    if tightened then
      if m then
        [⟨some (.nAlpha p), t1.shadow (.nAlpha p), .fvN (some res.returnVal)⟩]
      else
        [⟨some (.nBeta p), t1.shadow (.nBeta p), .fvN (some res.returnVal)⟩]
    else []
  let t2 := if tightened then
      if m then t1.setShadow (.nAlpha p) (.fvN (some res.returnVal))
      else t1.setShadow (.nBeta p) (.fvN (some res.returnVal))
    else t1
  let setValActs := setValActs1 ++ setValActs2
  if res.childActionsList ≠ [] then
    ⟨a', b', curVal', res.enterActions ++ lce, res.exitActions ++ setValActs, t2⟩
  else
    ⟨a', b', curVal', (res.enterActions ++ setValActs) ++ lce,
      res.exitActions, t2⟩

mutual

/-- `abActions` from `tree.ts`, for the node of shape `t` at path `p` with
incoming bounds `(a, b)` and maximiser flag `m`.  Returns the entry/inner/
exit action groups, the fail-soft search value, and the state after the
call's shadow writes. -/
def abActions : TNode → List ℕ → EVal → EVal → Bool → TState → ABRes
  | .mk nt cs, p, a, b, m, s =>
    let enter0 : List Action :=
      [⟨edgeEnteredLoc p, .fvB false, .fvB true⟩,
       ⟨some (.nEntered p), .fvB false, .fvB true⟩]
    if nt = .leafNode then
      { returnVal := ((s.vis (.nValue p)).getN).getD (.fin 0)
        enterActions := enter0
        childActionsList := []
        exitActions := [⟨edgeEnteredLoc p, .fvB true, .fvB false⟩]
        st := s }
    else
      let enter := enter0 ++
        [⟨some (.nAlpha p), s.vis (.nAlpha p), .fvN (some a)⟩,
         ⟨some (.nBeta p), s.vis (.nBeta p), .fvN (some b)⟩]
      let s1 := (s.setShadow (.nAlpha p) (.fvN (some a))).setShadow
        (.nBeta p) (.fvN (some b))
      let curVal : EVal := if m then .negInf else .posInf
      let (cv, groups, lastExit, s2) :=
        abLoop cs p 0 a b m false [] curVal s1
      { returnVal := cv
        enterActions := enter
        childActionsList := groups ++ [lastExit]
        exitActions :=
          [⟨edgeEnteredLoc p, .fvB true, .fvB false⟩,
           ⟨some (.nEntered p), .fvB true, .fvB false⟩]
        st := s2 }
termination_by t _ _ _ _ _ => sizeOf t
decreasing_by all_goals simp_wf

/-- The child loop of `abActions` (`for (; k < bFac; k++)`), shared between
the max and min branches, which differ only in the comparison direction and
in which bound is tightened.  Carries the running `pruneRest` flag, the
pending `lastChildExitActions` group, the running best `curVal`, and the
state; returns the final best value, the groups pushed onto
`childActionsList` by these iterations, the final pending exit group, and
the state. -/
def abLoop (cs : List TNode) (p : List ℕ) (k : ℕ) (a b : EVal) (m : Bool)
    (pruneRest : Bool) (lastChildExit : List Action) (curVal : EVal)
    (s : TState) : EVal × List (List Action) × List Action × TState :=
  match cs with
  | [] => (curVal, [], lastChildExit, s)
  | c :: rest =>
    if pruneRest then
      let (pruneActs, sp) := generatePruneActionList c (p ++ [k]) s
      let lce := (lastChildExit ++ pruneActs) ++
        [⟨some (.nPruned p), .fvB false, .fvB true⟩]
      let sp2 := sp.setShadow (.nPruned p) (.fvB true)
      abLoop rest p (k + 1) a b m pruneRest lce curVal sp2
    else
      let res := abActions c (p ++ [k]) a b (!m) s
      let it := abIter p a b m lastChildExit curVal res
      let pruneRest' : Bool := decide (it.newB ≤ it.newA)
      let (cv, groups, lce, sF) :=
        abLoop rest p (k + 1) it.newA it.newB m pruneRest' it.newExit
          it.newCurVal it.st
      (cv, (it.newEnter :: res.childActionsList) ++ groups, lce, sF)
termination_by sizeOf cs
decreasing_by all_goals simp_wf <;> omega

end

/-- `alphaBeta` from `tree.ts`: run the search compiler on the tree's root
and push the produced groups onto a fresh queue.  Also returns the state
after the compiler's shadow writes (the source mutates the shared object
graph in place). -/
def alphaBeta (tree : Tree) (s : TState) : ALQ × TState :=
  match tree.rootNode with
  | none => (ALQ.new, s)
  | some root =>
    let res := abActions root [] .negInf .posInf
      (tree.treeType = NodeKind.maxNode) s
    let (_, q1) := ALQ.new.pushActionList res.enterActions
    let (_, q2) := q1.extendActionList res.childActionsList
    let (_, q3) := q2.pushActionList res.exitActions
    (q3, res.st)

mutual

/-- `setSolutionForSubTree` of `setSolution`: copy the shadow solution into
the visible fields (`?? null` and `|| false` coercions collapse nullish
shadow entries). -/
def setSolutionSub : TNode → List ℕ → TState → TState
  | .mk nt cs, p, s =>
    let s1 :=
      if p = [] then s
      else s.setVis (.ePruned p) (.fvB ((s.shadow (.ePruned p)).isTrue))
    if nt = .leafNode then s1
    else
      let s2 := s1.setVis (.nValue p) (.fvN ((s1.shadow (.nValue p)).getN))
      let s3 := s2.setVis (.nAlpha p) (.fvN ((s2.shadow (.nAlpha p)).getN))
      let s4 := s3.setVis (.nBeta p) (.fvN ((s3.shadow (.nBeta p)).getN))
      let s5 := s4.setVis (.nPruned p) (.fvB ((s4.shadow (.nPruned p)).isTrue))
      setSolutionChildren cs p 0 s5
termination_by t _ _ => sizeOf t
decreasing_by all_goals simp_wf

/-- The `for (let k = 0; k < node.childNum; k++)` loop of `setSolution`. -/
def setSolutionChildren (cs : List TNode) (p : List ℕ) (k : ℕ) (s : TState) :
    TState :=
  match cs with
  | [] => s
  | c :: rest => setSolutionChildren rest p (k + 1) (setSolutionSub c (p ++ [k]) s)
termination_by sizeOf cs
decreasing_by all_goals simp_wf <;> omega

end

/-- `setSolution` from `tree.ts`. -/
def setSolution (root : Option TNode) (s : TState) : TState :=
  match root with
  | none => s
  | some t => setSolutionSub t [] s

/-- A JavaScript runtime value as stored in a field of the tree's object
graph: a number, `null`, `undefined` (a field never written), or a
boolean.  Equality of `JV` coincides with JavaScript strict equality
`===` on these values (no `NaN` arises in this program): two numbers are
strictly equal iff they are the same number, and `null`, `undefined` and
the booleans are pairwise strictly distinct and distinct from every
number. -/
inductive JV : Type where
  | jnum (v : EVal)
  | jnull
  | jundef
  | jbool (b : Bool)
deriving DecidableEq

/-- JavaScript truthiness of a `JV`: `0`, `null`, `undefined` and `false`
are falsy; every other number (including the infinities) and `true` are
truthy. -/
def JV.isTruthy : JV → Bool
  | .jnum v => decide (v ≠ .fin 0)
  | .jnull => false
  | .jundef => false
  | .jbool b => b

/-- The tree's object graph at raw JavaScript granularity, distinguishing
`null` from `undefined`.  `checkAnswer` compares fields with strict `!==`,
which separates the two (`null !== undefined`), so the answer checker is
embedded over this refined state rather than over `TState`, which
identifies them. -/
structure JState : Type where
  vis : Loc → JV
  shadow : Loc → JV

/-- Overwrite one visible field of a raw-JS state. -/
def JState.setVis (s : JState) (l : Loc) (v : JV) : JState :=
  ⟨Function.update s.vis l v, s.shadow⟩

mutual

/-- `checkSubTree` of `checkAnswer`: leaves are always correct; an interior
node is correct when its visible value strictly (`!==`) equals its shadow
`__value` — so an interior node whose `__value` was never written
(`undefined`) fails the check unless its visible value is also
`undefined` — when its incoming edge, if its shadow `__pruned` is truthy,
has its visible `pruned` flag strictly equal to the shadow flag, and when
all children check out. -/
def checkSubTree : TNode → List ℕ → JState → Bool
  | .mk nt cs, p, s =>
    if nt = .leafNode then true
    else if s.vis (.nValue p) ≠ s.shadow (.nValue p) then false
    else if p ≠ [] ∧ (s.shadow (.ePruned p)).isTruthy ∧
        s.shadow (.ePruned p) ≠ s.vis (.ePruned p) then false
    else checkChildren cs p 0 s
termination_by t _ _ => sizeOf t
decreasing_by all_goals simp_wf

/-- The `res = res && checkSubTree(...)` loop of `checkAnswer`. -/
def checkChildren (cs : List TNode) (p : List ℕ) (k : ℕ) (s : JState) : Bool :=
  match cs with
  | [] => true
  | c :: rest => checkSubTree c (p ++ [k]) s && checkChildren rest p (k + 1) s
termination_by sizeOf cs
decreasing_by all_goals simp_wf <;> omega

end

/-- `checkAnswer` from `tree.ts`. -/
def checkAnswer (root : Option TNode) (s : JState) : Bool :=
  match root with
  | none => true
  | some t => checkSubTree t [] s

/-- Modelled from the spec's words: "for every interior node, the visible
value equals the shadow value". -/
def specInteriorValuesOk (t : TNode) (s : JState) : Prop :=
  ∀ p u, nodeAt t p = some u → u.nodeType ≠ .leafNode →
    s.vis (.nValue p) = s.shadow (.nValue p)

/-- Modelled from the spec's words: "for every edge whose shadow pruned
flag is true, the visible pruned flag equals the shadow pruned flag"
(every non-root node owns the edge from its parent). -/
def specPrunedEdgesOk (t : TNode) (s : JState) : Prop :=
  ∀ p u, nodeAt t p = some u → p ≠ [] → (s.shadow (.ePruned p)).isTruthy →
    s.vis (.ePruned p) = s.shadow (.ePruned p)

/-- The amended edge condition: only edges into *interior* nodes are
checked (the code's leaf early-return skips the edge check of a leaf). -/
def specPrunedEdgesIntoInteriorOk (t : TNode) (s : JState) : Prop :=
  ∀ p u, nodeAt t p = some u → u.nodeType ≠ .leafNode → p ≠ [] →
    (s.shadow (.ePruned p)).isTruthy →
    s.vis (.ePruned p) = s.shadow (.ePruned p)

/-- What `checkSubTree` actually enforces on the subtree `t` mounted at
absolute path `p`: every interior node's visible value strictly equals its
shadow value and, where its incoming edge's shadow `__pruned` is truthy,
the edge's visible pruned flag strictly equals the shadow flag. -/
def SpecAt (t : TNode) (p : List ℕ) (s : JState) : Prop :=
  ∀ q u, nodeAt t q = some u → u.nodeType ≠ .leafNode →
    (s.vis (.nValue (p ++ q)) = s.shadow (.nValue (p ++ q)) ∧
     (p ++ q ≠ [] → (s.shadow (.ePruned (p ++ q))).isTruthy →
       s.vis (.ePruned (p ++ q)) = s.shadow (.ePruned (p ++ q))))

/-- Trees whose leaves have no children (true of every tree the generator
builds; `nodeAt` descends through stored child lists without consulting
node kinds, so this is the shape on which path addressing and the
recursive check agree). -/
inductive NoLeafChildren : TNode → Prop where
  | leaf : NoLeafChildren (.mk .leafNode [])
  | node (nt : NodeKind) (cs : List TNode) (hnt : nt ≠ .leafNode)
      (hc : ∀ c ∈ cs, NoLeafChildren c) : NoLeafChildren (.mk nt cs)

/-- Two actions of a step that target the same real (object, field) pair
are the same action record.  (Actions whose target object is `undefined`
never write anything.) -/
def SLI (st : List Action) : Prop :=
  ∀ a ∈ st, ∀ b ∈ st, ∀ l : Loc, a.loc = some l → b.loc = some l → a = b

/-- Trees with sibling-homogeneous levels: every interior node's children
are either all leaves or all interior (true of every generated tree, whose
siblings are copies of the same shape). -/
inductive Homog : TNode → Prop where
  | leaf : Homog (.mk .leafNode [])
  | node (nt : NodeKind) (cs : List TNode) (hnt : nt ≠ .leafNode)
      (hk : (∀ c ∈ cs, c.nodeType = .leafNode) ∨
        (∀ c ∈ cs, c.nodeType ≠ .leafNode))
      (hc : ∀ c ∈ cs, Homog c) : Homog (.mk nt cs)

/-! ### Pure value-level recursions

`abVal` mirrors exactly the `returnVal` computation of `abActions`, reading
leaf values from a value assignment `V`; `visV s` is the assignment the
compiler actually reads (the visible `value` fields, with the `as number`
cast of a missing value defaulting like the model's `FV.getN`/`getD`).
`minimaxF` is the plain unpruned minimax recursion driven by the same
maximiser flag the search alternates; `minimax` is the independent
evaluator driven by the stored node kinds, modelled from the spec's
"unpruned full minimax evaluation of the same tree (same leaf values, same
node kinds)". -/

/-- The leaf-value assignment the compiler reads from a state. -/
def visV (s : TState) : List ℕ → EVal :=
  fun q => ((s.vis (.nValue q)).getN).getD (.fin 0)

mutual

/-- The `returnVal` computation of `abActions`, value level. -/
def abVal (V : List ℕ → EVal) : TNode → List ℕ → EVal → EVal → Bool → EVal
  | .mk nt cs, p, a, b, m =>
    if nt = .leafNode then V p
    else abValLoop V cs p 0 a b m false (if m then .negInf else .posInf)
termination_by t _ _ _ _ => sizeOf t
decreasing_by all_goals simp_wf <;> omega

/-- The child loop of `abVal`, carrying the same running data as the
searched branch of `abLoop`. -/
def abValLoop (V : List ℕ → EVal) :
    List TNode → List ℕ → ℕ → EVal → EVal → Bool → Bool → EVal → EVal
  | [], _, _, _, _, _, _, cv => cv
  | c :: rest, p, k, a, b, m, pr, cv =>
    if pr then abValLoop V rest p (k + 1) a b m pr cv
    else
      let r := abVal V c (p ++ [k]) a b (!m)
      let improved : Bool := if m then decide (cv < r) else decide (r < cv)
      let cv' := if improved then r else cv
      let tight : Bool := if m then decide (a < r) else decide (r < b)
      let a' := if m ∧ tight then r else a
      let b' := if ¬ m ∧ tight then r else b
      abValLoop V rest p (k + 1) a' b' m (decide (b' ≤ a')) cv'
termination_by cs _ _ _ _ _ _ _ => sizeOf cs
decreasing_by all_goals simp_wf <;> omega

end

mutual

/-- Unpruned minimax over the same tree, driven by the alternating
maximiser flag. -/
def minimaxF (V : List ℕ → EVal) : TNode → List ℕ → Bool → EVal
  | .mk nt cs, p, m =>
    if nt = .leafNode then V p
    else mmList V cs p 0 m
termination_by t _ _ => sizeOf t
decreasing_by all_goals simp_wf <;> omega

/-- Fold of children minimax values: maximum for a maximiser (from −∞),
minimum for a minimiser (from +∞). -/
def mmList (V : List ℕ → EVal) :
    List TNode → List ℕ → ℕ → Bool → EVal
  | [], _, _, m => if m then .negInf else .posInf
  | c :: rest, p, k, m =>
    let r := minimaxF V c (p ++ [k]) (!m)
    if m then max r (mmList V rest p (k + 1) m)
    else min r (mmList V rest p (k + 1) m)
termination_by cs _ _ _ => sizeOf cs
decreasing_by all_goals simp_wf <;> omega

end

mutual

/-- Modelled from the spec: the independent, unpruned full minimax
evaluation "of the same tree (same leaf values, same node kinds)", driven
by the stored node kinds (`rand` nodes, which the claims exclude, are
evaluated like their value). -/
def minimax (V : List ℕ → EVal) : TNode → List ℕ → EVal
  | .mk nt cs, p =>
    if nt = .leafNode then V p
    else if nt = .maxNode then mmKindList V cs p 0 true
    else if nt = .minNode then mmKindList V cs p 0 false
    else V p
termination_by t _ => sizeOf t
decreasing_by all_goals simp_wf <;> omega

/-- Children fold of the kind-driven minimax. -/
def mmKindList (V : List ℕ → EVal) :
    List TNode → List ℕ → ℕ → Bool → EVal
  | [], _, _, m => if m then .negInf else .posInf
  | c :: rest, p, k, m =>
    let r := minimax V c (p ++ [k])
    if m then max r (mmKindList V rest p (k + 1) m)
    else min r (mmKindList V rest p (k + 1) m)
termination_by cs _ _ _ => sizeOf cs
decreasing_by all_goals simp_wf <;> omega

end

/-- Trees in which every non-leaf node has at least one child (true of all
generated trees, whose interior nodes have `branchingFactor ≥ 2` children).
-/
inductive CompleteT : TNode → Prop where
  | leaf (cs : List TNode) : CompleteT (.mk .leafNode cs)
  | node (nt : NodeKind) (cs : List TNode) (hne : cs ≠ [])
      (hc : ∀ c ∈ cs, CompleteT c) : CompleteT (.mk nt cs)

/-- The Knuth–Moore fail-soft specification of the pruning search value
against the unpruned minimax value: a fail-low result bounds the true value
from above, a fail-high result bounds it from below, and a result strictly
inside the window is exact. -/
def KMspec (V : List ℕ → EVal) (t : TNode) (p : List ℕ) (a b : EVal)
    (m : Bool) : Prop :=
  (abVal V t p a b m ≤ a → minimaxF V t p m ≤ abVal V t p a b m) ∧
  (b ≤ abVal V t p a b m → abVal V t p a b m ≤ minimaxF V t p m) ∧
  (a < abVal V t p a b m → abVal V t p a b m < b →
    abVal V t p a b m = minimaxF V t p m)

/-! ### The reversible action log: invariants and method behaviour -/

/-- The cursor invariant of the log: `lastAction` always lies in
`[-1, length of the array - 1]`. -/
def cursorInv (q : ALQ) : Prop :=
  -1 ≤ q.lastAction ∧ q.lastAction ≤ (q.actionListQueue.length : ℤ) - 1

/-- Queue states reachable through the public surface: a fresh queue,
method calls, and the external toggling of `inAction` performed by the
playback UI. -/
inductive Reachable : ALQ → Prop where
  | new : Reachable ALQ.new
  | push (q : ALQ) (st : List Action) : Reachable q →
      Reachable (q.pushActionList st).2
  | extend (q : ALQ) (sts : List (List Action)) : Reachable q →
      Reachable (q.extendActionList sts).2
  | setInAction (q : ALQ) (b : Bool) : Reachable q →
      Reachable { q with inAction := b }
  | stepF (q : ALQ) (s : TState) : Reachable q →
      Reachable (q.stepForward s).2.1
  | stepB (q : ALQ) (s : TState) : Reachable q →
      Reachable (q.stepBackward s).2.1
  | toEnd (q : ALQ) (s : TState) : Reachable q →
      Reachable (q.goToEnd s).1
  | toBeginning (q : ALQ) (s : TState) : Reachable q →
      Reachable (q.goToBeginning s).1

theorem stepForward_inv (q : ALQ) (s : TState) (h : cursorInv q) :
    cursorInv (q.stepForward s).2.1 := by
  by_cases hc : ¬ q.inAction = true ∨ q.lastAction = (q.actionListQueue.length : ℤ) - 1
  · rw [ALQ.stepForward, if_pos hc]
    exact h
  · rw [ALQ.stepForward, if_neg hc]
    push_neg at hc
    obtain ⟨h1, h2⟩ := h
    have h3 := hc.2
    show cursorInv { q with lastAction := q.lastAction + 1 }
    unfold cursorInv
    dsimp only
    omega

theorem stepBackward_inv (q : ALQ) (s : TState) (h : cursorInv q) :
    cursorInv (q.stepBackward s).2.1 := by
  by_cases hc : ¬ q.inAction = true ∨ q.lastAction = -1
  · rw [ALQ.stepBackward, if_pos hc]
    exact h
  · rw [ALQ.stepBackward, if_neg hc]
    push_neg at hc
    obtain ⟨h1, h2⟩ := h
    have h3 := hc.2
    show cursorInv { q with lastAction := q.lastAction - 1 }
    unfold cursorInv
    dsimp only
    omega

theorem driveForward_inv (fuel : ℕ) (q : ALQ) (s : TState) (h : cursorInv q) :
    cursorInv (ALQ.driveForward fuel q s).1 := by
  induction fuel generalizing q s with
  | zero => exact h
  | succ n ih =>
    unfold ALQ.driveForward
    have h' := stepForward_inv q s h
    rcases hq : q.stepForward s with ⟨b, q', s'⟩
    rw [hq] at h'
    cases b
    · simpa using h'
    · simpa using ih q' s' h'

theorem driveBackward_inv (fuel : ℕ) (q : ALQ) (s : TState) (h : cursorInv q) :
    cursorInv (ALQ.driveBackward fuel q s).1 := by
  induction fuel generalizing q s with
  | zero => exact h
  | succ n ih =>
    unfold ALQ.driveBackward
    have h' := stepBackward_inv q s h
    rcases hq : q.stepBackward s with ⟨b, q', s'⟩
    rw [hq] at h'
    cases b
    · simpa using h'
    · simpa using ih q' s' h'

/-- Every reachable queue satisfies the cursor invariant. -/
theorem reachable_cursorInv {q : ALQ} (h : Reachable q) : cursorInv q := by
  induction h with
  | new => exact ⟨by norm_num [ALQ.new], by norm_num [ALQ.new]⟩
  | push q st _ ih =>
    unfold ALQ.pushActionList
    split
    · exact ih
    · obtain ⟨h1, h2⟩ := ih
      refine ⟨h1, ?_⟩
      simp only [List.length_append, List.length_cons, List.length_nil]
      push_cast
      omega
  | extend q sts _ ih =>
    unfold ALQ.extendActionList
    split
    · exact ih
    · obtain ⟨h1, h2⟩ := ih
      refine ⟨h1, ?_⟩
      simp only [List.length_append]
      push_cast
      omega
  | setInAction q b _ ih => exact ih
  | stepF q s _ ih => exact stepForward_inv q s ih
  | stepB q s _ ih => exact stepBackward_inv q s ih
  | toEnd q s _ ih =>
    unfold ALQ.goToEnd
    split
    · exact ih
    · exact driveForward_inv _ q s ih
  | toBeginning q s _ ih =>
    unfold ALQ.goToBeginning
    split
    · exact ih
    · exact driveBackward_inv _ q s ih

theorem getI_isSome {xs : List (List Action)} {i : ℤ} (h0 : 0 ≤ i)
    (h1 : i < (xs.length : ℤ)) : (ALQ.getI xs i).isSome = true := by
  unfold ALQ.getI
  rw [if_pos h0]
  rcases hg : xs.get? i.toNat with _ | v
  · rw [List.get?_eq_none] at hg
    omega
  · rfl

/-- C6: when `inAction` is true, `pushActionList` and `extendActionList`
return false and leave the queue (its `length` and stored steps) unchanged;
when `inAction` is false, they append the given step(s), increase `length`
accordingly, and return true. -/
theorem claim_C6_log_append_rejection :
    ∀ (q : ALQ) (st : List Action) (sts : List (List Action)),
      (q.inAction = true →
        q.pushActionList st = (false, q) ∧
        q.extendActionList sts = (false, q)) ∧
      (q.inAction = false →
        q.pushActionList st =
          (true, { q with actionListQueue := q.actionListQueue ++ [st],
                          length := q.length + 1 }) ∧
        q.extendActionList sts =
          (true, { q with actionListQueue := q.actionListQueue ++ sts,
                          length := q.length + sts.length })) := by
  intro q st sts
  constructor <;> intro h <;>
    simp [ALQ.pushActionList, ALQ.extendActionList, h]

/-- Witness for C6 at concrete queues. -/
theorem claim_C6_log_append_rejection_witness :
    (⟨true, -1, [], 0⟩ : ALQ).pushActionList [] = (false, ⟨true, -1, [], 0⟩) ∧
    (⟨false, -1, [], 0⟩ : ALQ).pushActionList [] =
      (true, ⟨false, -1, [[]], 1⟩) := by
  refine ⟨((claim_C6_log_append_rejection ⟨true, -1, [], 0⟩ [] []).1 rfl).1, ?_⟩
  have h := ((claim_C6_log_append_rejection ⟨false, -1, [], 0⟩ [] []).2 rfl).1
  simpa using h

/-- C7: `stepForward` is a safe no-op (returns false, changes nothing) when
not in playback or the cursor is at the last step, and otherwise advances
the cursor and applies every action of the newly-current step in recorded
order; `stepBackward` is a safe no-op when not in playback or the cursor is
−1, and otherwise reverses the current step's actions and retreats the
cursor; and on every queue reachable through the public surface (including
the empty log) the step index accessed by a non-no-op call is in bounds. -/
theorem claim_C7_boundary_stepping :
    ∀ (q : ALQ) (s : TState),
      ((q.inAction = false ∨ q.lastAction = (q.actionListQueue.length : ℤ) - 1)
        → q.stepForward s = (false, q, s)) ∧
      (q.inAction = true → q.lastAction ≠ (q.actionListQueue.length : ℤ) - 1 →
        q.stepForward s = (true, { q with lastAction := q.lastAction + 1 },
          applyStep ((ALQ.getI q.actionListQueue (q.lastAction + 1)).getD []) s)) ∧
      ((q.inAction = false ∨ q.lastAction = -1) → q.stepBackward s = (false, q, s)) ∧
      (q.inAction = true → q.lastAction ≠ -1 →
        q.stepBackward s = (true, { q with lastAction := q.lastAction - 1 },
          revStep ((ALQ.getI q.actionListQueue q.lastAction).getD []) s)) ∧
      (Reachable q →
        (q.inAction = true → q.lastAction ≠ (q.actionListQueue.length : ℤ) - 1 →
          (ALQ.getI q.actionListQueue (q.lastAction + 1)).isSome = true) ∧
        (q.inAction = true → q.lastAction ≠ -1 →
          (ALQ.getI q.actionListQueue q.lastAction).isSome = true)) := by
  intro q s
  refine ⟨?_, ?_, ?_, ?_, ?_⟩
  · intro h
    unfold ALQ.stepForward
    rcases h with h | h <;> simp [h]
  · intro h1 h2
    unfold ALQ.stepForward
    simp [h1, h2]
  · intro h
    unfold ALQ.stepBackward
    rcases h with h | h <;> simp [h]
  · intro h1 h2
    unfold ALQ.stepBackward
    simp [h1, h2]
  · intro hr
    have hinv := reachable_cursorInv hr
    obtain ⟨h1, h2⟩ := hinv
    exact ⟨fun _ hne => getI_isSome (by omega) (by omega),
           fun _ hne => getI_isSome (by omega) (by omega)⟩

/-! ### The tree generator -/

theorem opposite_opposite (nt : NodeKind) :
    oppositeNodeType (oppositeNodeType nt) = nt := by
  cases nt <;> rfl

/-- The node kind obtained after alternating `n` levels down from `nt`. -/
def opIter (n : ℕ) (nt : NodeKind) : NodeKind :=
  if n % 2 = 0 then nt else oppositeNodeType nt

theorem opIter_succ (n : ℕ) (nt : NodeKind) :
    opIter (n + 1) nt = opIter n (oppositeNodeType nt) := by
  unfold opIter
  rcases Nat.mod_two_eq_zero_or_one n with h | h <;>
    simp [h, Nat.add_mod, opposite_opposite]

/-- Every node of a generated subtree is itself a generated subtree, with
the kind alternated along the path and the remaining levels reduced by the
path length. -/
theorem nodeAt_generateSubTree :
    ∀ (p : List ℕ) (nt : NodeKind) (r bFac : ℕ) (u : TNode),
      nodeAt (generateSubTree nt r bFac) p = some u →
      p.length ≤ r ∧
        u = generateSubTree (opIter p.length nt) (r - p.length) bFac := by
  intro p
  induction p with
  | nil =>
    intro nt r bFac u h
    simp only [nodeAt, Option.some.injEq] at h
    subst h
    simp [opIter]
  | cons k p' ih =>
    intro nt r bFac u h
    cases r with
    | zero =>
      simp [generateSubTree, nodeAt, TNode.children] at h
    | succ r' =>
      rw [generateSubTree, nodeAt] at h
      by_cases hk : k < bFac
      · rw [show (TNode.mk nt ((List.range bFac).map fun _ =>
            generateSubTree (oppositeNodeType nt) r' bFac)).children =
            (List.range bFac).map (fun _ =>
              generateSubTree (oppositeNodeType nt) r' bFac) from rfl,
          List.get?_map, List.get?_range hk] at h
        simp only [Option.map_some'] at h
        obtain ⟨h1, h2⟩ := ih _ _ _ _ h
        refine ⟨by simpa using Nat.succ_le_succ h1, ?_⟩
        rw [h2, List.length_cons, opIter_succ]
        congr 1
        omega
      · rw [show (TNode.mk nt ((List.range bFac).map fun _ =>
            generateSubTree (oppositeNodeType nt) r' bFac)).children =
            (List.range bFac).map (fun _ =>
              generateSubTree (oppositeNodeType nt) r' bFac) from rfl,
          List.get?_map, List.get?_eq_none.mpr (by simpa using hk)] at h
        simp at h

/-- C9: for a root kind in {max, min}, depth ≥ 1 and branching factor ≥ 2,
the generated tree alternates node kinds max ↔ min with depth starting from
the root kind, every node at the declared maximum depth (path length
`d - 1`) is a leaf holding its generated numeric value, every node above it
has exactly `branchingFactor` children, and in the generation-time state
every non-root node's parent edge has `pruned = false` and
`entered = false`. -/
theorem claim_C9_generator_postcondition :
    ∀ (rootKind : NodeKind) (d bFac : ℕ) (L : List ℕ → ℤ),
      (rootKind = .maxNode ∨ rootKind = .minNode) → 1 ≤ d → 2 ≤ bFac →
      ∀ (p : List ℕ) (u : TNode),
        nodeAt (generateABTreeRootNode rootKind d bFac) p = some u →
        (p.length = d - 1 →
          u.nodeType = .leafNode ∧
          (initState (generateABTreeRootNode rootKind d bFac) L).vis
            (.nValue p) = .fvN (some (.fin (L p)))) ∧
        (p.length < d - 1 →
          u.nodeType =
            (if p.length % 2 = 0 then rootKind else oppositeNodeType rootKind) ∧
          u.children.length = bFac) ∧
        (p ≠ [] →
          (initState (generateABTreeRootNode rootKind d bFac) L).vis
            (.ePruned p) = .fvB false ∧
          (initState (generateABTreeRootNode rootKind d bFac) L).vis
            (.eEntered p) = .fvB false) := by
  intro rootKind d bFac L _hk _hd _hb p u h
  obtain ⟨h1, h2⟩ := nodeAt_generateSubTree p rootKind (d - 1) bFac u h
  refine ⟨?_, ?_, ?_⟩
  · intro hlen
    have hz : d - 1 - p.length = 0 := by omega
    rw [h2, hz]
    refine ⟨rfl, ?_⟩
    have hleaf : isLeafPath (generateABTreeRootNode rootKind d bFac) p = true := by
      unfold isLeafPath
      rw [h, h2, hz]
      rfl
    simp [initState, hleaf]
  · intro hlen
    obtain ⟨r', hr'⟩ : ∃ r', d - 1 - p.length = r' + 1 :=
      ⟨d - 1 - p.length - 1, by omega⟩
    rw [h2, hr']
    exact ⟨rfl, by simp [generateSubTree, TNode.children]⟩
  · intro _
    exact ⟨rfl, rfl⟩

/-- Witness for C9 on the depth-3, branching-factor-2 max-rooted tree. -/
theorem claim_C9_generator_postcondition_witness :
    (generateSubTree NodeKind.minNode 1 2).nodeType = NodeKind.minNode ∧
    (generateSubTree NodeKind.minNode 1 2).children.length = 2 := by
  have h := claim_C9_generator_postcondition .maxNode 3 2 (fun _ => 0)
    (Or.inl rfl) (by norm_num) (by norm_num) [0]
    (generateSubTree .minNode 1 2) rfl
  have h2 := (h.2.1 (by norm_num))
  simpa using h2

/-- Witness for C7: on a reachable queue in playback with one step and the
cursor at −1, `stepForward` succeeds and the accessed index is in bounds. -/
theorem claim_C7_boundary_stepping_witness :
    (ALQ.getI [[]] 0).isSome = true ∧
    (⟨false, -1, [[]], 1⟩ : ALQ).stepForward
      (initState (.mk .leafNode []) fun _ => 0) =
      (false, ⟨false, -1, [[]], 1⟩, initState (.mk .leafNode []) fun _ => 0) := by
  have hreach : Reachable (⟨true, -1, [[]], 1⟩ : ALQ) :=
    Reachable.setInAction _ true (Reachable.push ALQ.new [] Reachable.new)
  have h := claim_C7_boundary_stepping ⟨true, -1, [[]], 1⟩
    (initState (.mk .leafNode []) fun _ => 0)
  have h2 := claim_C7_boundary_stepping ⟨false, -1, [[]], 1⟩
    (initState (.mk .leafNode []) fun _ => 0)
  refine ⟨?_, ?_⟩
  · have := (h.2.2.2.2 hreach).1 rfl (by norm_num)
    simpa using this
  · exact h2.1 (Or.inl rfl)

/-! ### Frame properties of the search compiler -/

@[simp] theorem TState.setShadow_vis (s : TState) (l : Loc) (v : FV) :
    (s.setShadow l v).vis = s.vis := rfl

@[simp] theorem TState.setVis_shadow (s : TState) (l : Loc) (v : FV) :
    (s.setVis l v).shadow = s.shadow := rfl

theorem TState.setShadow_shadow (s : TState) (l : Loc) (v : FV) :
    (s.setShadow l v).shadow = Function.update s.shadow l v := rfl

theorem TState.setVis_vis (s : TState) (l : Loc) (v : FV) :
    (s.setVis l v).vis = Function.update s.vis l v := rfl

theorem abIter_vis (p : List ℕ) (a b : EVal) (m : Bool) (lce : List Action)
    (curVal : EVal) (res : ABRes) :
    (abIter p a b m lce curVal res).st.vis = res.st.vis := by
  simp only [abIter]
  split_ifs <;> rfl

mutual

theorem pruneInner_vis : ∀ (t : TNode) (p : List ℕ) (s : TState),
    (pruneInner t p s).2.vis = s.vis
  | .mk nt cs, p, s => by
    rw [pruneInner]
    by_cases hp : p = []
    · rw [if_pos hp]
      exact pruneChildren_vis cs p 0 s
    · rw [if_neg hp]
      exact pruneChildren_vis cs p 0 _
termination_by t _ _ => sizeOf t
decreasing_by all_goals simp_wf <;> omega

theorem pruneChildren_vis : ∀ (cs : List TNode) (p : List ℕ) (k : ℕ)
    (s : TState), (pruneChildren cs p k s).2.vis = s.vis
  | [], _, _, _ => by rw [pruneChildren]
  | c :: rest, p, k, s => by
    rw [pruneChildren]
    dsimp only
    rw [pruneChildren_vis rest, pruneInner_vis c]
termination_by cs _ _ _ => sizeOf cs
decreasing_by all_goals simp_wf <;> omega

end

mutual

/-- The search compiler only records actions; it never applies one, so the
visible state is untouched. -/
theorem abActions_vis : ∀ (t : TNode) (p : List ℕ) (a b : EVal) (m : Bool)
    (s : TState), (abActions t p a b m s).st.vis = s.vis
  | .mk nt cs, p, a, b, m, s => by
    rw [abActions]
    split
    · rfl
    · dsimp only
      rw [abLoop_vis cs]
      rfl
termination_by t _ _ _ _ _ => sizeOf t
decreasing_by all_goals simp_wf <;> omega

theorem abLoop_vis : ∀ (cs : List TNode) (p : List ℕ) (k : ℕ) (a b : EVal)
    (m : Bool) (pr : Bool) (lce : List Action) (cv : EVal) (s : TState),
    (abLoop cs p k a b m pr lce cv s).2.2.2.vis = s.vis
  | [], _, _, _, _, _, _, _, _, _ => by rw [abLoop]
  | c :: rest, p, k, a, b, m, pr, lce, cv, s => by
    rw [abLoop]
    split
    · dsimp only
      rw [abLoop_vis rest]
      simp only [generatePruneActionList, TState.setShadow_vis]
      rw [pruneInner_vis c]
    · dsimp only
      rw [abLoop_vis rest, abIter_vis, abActions_vis c]
termination_by cs _ _ _ _ _ _ _ _ _ => sizeOf cs
decreasing_by all_goals simp_wf <;> omega

end

/-- The path of the node (or edge target node) owning a location. -/
def Loc.path : Loc → List ℕ
  | .nValue p => p
  | .nAlpha p => p
  | .nBeta p => p
  | .nEntered p => p
  | .nPruned p => p
  | .eEntered p => p
  | .ePruned p => p

theorem prefix_of_snoc {p q : List ℕ} {j : ℕ} (h : p ++ [j] <+: q) :
    p <+: q :=
  List.IsPrefix.trans ⟨[j], rfl⟩ h

theorem not_prefix_snoc_ne {p q : List ℕ} {i j : ℕ} (hij : i ≠ j)
    (h : p ++ [i] <+: q) : ¬ (p ++ [j] <+: q) := by
  intro h'
  obtain ⟨t1, ht1⟩ := h
  obtain ⟨t2, ht2⟩ := h'
  rw [← ht1] at ht2
  have h2 : j = i ∧ t2 = t1 := by simpa using ht2
  exact hij h2.1.symm

theorem setShadow_shadow_ne (s : TState) {l l' : Loc} (v : FV) (h : l' ≠ l) :
    (s.setShadow l v).shadow l' = s.shadow l' := by
  rw [TState.setShadow_shadow, Function.update_noteq h]

/-- A location whose path differs from `p` is distinct from every location
of the node at `p` and of its parent edge. -/
theorem loc_ne_of_path_ne {l : Loc} {p : List ℕ} (h : l.path ≠ p) :
    l ≠ .nValue p ∧ l ≠ .nAlpha p ∧ l ≠ .nBeta p ∧ l ≠ .nEntered p ∧
    l ≠ .nPruned p ∧ l ≠ .eEntered p ∧ l ≠ .ePruned p := by
  refine ⟨?_, ?_, ?_, ?_, ?_, ?_, ?_⟩ <;> (intro he; subst he; exact h rfl)

mutual

theorem pruneInner_shadow_frame : ∀ (t : TNode) (q : List ℕ) (s : TState)
    (l : Loc), ¬ (q <+: l.path) → (pruneInner t q s).2.shadow l = s.shadow l
  | .mk nt cs, q, s, l, h => by
    rw [pruneInner]
    by_cases hq : q = []
    · rw [if_pos hq]
      exact pruneChildren_shadow_frame cs q 0 s l (fun j _ => by
        intro hj
        exact h (prefix_of_snoc hj))
    · rw [if_neg hq]
      dsimp only
      rw [pruneChildren_shadow_frame cs q 0 _ l (fun j _ => by
        intro hj
        exact h (prefix_of_snoc hj))]
      refine setShadow_shadow_ne s _ ?_
      intro he
      apply h
      rw [he]
      simp [Loc.path]
termination_by t _ _ _ _ => sizeOf t
decreasing_by all_goals simp_wf <;> omega

theorem pruneChildren_shadow_frame : ∀ (cs : List TNode) (q : List ℕ) (k : ℕ)
    (s : TState) (l : Loc), (∀ j, k ≤ j → ¬ ((q ++ [j]) <+: l.path)) →
    (pruneChildren cs q k s).2.shadow l = s.shadow l
  | [], _, _, _, _, _ => by rw [pruneChildren]
  | c :: rest, q, k, s, l, h => by
    rw [pruneChildren]
    dsimp only
    rw [pruneChildren_shadow_frame rest q (k + 1) _ l
      (fun j hj => h j (by omega))]
    exact pruneInner_shadow_frame c (q ++ [k]) s l (h k le_rfl)
termination_by cs _ _ _ _ _ => sizeOf cs
decreasing_by all_goals simp_wf <;> omega

end

theorem abIter_shadow_frame (p : List ℕ) (a b : EVal) (m : Bool)
    (lce : List Action) (curVal : EVal) (res : ABRes) (l : Loc)
    (h : l.path ≠ p) :
    (abIter p a b m lce curVal res).st.shadow l = res.st.shadow l := by
  obtain ⟨h1, h2, h3, -, -, -, -⟩ := loc_ne_of_path_ne h
  simp only [abIter]
  split_ifs <;>
    simp_all [setShadow_shadow_ne]

mutual

theorem abActions_shadow_frame : ∀ (t : TNode) (p : List ℕ) (a b : EVal)
    (m : Bool) (s : TState) (l : Loc), ¬ (p <+: l.path) →
    (abActions t p a b m s).st.shadow l = s.shadow l
  | .mk nt cs, p, a, b, m, s, l, h => by
    have hne : l.path ≠ p := fun he => h (he ▸ List.prefix_rfl)
    obtain ⟨-, h2, h3, -, -, -, -⟩ := loc_ne_of_path_ne hne
    rw [abActions]
    split
    · rfl
    · dsimp only
      rw [abLoop_shadow_frame cs p 0 a b m false []
        (if m then .negInf else .posInf) _ l hne
        (fun j _ => fun hj => h (prefix_of_snoc hj))]
      rw [setShadow_shadow_ne _ _ h3, setShadow_shadow_ne _ _ h2]
termination_by t _ _ _ _ _ _ _ => sizeOf t
decreasing_by all_goals simp_wf <;> omega

theorem abLoop_shadow_frame : ∀ (cs : List TNode) (p : List ℕ) (k : ℕ)
    (a b : EVal) (m : Bool) (pr : Bool) (lce : List Action) (cv : EVal)
    (s : TState) (l : Loc), l.path ≠ p →
    (∀ j, k ≤ j → ¬ ((p ++ [j]) <+: l.path)) →
    (abLoop cs p k a b m pr lce cv s).2.2.2.shadow l = s.shadow l
  | [], _, _, _, _, _, _, _, _, _, _, _, _ => by rw [abLoop]
  | c :: rest, p, k, a, b, m, pr, lce, cv, s, l, h, hj => by
    obtain ⟨-, -, -, -, h5, -, -⟩ := loc_ne_of_path_ne h
    rw [abLoop]
    split
    · dsimp only
      rw [abLoop_shadow_frame rest p (k + 1) a b m pr _ cv _ l h
        (fun j hjk => hj j (by omega))]
      rw [setShadow_shadow_ne _ _ h5]
      exact pruneInner_shadow_frame c (p ++ [k]) s l (hj k le_rfl)
    · dsimp only
      rw [abLoop_shadow_frame rest p (k + 1) _ _ m _ _ _ _ l h
        (fun j hjk => hj j (by omega))]
      rw [abIter_shadow_frame p a b m lce cv _ l h]
      exact abActions_shadow_frame c (p ++ [k]) a b (!m) s l (hj k le_rfl)
termination_by cs _ _ _ _ _ _ _ _ _ _ _ _ => sizeOf cs
decreasing_by all_goals simp_wf <;> omega

end

/-! ### The search value is a pure function of the visible leaf values -/

theorem abIter_newA (p : List ℕ) (a b : EVal) (m : Bool) (lce : List Action)
    (cv : EVal) (res : ABRes) :
    (abIter p a b m lce cv res).newA =
      if m ∧ (if m then decide (a < res.returnVal)
              else decide (res.returnVal < b)) then res.returnVal else a := by
  simp only [abIter]
  split_ifs <;> first | rfl | simp_all

theorem abIter_newB (p : List ℕ) (a b : EVal) (m : Bool) (lce : List Action)
    (cv : EVal) (res : ABRes) :
    (abIter p a b m lce cv res).newB =
      if ¬ m ∧ (if m then decide (a < res.returnVal)
                else decide (res.returnVal < b)) then res.returnVal else b := by
  simp only [abIter]
  split_ifs <;> first | rfl | simp_all

theorem abIter_newCurVal (p : List ℕ) (a b : EVal) (m : Bool)
    (lce : List Action) (cv : EVal) (res : ABRes) :
    (abIter p a b m lce cv res).newCurVal =
      if (if m then decide (cv < res.returnVal)
          else decide (res.returnVal < cv)) then res.returnVal else cv := by
  simp only [abIter]
  split_ifs <;> first | rfl | simp_all

theorem visV_setShadow (s : TState) (l : Loc) (v : FV) :
    visV (s.setShadow l v) = visV s := rfl

theorem visV_eq_of_vis {s s' : TState} (h : s'.vis = s.vis) :
    visV s' = visV s := by
  unfold visV
  rw [h]

mutual

/-- `returnVal` of `abActions` is the pure `abVal` of the visible leaf
values of the input state. -/
theorem abActions_returnVal : ∀ (t : TNode) (p : List ℕ) (a b : EVal)
    (m : Bool) (s : TState),
    (abActions t p a b m s).returnVal = abVal (visV s) t p a b m
  | .mk nt cs, p, a, b, m, s => by
    rw [abActions, abVal]
    split
    · rfl
    · dsimp only
      rw [abLoop_returnVal cs]
      rfl
termination_by t _ _ _ _ _ => sizeOf t
decreasing_by all_goals simp_wf <;> omega

theorem abLoop_returnVal : ∀ (cs : List TNode) (p : List ℕ) (k : ℕ)
    (a b : EVal) (m : Bool) (pr : Bool) (lce : List Action) (cv : EVal)
    (s : TState),
    (abLoop cs p k a b m pr lce cv s).1 = abValLoop (visV s) cs p k a b m pr cv
  | [], _, _, _, _, _, _, _, _, _ => by rw [abLoop, abValLoop]
  | c :: rest, p, k, a, b, m, pr, lce, cv, s => by
    rw [abLoop, abValLoop]
    split
    · dsimp only
      rw [abLoop_returnVal rest]
      have hv : visV ((generatePruneActionList c (p ++ [k]) s).2.setShadow
          (.nPruned p) (.fvB true)) = visV s := by
        apply visV_eq_of_vis
        simp only [TState.setShadow_vis, generatePruneActionList]
        exact pruneInner_vis c (p ++ [k]) s
      rw [hv]
    · dsimp only
      rw [abLoop_returnVal rest]
      have hvis : visV (abIter p a b m lce cv
          (abActions c (p ++ [k]) a b (!m) s)).st = visV s := by
        apply visV_eq_of_vis
        rw [abIter_vis]
        exact abActions_vis c (p ++ [k]) a b (!m) s
      rw [hvis, abIter_newA, abIter_newB, abIter_newCurVal,
        abActions_returnVal c]
termination_by cs _ _ _ _ _ _ _ _ _ => sizeOf cs
decreasing_by all_goals simp_wf <;> omega

end

/-! ### Knuth–Moore correctness of the fail-soft search value -/

theorem abValLoop_pruned (V : List ℕ → EVal) (p : List ℕ) :
    ∀ (cs : List TNode) (k : ℕ) (a b : EVal) (m : Bool) (cv : EVal),
      abValLoop V cs p k a b m true cv = cv := by
  intro cs
  induction cs with
  | nil => intro k a b m cv; rw [abValLoop]
  | cons c rest ih =>
    intro k a b m cv
    rw [abValLoop, if_pos rfl]
    exact ih (k + 1) a b m cv

theorem if_decide_lt_max (x y : EVal) :
    (if decide (x < y) = true then y else x) = max x y := by
  by_cases h : x < y
  · simp [h, max_eq_right h.le]
  · simp [h, max_eq_left (not_lt.mp h)]

theorem if_decide_lt_min (x y : EVal) :
    (if decide (y < x) = true then y else x) = min x y := by
  by_cases h : y < x
  · simp [h, min_eq_right h.le]
  · simp [h, min_eq_left (not_lt.mp h)]

theorem abValLoop_cons_max (V : List ℕ → EVal) (p : List ℕ) (c : TNode)
    (rest : List TNode) (k : ℕ) (a b cv : EVal) :
    abValLoop V (c :: rest) p k a b true false cv =
      abValLoop V rest p (k + 1) (max a (abVal V c (p ++ [k]) a b false)) b
        true (decide (b ≤ max a (abVal V c (p ++ [k]) a b false)))
        (max cv (abVal V c (p ++ [k]) a b false)) := by
  rw [abValLoop]
  simp only [Bool.false_eq_true, if_false, if_true, eq_self_iff_true, true_and,
    not_true, false_and, Bool.not_true, if_decide_lt_max]

theorem abValLoop_cons_min (V : List ℕ → EVal) (p : List ℕ) (c : TNode)
    (rest : List TNode) (k : ℕ) (a b cv : EVal) :
    abValLoop V (c :: rest) p k a b false false cv =
      abValLoop V rest p (k + 1) a (min b (abVal V c (p ++ [k]) a b true))
        false (decide (min b (abVal V c (p ++ [k]) a b true) ≤ a))
        (min cv (abVal V c (p ++ [k]) a b true)) := by
  rw [abValLoop]
  simp only [Bool.false_eq_true, if_false, if_true, eq_self_iff_true, true_and,
    not_false_iff, false_and, Bool.not_false, Bool.not_true, if_decide_lt_min]

theorem abValLoop_km_max (V : List ℕ → EVal) (p : List ℕ) :
    ∀ (cs : List TNode) (k : ℕ) (a b cv : EVal),
      a < b → cv ≤ a →
      (∀ c ∈ cs, ∀ (j : ℕ) (a' b' : EVal), a' < b' →
        KMspec V c (p ++ [j]) a' b' false) →
      ((abValLoop V cs p k a b true false cv ≤ a →
         max cv (mmList V cs p k true) ≤ abValLoop V cs p k a b true false cv) ∧
       (b ≤ abValLoop V cs p k a b true false cv →
         abValLoop V cs p k a b true false cv ≤ max cv (mmList V cs p k true)) ∧
       (a < abValLoop V cs p k a b true false cv →
         abValLoop V cs p k a b true false cv < b →
         abValLoop V cs p k a b true false cv = max cv (mmList V cs p k true)))
    := by
  intro cs
  induction cs with
  | nil =>
    intro k a b cv hab hcv _
    rw [abValLoop, mmList]
    simp only [eq_self_iff_true, if_true]
    refine ⟨?_, ?_, ?_⟩
    · intro _
      rw [max_eq_left (EVal.negInf_le cv)]
    · intro h
      exact absurd hab (not_lt.mpr (h.trans hcv))
    · intro h1 _
      exact absurd h1 (not_lt.mpr hcv)
  | cons c rest ih =>
    intro k a b cv hab hcv hKM
    have hKMc := hKM c (List.mem_cons_self c rest) k a b hab
    rw [abValLoop_cons_max, mmList]
    simp only [Bool.not_true, eq_self_iff_true, if_true]
    set r := abVal V c (p ++ [k]) a b false with hr
    set F := minimaxF V c (p ++ [k]) false with hF
    set Srest := mmList V rest p (k + 1) true with hS
    by_cases hcut : b ≤ max a r
    · rw [decide_eq_true hcut, abValLoop_pruned]
      have hbr : b ≤ r := by
        rcases le_max_iff.mp hcut with h | h
        · exact absurd hab (not_lt.mpr h)
        · exact h
      have hFr : r ≤ F := hKMc.2.1 hbr
      refine ⟨?_, ?_, ?_⟩
      · intro hGa
        have hra : r ≤ a := le_trans (le_max_right cv r) hGa
        exact absurd (hbr.trans hra) (not_le.mpr hab)
      · intro _
        exact max_le_max le_rfl (hFr.trans (le_max_left F Srest))
      · intro _ h2
        exact absurd h2 (not_lt.mpr (hbr.trans (le_max_right cv r)))
    · have hab' : max a r < b := not_le.mp hcut
      have hcv' : max cv r ≤ max a r := max_le_max hcv le_rfl
      have hrb : r < b := lt_of_le_of_lt (le_max_right a r) hab'
      rw [show decide (b ≤ max a r) = false from decide_eq_false hcut]
      obtain ⟨ih1, ih2, ih3⟩ := ih (k + 1) (max a r) b (max cv r) hab' hcv'
        (fun c' hc' => hKM c' (List.mem_cons_of_mem _ hc'))
      set G := abValLoop V rest p (k + 1) (max a r) b true false (max cv r)
        with hG
      refine ⟨?_, ?_, ?_⟩
      · intro hGa
        have h4 := ih1 (hGa.trans (le_max_left a r))
        have hcvG : cv ≤ G :=
          ((le_max_left cv r).trans (le_max_left _ Srest)).trans h4
        have hrG : r ≤ G :=
          ((le_max_right cv r).trans (le_max_left _ Srest)).trans h4
        have hSG : Srest ≤ G := (le_max_right _ Srest).trans h4
        have hFle : F ≤ r := hKMc.1 (hrG.trans hGa)
        exact max_le hcvG (max_le (hFle.trans hrG) hSG)
      · intro hbG
        have h4 := ih2 hbG
        rcases le_max_iff.mp h4 with h5 | h5
        · rcases le_max_iff.mp h5 with h6 | h6
          · exact h6.trans (le_max_left cv _)
          · exact absurd ((hbG.trans h6).trans_lt hrb) (lt_irrefl b)
        · exact h5.trans ((le_max_right F Srest).trans (le_max_right cv _))
      · intro h1 h2
        by_cases h5 : max a r < G
        · have h6 := ih3 h5 h2
          have hcvG : cv < G := lt_of_le_of_lt (hcv.trans (le_max_left a r)) h5
          have hrG : r < G := lt_of_le_of_lt (le_max_right a r) h5
          have hSrest : Srest = G := by
            rcases max_cases (max cv r) Srest with ⟨he, _⟩ | ⟨he, _⟩
            · rw [he] at h6
              exact absurd h6 (ne_of_gt (max_lt hcvG hrG))
            · rw [he] at h6
              exact h6.symm
          have hFG : F ≤ G := by
            by_cases hra : r ≤ a
            · exact (hKMc.1 hra).trans hrG.le
            · have hre : r = F := by
                rw [hF]
                exact hKMc.2.2 (not_le.mp hra) hrb
              rw [← hre]
              exact hrG.le
          rw [hSrest, max_eq_right hFG, max_eq_right hcvG.le]
        · have h6 := ih1 (not_lt.mp h5)
          have hrG : r ≤ G :=
            ((le_max_right cv r).trans (le_max_left _ _)).trans h6
          have hSG : Srest ≤ G := (le_max_right _ _).trans h6
          have hGr : G ≤ r := by
            rcases le_max_iff.mp (not_lt.mp h5) with h7 | h7
            · exact absurd h1 (not_lt.mpr h7)
            · exact h7
          have hGeqr : G = r := le_antisymm hGr hrG
          have h1r : a < r := by rw [← hGeqr]; exact h1
          have hFeq : r = F := by
            rw [hF]
            exact hKMc.2.2 h1r hrb
          have hSr : Srest ≤ r := by rw [← hGeqr]; exact hSG
          have hcvr : cv ≤ r := hcv.trans h1r.le
          rw [hGeqr, ← hFeq, max_eq_left hSr, max_eq_right hcvr]

theorem abValLoop_km_min (V : List ℕ → EVal) (p : List ℕ) :
    ∀ (cs : List TNode) (k : ℕ) (a b cv : EVal),
      a < b → b ≤ cv →
      (∀ c ∈ cs, ∀ (j : ℕ) (a' b' : EVal), a' < b' →
        KMspec V c (p ++ [j]) a' b' true) →
      ((b ≤ abValLoop V cs p k a b false false cv →
         abValLoop V cs p k a b false false cv ≤ min cv (mmList V cs p k false)) ∧
       (abValLoop V cs p k a b false false cv ≤ a →
         min cv (mmList V cs p k false) ≤ abValLoop V cs p k a b false false cv) ∧
       (a < abValLoop V cs p k a b false false cv →
         abValLoop V cs p k a b false false cv < b →
         abValLoop V cs p k a b false false cv = min cv (mmList V cs p k false)))
    := by
  intro cs
  induction cs with
  | nil =>
    intro k a b cv hab hcv _
    rw [abValLoop, mmList]
    simp only [Bool.false_eq_true, if_false]
    refine ⟨?_, ?_, ?_⟩
    · intro _
      rw [min_eq_left (EVal.le_posInf cv)]
    · intro h
      exact absurd hab (not_lt.mpr (hcv.trans h))
    · intro _ h2
      exact absurd h2 (not_lt.mpr hcv)
  | cons c rest ih =>
    intro k a b cv hab hcv hKM
    have hKMc := hKM c (List.mem_cons_self c rest) k a b hab
    rw [abValLoop_cons_min, mmList]
    simp only [Bool.not_false, Bool.false_eq_true, if_false]
    set r := abVal V c (p ++ [k]) a b true with hr
    set F := minimaxF V c (p ++ [k]) true with hF
    set Srest := mmList V rest p (k + 1) false with hS
    by_cases hcut : min b r ≤ a
    · rw [decide_eq_true hcut, abValLoop_pruned]
      have hbr : r ≤ a := by
        rcases min_le_iff.mp hcut with h | h
        · exact absurd hab (not_lt.mpr h)
        · exact h
      have hFr : F ≤ r := hKMc.1 hbr
      refine ⟨?_, ?_, ?_⟩
      · intro hGb
        have hra : b ≤ r := hGb.trans (min_le_right cv r)
        exact absurd (hra.trans hbr) (not_le.mpr hab)
      · intro _
        exact min_le_min le_rfl ((min_le_left F Srest).trans hFr)
      · intro h1 _
        exact absurd h1 (not_lt.mpr ((min_le_right cv r).trans hbr))
    · have hab' : a < min b r := not_le.mp hcut
      have hcv' : min b r ≤ min cv r := min_le_min hcv le_rfl
      have hrb : a < r := lt_of_lt_of_le hab' (min_le_right b r)
      rw [show decide (min b r ≤ a) = false from decide_eq_false hcut]
      obtain ⟨ih1, ih2, ih3⟩ := ih (k + 1) a (min b r) (min cv r) hab' hcv'
        (fun c' hc' => hKM c' (List.mem_cons_of_mem _ hc'))
      set G := abValLoop V rest p (k + 1) a (min b r) false false (min cv r)
        with hG
      refine ⟨?_, ?_, ?_⟩
      · intro hGb
        have h4 := ih1 ((min_le_left b r).trans hGb)
        have hcvG : G ≤ cv :=
          h4.trans ((min_le_left _ Srest).trans (min_le_left cv r))
        have hrG : G ≤ r :=
          h4.trans ((min_le_left _ Srest).trans (min_le_right cv r))
        have hSG : G ≤ Srest := h4.trans (min_le_right _ Srest)
        have hFle : r ≤ F := hKMc.2.1 (hGb.trans hrG)
        exact le_min hcvG (le_min (hrG.trans hFle) hSG)
      · intro hbG
        have h4 := ih2 hbG
        rcases min_le_iff.mp h4 with h5 | h5
        · rcases min_le_iff.mp h5 with h6 | h6
          · exact (min_le_left cv _).trans h6
          · exact absurd (hrb.trans_le (h6.trans hbG)) (lt_irrefl a)
        · exact ((min_le_right cv _).trans (min_le_right F Srest)).trans h5
      · intro h1 h2
        by_cases h5 : G < min b r
        · have h6 := ih3 h1 h5
          have hcvG : G < cv := lt_of_lt_of_le h5 ((min_le_left b r).trans hcv)
          have hrG : G < r := lt_of_lt_of_le h5 (min_le_right b r)
          have hSrest : Srest = G := by
            rcases min_cases (min cv r) Srest with ⟨he, _⟩ | ⟨he, _⟩
            · rw [he] at h6
              exact absurd h6 (ne_of_lt (lt_min hcvG hrG))
            · rw [he] at h6
              exact h6.symm
          have hFG : G ≤ F := by
            by_cases hra : b ≤ r
            · exact (hrG.le).trans (hKMc.2.1 hra)
            · have hre : r = F := by
                rw [hF]
                exact hKMc.2.2 hrb (not_le.mp hra)
              rw [← hre]
              exact hrG.le
          rw [hSrest, min_eq_right hFG, min_eq_right hcvG.le]
        · have h6 := ih1 (not_lt.mp h5)
          have hrG : G ≤ r :=
            h6.trans ((min_le_left _ _).trans (min_le_right cv r))
          have hSG : G ≤ Srest := h6.trans (min_le_right _ _)
          have hGr : r ≤ G := by
            rcases min_le_iff.mp (not_lt.mp h5) with h7 | h7
            · exact absurd h2 (not_lt.mpr h7)
            · exact h7
          have hGeqr : G = r := le_antisymm hrG hGr
          have h2r : r < b := by rw [← hGeqr]; exact h2
          have hFeq : r = F := by
            rw [hF]
            exact hKMc.2.2 hrb h2r
          have hSr : r ≤ Srest := by rw [← hGeqr]; exact hSG
          have hcvr : r ≤ cv := h2r.le.trans hcv
          rw [hGeqr, ← hFeq, min_eq_left hSr, min_eq_right hcvr]

/-- Knuth–Moore fail-soft correctness: for any window `a < b`, the pruning
search value fails low/high soundly and is exact inside the window. -/
theorem abVal_km : ∀ (t : TNode) (V : List ℕ → EVal) (p : List ℕ)
    (a b : EVal) (m : Bool), a < b → KMspec V t p a b m
  | .mk nt cs, V, p, a, b, m, hab => by
    by_cases hnt : nt = .leafNode
    · unfold KMspec
      simp only [abVal, minimaxF, if_pos hnt]
      exact ⟨fun _ => le_rfl, fun _ => le_rfl, fun _ _ => by simp⟩
    · have hch : ∀ c ∈ cs, ∀ (j : ℕ) (a' b' : EVal), a' < b' →
          KMspec V c (p ++ [j]) a' b' (!m) :=
        fun c hc j a' b' h => abVal_km c V (p ++ [j]) a' b' (!m) h
      unfold KMspec
      simp only [abVal, minimaxF, if_neg hnt]
      cases m
      · simp only [Bool.false_eq_true, if_false]
        obtain ⟨h1, h2, h3⟩ := abValLoop_km_min V p cs 0 a b .posInf hab
          (EVal.le_posInf b) (by simpa using hch)
        rw [min_eq_right (EVal.le_posInf _)] at h1 h2 h3
        exact ⟨h2, h1, h3⟩
      · simp only [eq_self_iff_true, if_true]
        obtain ⟨h1, h2, h3⟩ := abValLoop_km_max V p cs 0 a b .negInf hab
          (EVal.negInf_le a) (by simpa using hch)
        rw [max_eq_right (EVal.negInf_le _)] at h1 h2 h3
        exact ⟨h1, h2, h3⟩
termination_by t _ _ _ _ _ _ => sizeOf t
decreasing_by
  simp_wf
  have := List.sizeOf_lt_of_mem hc
  omega

/-- The loop value is either the incoming best value or some recursive
child search value. -/
theorem abValLoop_cases (V : List ℕ → EVal) (p : List ℕ) :
    ∀ (cs : List TNode) (k : ℕ) (a b : EVal) (m : Bool) (pr : Bool)
      (cv : EVal),
      abValLoop V cs p k a b m pr cv = cv ∨
      ∃ c ∈ cs, ∃ (j : ℕ) (a' b' : EVal),
        abValLoop V cs p k a b m pr cv = abVal V c (p ++ [j]) a' b' (!m) := by
  intro cs
  induction cs with
  | nil => intro k a b m pr cv; left; rw [abValLoop]
  | cons c rest ih =>
    intro k a b m pr cv
    cases pr
    · cases m
      · rw [abValLoop_cons_min]
        rcases ih (k + 1) a (min b (abVal V c (p ++ [k]) a b true)) false
          (decide (min b (abVal V c (p ++ [k]) a b true) ≤ a))
          (min cv (abVal V c (p ++ [k]) a b true)) with h | ⟨c', hc', j, a', b', h⟩
        · rw [h]
          rcases min_cases cv (abVal V c (p ++ [k]) a b true) with ⟨he, _⟩ | ⟨he, _⟩
          · left; exact he
          · right
            exact ⟨c, List.mem_cons_self c rest, k, a, b, by rw [he]; rfl⟩
        · right
          exact ⟨c', List.mem_cons_of_mem _ hc', j, a', b', h⟩
      · rw [abValLoop_cons_max]
        rcases ih (k + 1) (max a (abVal V c (p ++ [k]) a b false)) b true
          (decide (b ≤ max a (abVal V c (p ++ [k]) a b false)))
          (max cv (abVal V c (p ++ [k]) a b false)) with h | ⟨c', hc', j, a', b', h⟩
        · rw [h]
          rcases max_cases cv (abVal V c (p ++ [k]) a b false) with ⟨he, _⟩ | ⟨he, _⟩
          · left; exact he
          · right
            exact ⟨c, List.mem_cons_self c rest, k, a, b, by rw [he]; rfl⟩
        · right
          exact ⟨c', List.mem_cons_of_mem _ hc', j, a', b', h⟩
    · left
      exact abValLoop_pruned V p (c :: rest) k a b m cv

/-- On complete trees with finite leaf values the search value is finite. -/
theorem abVal_fin : ∀ (t : TNode) (V : List ℕ → EVal) (p : List ℕ)
    (a b : EVal) (m : Bool), CompleteT t → (∀ q, ∃ z, V q = .fin z) →
    ∃ z, abVal V t p a b m = .fin z
  | .mk nt cs, V, p, a, b, m, hcomp, hV => by
    by_cases hnt : nt = .leafNode
    · rw [abVal, if_pos hnt]
      exact hV p
    · have hcs : cs ≠ [] ∧ ∀ c ∈ cs, CompleteT c := by
        cases hcomp with
        | leaf _ => exact absurd rfl hnt
        | node _ _ hne hc => exact ⟨hne, hc⟩
      rcases hx : cs with _ | ⟨c, rest⟩
      · exact absurd hx hcs.1
      · subst hx
        have hcC : CompleteT c := hcs.2 c (List.mem_cons_self c rest)
        rw [abVal, if_neg hnt]
        cases m
        · simp only [Bool.false_eq_true, if_false]
          rw [abValLoop_cons_min, min_eq_right (EVal.le_posInf _)]
          obtain ⟨z, hz⟩ := abVal_fin c V (p ++ [0]) a b true hcC hV
          rcases abValLoop_cases V p rest (0 + 1) a
            (min b (abVal V c (p ++ [0]) a b true)) false
            (decide (min b (abVal V c (p ++ [0]) a b true) ≤ a))
            (abVal V c (p ++ [0]) a b true)
            with h | ⟨c', hc', j, a', b', h⟩
          · rw [h]
            exact ⟨z, hz⟩
          · rw [h]
            simp only [Bool.not_false]
            exact abVal_fin c' V (p ++ [j]) a' b' true
              (hcs.2 c' (List.mem_cons_of_mem _ hc')) hV
        · simp only [eq_self_iff_true, if_true]
          rw [abValLoop_cons_max, max_eq_right (EVal.negInf_le _)]
          obtain ⟨z, hz⟩ := abVal_fin c V (p ++ [0]) a b false hcC hV
          rcases abValLoop_cases V p rest (0 + 1)
            (max a (abVal V c (p ++ [0]) a b false)) b true
            (decide (b ≤ max a (abVal V c (p ++ [0]) a b false)))
            (abVal V c (p ++ [0]) a b false)
            with h | ⟨c', hc', j, a', b', h⟩
          · rw [h]
            exact ⟨z, hz⟩
          · rw [h]
            simp only [Bool.not_true]
            exact abVal_fin c' V (p ++ [j]) a' b' false
              (hcs.2 c' (List.mem_cons_of_mem _ hc')) hV
termination_by t _ _ _ _ _ _ _ => sizeOf t
decreasing_by
  all_goals simp_wf
  all_goals subst hx
  all_goals
    first
      | (have h0 := List.sizeOf_lt_of_mem hc'
         simp only [List.cons.sizeOf_spec] at h0 ⊢
         omega)
      | (simp only [List.cons.sizeOf_spec]
         omega)

/-! ### The recorded shadow value at an interior node is its search value -/

theorem snoc_not_prefix_self (p : List ℕ) (k : ℕ) : ¬ ((p ++ [k]) <+: p) := by
  intro h
  have := h.length_le
  simp at this

theorem abIter_st_shadow_nValue (p : List ℕ) (a b : EVal) (m : Bool)
    (lce : List Action) (cv : EVal) (res : ABRes) :
    (abIter p a b m lce cv res).st.shadow (.nValue p) =
      if (if m then decide (cv < res.returnVal)
          else decide (res.returnVal < cv)) = true
      then .fvN (some res.returnVal) else res.st.shadow (.nValue p) := by
  simp only [abIter]
  split_ifs <;>
    simp_all [TState.setShadow_shadow, Function.update_apply]

/-- Through the child loop, once the shadow `__value` of the node tracks the
running best value it keeps tracking it; before the first improvement the
running best is still the starting extreme. -/
theorem abLoop_shadow_value (p : List ℕ) :
    ∀ (cs : List TNode) (k : ℕ) (a b : EVal) (m : Bool) (pr : Bool)
      (lce : List Action) (cv : EVal) (s : TState),
      (cv = (if m then EVal.negInf else EVal.posInf) ∨
        s.shadow (.nValue p) = .fvN (some cv)) →
      ((abLoop cs p k a b m pr lce cv s).1 =
          (if m then EVal.negInf else EVal.posInf) ∨
        (abLoop cs p k a b m pr lce cv s).2.2.2.shadow (.nValue p) =
          .fvN (some (abLoop cs p k a b m pr lce cv s).1)) := by
  intro cs
  induction cs with
  | nil =>
    intro k a b m pr lce cv s hinv
    rw [abLoop]
    exact hinv
  | cons c rest ih =>
    intro k a b m pr lce cv s hinv
    rw [abLoop]
    split
    · dsimp only
      apply ih
      rcases hinv with h | h
      · exact Or.inl h
      · right
        rw [setShadow_shadow_ne _ _ (by simp), generatePruneActionList]
        rw [pruneInner_shadow_frame c (p ++ [k]) s (Loc.nValue p)
          (snoc_not_prefix_self p k)]
        exact h
    · dsimp only
      have hframe : (abActions c (p ++ [k]) a b (!m) s).st.shadow (.nValue p) =
          s.shadow (.nValue p) :=
        abActions_shadow_frame c (p ++ [k]) a b (!m) s (Loc.nValue p)
          (snoc_not_prefix_self p k)
      apply ih
      by_cases himp : (if m then
          decide (cv < (abActions c (p ++ [k]) a b (!m) s).returnVal)
        else decide ((abActions c (p ++ [k]) a b (!m) s).returnVal < cv)) = true
      · right
        rw [abIter_newCurVal, abIter_st_shadow_nValue, if_pos himp, if_pos himp]
      · rw [abIter_newCurVal, abIter_st_shadow_nValue, if_neg himp, if_neg himp]
        rcases hinv with h | h
        · exact Or.inl h
        · right
          rw [hframe]
          exact h

/-- After `abActions` on an interior node, either the search value is still
the starting extreme (impossible on complete finite-valued trees) or the
node's shadow `__value` records exactly the returned search value. -/
theorem abActions_shadow_value (nt : NodeKind) (cs : List TNode) (p : List ℕ)
    (a b : EVal) (m : Bool) (s : TState) (hnt : nt ≠ .leafNode) :
    (abActions (.mk nt cs) p a b m s).returnVal =
        (if m then EVal.negInf else EVal.posInf) ∨
    (abActions (.mk nt cs) p a b m s).st.shadow (.nValue p) =
      .fvN (some (abActions (.mk nt cs) p a b m s).returnVal) := by
  rw [abActions, if_neg hnt]
  dsimp only
  exact abLoop_shadow_value p cs 0 a b m false [] _ _ (Or.inl rfl)

/-! ### Generated trees: completeness, kind-driven vs flag-driven minimax -/

theorem completeT_generateSubTree (bFac : ℕ) (hb : 1 ≤ bFac) :
    ∀ (r : ℕ) (nt : NodeKind), CompleteT (generateSubTree nt r bFac) := by
  intro r
  induction r with
  | zero => intro nt; exact CompleteT.leaf []
  | succ r ih =>
    intro nt
    rw [generateSubTree]
    refine CompleteT.node _ _ ?_ ?_
    · simp [List.range_eq_nil]
      omega
    · intro c hc
      obtain ⟨j, _, hj⟩ := List.mem_map.mp hc
      rw [← hj]
      exact ih (oppositeNodeType nt)

theorem visV_initState (t : TNode) (L : List ℕ → ℤ) :
    visV (initState t L) =
      fun q => if isLeafPath t q then EVal.fin (L q) else EVal.fin 0 := by
  funext q
  unfold visV initState
  by_cases h : isLeafPath t q <;> simp [h, FV.getN]

theorem visV_initState_fin (t : TNode) (L : List ℕ → ℤ) :
    ∀ q, ∃ z, visV (initState t L) q = .fin z := by
  intro q
  rw [visV_initState]
  by_cases h : isLeafPath t q <;> simp [h]

theorem mmKindList_eq (V : List ℕ → EVal) :
    ∀ (cs : List TNode) (p : List ℕ) (k : ℕ) (m : Bool),
      (∀ c ∈ cs, ∀ q, minimax V c q = minimaxF V c q (!m)) →
      mmKindList V cs p k m = mmList V cs p k m := by
  intro cs
  induction cs with
  | nil => intro p k m _; rw [mmKindList, mmList]
  | cons c rest ih =>
    intro p k m h
    rw [mmKindList, mmList]
    rw [h c (List.mem_cons_self c rest), ih p (k + 1) m
      (fun c' hc' => h c' (List.mem_cons_of_mem _ hc'))]

/-- On generated trees (kinds alternating from a max/min root) the
kind-driven minimax agrees with the flag-driven minimax. -/
theorem minimax_generateSubTree (V : List ℕ → EVal) (bFac : ℕ) :
    ∀ (r : ℕ) (nt : NodeKind), (nt = .maxNode ∨ nt = .minNode) →
      ∀ (p : List ℕ),
        minimax V (generateSubTree nt r bFac) p =
          minimaxF V (generateSubTree nt r bFac) p (decide (nt = .maxNode)) := by
  intro r
  induction r with
  | zero =>
    intro nt _ p
    rw [generateSubTree, minimax, minimaxF]
    simp
  | succ r ih =>
    intro nt hnt p
    rw [generateSubTree, minimax, minimaxF]
    rcases hnt with h | h <;> subst h
    · simp only [show (NodeKind.maxNode = NodeKind.leafNode) = False by simp,
        if_false, eq_self_iff_true, if_true, decide_eq_true_eq]
      apply mmKindList_eq
      intro c hc q
      obtain ⟨j, _, hj⟩ := List.mem_map.mp hc
      rw [← hj]
      have := ih .minNode (Or.inr rfl) q
      simpa using this
    · simp only [show (NodeKind.minNode = NodeKind.leafNode) = False by simp,
        show (NodeKind.minNode = NodeKind.maxNode) = False by simp,
        if_false, eq_self_iff_true, if_true, decide_eq_true_eq, decide_eq_false]
      apply mmKindList_eq
      intro c hc q
      obtain ⟨j, _, hj⟩ := List.mem_map.mp hc
      rw [← hj]
      have := ih .maxNode (Or.inl rfl) q
      simpa using this

/-- C10: compiling the search writes only the hidden shadow fields; every
visible field of every node and edge holds exactly the same value after
`alphaBeta` as before, since no recorded action is applied during
compilation. -/
theorem claim_C10_compile_frame :
    ∀ (tree : Tree) (s : TState), (alphaBeta tree s).2.vis = s.vis := by
  intro tree s
  unfold alphaBeta
  rcases tree.rootNode with _ | root
  · rfl
  · exact abActions_vis root [] .negInf .posInf _ s

/-! ### Two-run lemmas: the pruned subtrees do not influence the search -/

theorem prefix_index_eq {p q e : List ℕ} {j k : ℕ} (h1 : (p ++ [j]) <+: e)
    (h2 : e <+: q) (h3 : (p ++ [k]) <+: q) : j = k := by
  have h4 : (p ++ [j]) <+: q := h1.trans h2
  have h5 : (p ++ [j]) = (p ++ [k]) := by
    rcases List.prefix_or_prefix_of_prefix h4 h3 with h | h
    · exact h.eq_of_length (by simp)
    · exact (h.eq_of_length (by simp)).symm
  simpa using h5

/-- `abIter` never writes an edge `__pruned` shadow. -/
theorem abIter_shadow_ePruned (p : List ℕ) (a b : EVal) (m : Bool)
    (lce : List Action) (cv : EVal) (res : ABRes) (q : List ℕ) :
    (abIter p a b m lce cv res).st.shadow (.ePruned q) =
      res.st.shadow (.ePruned q) := by
  simp only [abIter]
  split_ifs <;> simp_all [setShadow_shadow_ne]

/-- The child loop never writes the `__pruned` shadow of the edge into a
child it has already finished (nor of any node outside the remaining
children's subtrees and the current node). -/
theorem abLoop_shadow_ePruned_frame (cs : List TNode) (p : List ℕ) (k : ℕ)
    (a b : EVal) (m : Bool) (pr : Bool) (lce : List Action) (cv : EVal)
    (s : TState) (q : List ℕ) (hj : ∀ j, k ≤ j → ¬ ((p ++ [j]) <+: q)) :
    (abLoop cs p k a b m pr lce cv s).2.2.2.shadow (.ePruned q) =
      s.shadow (.ePruned q) := by
  by_cases hq : q = p
  · subst hq
    -- `ePruned q` has path `q = p` but is an edge location the loop never
    -- touches: every write at path `p` is a node value/bound/pruned write.
    induction cs generalizing k a b pr lce cv s with
    | nil => rw [abLoop]
    | cons c rest ih =>
      rw [abLoop]
      split
      · dsimp only
        rw [ih (k + 1) a b pr _ cv _ (fun j hjk => hj j (by omega))]
        rw [setShadow_shadow_ne _ _ (by simp), generatePruneActionList]
        exact pruneInner_shadow_frame c (q ++ [k]) s (Loc.ePruned q)
          (hj k le_rfl)
      · dsimp only
        rw [ih (k + 1) _ _ _ _ _ _ (fun j hjk => hj j (by omega))]
        rw [abIter_shadow_ePruned]
        exact abActions_shadow_frame c (q ++ [k]) a b (!m) s (Loc.ePruned q)
          (hj k le_rfl)
  · exact abLoop_shadow_frame cs p k a b m pr lce cv s (Loc.ePruned q) hq hj

mutual

/-- `pruneInner` performs the same shadow writes in any two runs: its write
set and written values depend only on the subtree and its path. -/
theorem pruneInner_tworun : ∀ (t : TNode) (pc : List ℕ) (s₁ s₂ : TState)
    (l : Loc), s₁.shadow l = s₂.shadow l →
    (pruneInner t pc s₁).2.shadow l = (pruneInner t pc s₂).2.shadow l
  | .mk nt cs, pc, s₁, s₂, l, h => by
    rw [pruneInner, pruneInner]
    by_cases hpc : pc = []
    · rw [if_pos hpc, if_pos hpc]
      exact pruneChildren_tworun cs pc 0 s₁ s₂ l h
    · rw [if_neg hpc, if_neg hpc]
      dsimp only
      apply pruneChildren_tworun cs pc 0 _ _ l
      by_cases hl : l = .ePruned pc
      · subst hl
        rw [TState.setShadow_shadow, TState.setShadow_shadow,
          Function.update_same, Function.update_same]
      · rw [setShadow_shadow_ne _ _ hl, setShadow_shadow_ne _ _ hl]
        exact h
termination_by t _ _ _ _ _ => sizeOf t
decreasing_by all_goals simp_wf <;> omega

theorem pruneChildren_tworun : ∀ (cs : List TNode) (pc : List ℕ) (k : ℕ)
    (s₁ s₂ : TState) (l : Loc), s₁.shadow l = s₂.shadow l →
    (pruneChildren cs pc k s₁).2.shadow l =
      (pruneChildren cs pc k s₂).2.shadow l
  | [], _, _, _, _, _, h => by rw [pruneChildren, pruneChildren]; exact h
  | c :: rest, pc, k, s₁, s₂, l, h => by
    rw [pruneChildren, pruneChildren]
    dsimp only
    exact pruneChildren_tworun rest pc (k + 1) _ _ l
      (pruneInner_tworun c (pc ++ [k]) s₁ s₂ l h)
termination_by cs _ _ _ _ _ _ => sizeOf cs
decreasing_by all_goals simp_wf <;> omega

end

theorem abLoop_cons_pruned (cs : List TNode) (p : List ℕ) (k : ℕ)
    (a b : EVal) (m : Bool) (lce : List Action) (cv : EVal) (s : TState)
    (c : TNode) :
    abLoop (c :: cs) p k a b m true lce cv s =
      abLoop cs p (k + 1) a b m true
        ((lce ++ (generatePruneActionList c (p ++ [k]) s).1) ++
          [⟨some (.nPruned p), .fvB false, .fvB true⟩])
        cv
        ((generatePruneActionList c (p ++ [k]) s).2.setShadow
          (.nPruned p) (.fvB true)) := by
  rw [abLoop]
  simp only [eq_self_iff_true, if_true]

theorem abLoop_cons_searched (cs : List TNode) (p : List ℕ) (k : ℕ)
    (a b : EVal) (m : Bool) (lce : List Action) (cv : EVal) (s : TState)
    (c : TNode) :
    abLoop (c :: cs) p k a b m false lce cv s =
      ((abLoop cs p (k + 1)
          (abIter p a b m lce cv (abActions c (p ++ [k]) a b (!m) s)).newA
          (abIter p a b m lce cv (abActions c (p ++ [k]) a b (!m) s)).newB
          m
          (decide
            ((abIter p a b m lce cv (abActions c (p ++ [k]) a b (!m) s)).newB ≤
             (abIter p a b m lce cv (abActions c (p ++ [k]) a b (!m) s)).newA))
          (abIter p a b m lce cv (abActions c (p ++ [k]) a b (!m) s)).newExit
          (abIter p a b m lce cv (abActions c (p ++ [k]) a b (!m) s)).newCurVal
          (abIter p a b m lce cv (abActions c (p ++ [k]) a b (!m) s)).st).1,
       ((abIter p a b m lce cv
            (abActions c (p ++ [k]) a b (!m) s)).newEnter ::
          (abActions c (p ++ [k]) a b (!m) s).childActionsList) ++
        (abLoop cs p (k + 1)
          (abIter p a b m lce cv (abActions c (p ++ [k]) a b (!m) s)).newA
          (abIter p a b m lce cv (abActions c (p ++ [k]) a b (!m) s)).newB
          m
          (decide
            ((abIter p a b m lce cv (abActions c (p ++ [k]) a b (!m) s)).newB ≤
             (abIter p a b m lce cv (abActions c (p ++ [k]) a b (!m) s)).newA))
          (abIter p a b m lce cv (abActions c (p ++ [k]) a b (!m) s)).newExit
          (abIter p a b m lce cv (abActions c (p ++ [k]) a b (!m) s)).newCurVal
          (abIter p a b m lce cv (abActions c (p ++ [k]) a b (!m) s)).st).2.1,
       (abLoop cs p (k + 1)
          (abIter p a b m lce cv (abActions c (p ++ [k]) a b (!m) s)).newA
          (abIter p a b m lce cv (abActions c (p ++ [k]) a b (!m) s)).newB
          m
          (decide
            ((abIter p a b m lce cv (abActions c (p ++ [k]) a b (!m) s)).newB ≤
             (abIter p a b m lce cv (abActions c (p ++ [k]) a b (!m) s)).newA))
          (abIter p a b m lce cv (abActions c (p ++ [k]) a b (!m) s)).newExit
          (abIter p a b m lce cv (abActions c (p ++ [k]) a b (!m) s)).newCurVal
          (abIter p a b m lce cv (abActions c (p ++ [k]) a b (!m) s)).st).2.2.1,
       (abLoop cs p (k + 1)
          (abIter p a b m lce cv (abActions c (p ++ [k]) a b (!m) s)).newA
          (abIter p a b m lce cv (abActions c (p ++ [k]) a b (!m) s)).newB
          m
          (decide
            ((abIter p a b m lce cv (abActions c (p ++ [k]) a b (!m) s)).newB ≤
             (abIter p a b m lce cv (abActions c (p ++ [k]) a b (!m) s)).newA))
          (abIter p a b m lce cv (abActions c (p ++ [k]) a b (!m) s)).newExit
          (abIter p a b m lce cv (abActions c (p ++ [k]) a b (!m) s)).newCurVal
          (abIter p a b m lce cv (abActions c (p ++ [k]) a b (!m) s)).st).2.2.2)
    := by
  rw [abLoop]
  simp only [Bool.false_eq_true, if_false]

/-- `abActions` never writes the `__pruned` shadow of its own incoming
edge. -/
theorem abActions_shadow_ePruned_self : ∀ (t : TNode) (pc : List ℕ)
    (a b : EVal) (m : Bool) (s : TState),
    (abActions t pc a b m s).st.shadow (.ePruned pc) = s.shadow (.ePruned pc)
  | .mk nt cs, pc, a, b, m, s => by
    rw [abActions]
    split
    · rfl
    · dsimp only
      rw [abLoop_shadow_ePruned_frame cs pc 0 a b m false [] _ _ pc
        (fun j _ => snoc_not_prefix_self pc j)]
      rw [setShadow_shadow_ne _ _ (by simp), setShadow_shadow_ne _ _ (by simp)]

theorem exists_snoc_prefix {p e : List ℕ} (h : p <+: e) (hne : e ≠ p) :
    ∃ j, (p ++ [j]) <+: e := by
  obtain ⟨t, ht⟩ := h
  cases t with
  | nil => exact absurd (by rw [← ht, List.append_nil]) hne
  | cons j t' =>
    exact ⟨j, ⟨t', by rw [← ht]; simp⟩⟩

mutual

/-- Two runs of `abActions` on the same node return the same value and
perform the same edge-`__pruned` writes inside the subtree, provided both
start with all `__pruned` shadows of the subtree cleared and the second
run's leaf values agree with the first run's on every node of the subtree
whose chain of ancestor edges (up to the subtree root) is never marked
pruned by the first run. -/
theorem abActions_tworun : ∀ (t : TNode) (p : List ℕ) (a b : EVal) (m : Bool)
    (s₁ s₂ : TState),
    (∀ q, p <+: q → q ≠ p → s₁.shadow (.ePruned q) = .fvB false) →
    (∀ q, p <+: q → q ≠ p → s₂.shadow (.ePruned q) = .fvB false) →
    (∀ q, p <+: q →
      (∀ e, p <+: e → e ≠ p → e <+: q →
        (abActions t p a b m s₁).st.shadow (.ePruned e) ≠ .fvB true) →
      s₂.vis (.nValue q) = s₁.vis (.nValue q)) →
    (abActions t p a b m s₂).returnVal = (abActions t p a b m s₁).returnVal ∧
    ∀ q, p <+: q → q ≠ p →
      (abActions t p a b m s₂).st.shadow (.ePruned q) =
        (abActions t p a b m s₁).st.shadow (.ePruned q)
  | .mk nt cs, p, a, b, m, s₁, s₂ => by
    intro hc1 hc2 hagree
    by_cases hnt : nt = .leafNode
    · simp only [abActions, if_pos hnt] at hagree ⊢
      refine ⟨?_, ?_⟩
      · rw [hagree p List.prefix_rfl (fun e he1 he2 he3 =>
          absurd (he3.eq_of_length
            (Nat.le_antisymm he3.length_le he1.length_le)) he2)]
      · intro q hq hne
        exact (hc2 q hq hne).trans (hc1 q hq hne).symm
    · simp only [abActions, if_neg hnt] at hagree ⊢
      have hcl1 : ∀ j q, 0 ≤ j → (p ++ [j]) <+: q →
          ((s₁.setShadow (.nAlpha p) (.fvN (some a))).setShadow (.nBeta p)
            (.fvN (some b))).shadow (.ePruned q) = .fvB false := by
        intro j q _ hjq
        rw [setShadow_shadow_ne _ _ (by simp), setShadow_shadow_ne _ _
          (by simp)]
        exact hc1 q (prefix_of_snoc hjq)
          (fun hqp => snoc_not_prefix_self p j (hqp ▸ hjq))
      have hcl2 : ∀ j q, 0 ≤ j → (p ++ [j]) <+: q →
          ((s₂.setShadow (.nAlpha p) (.fvN (some a))).setShadow (.nBeta p)
            (.fvN (some b))).shadow (.ePruned q) = .fvB false := by
        intro j q _ hjq
        rw [setShadow_shadow_ne _ _ (by simp), setShadow_shadow_ne _ _
          (by simp)]
        exact hc2 q (prefix_of_snoc hjq)
          (fun hqp => snoc_not_prefix_self p j (hqp ▸ hjq))
      have hagr : ∀ q, (∃ j, 0 ≤ j ∧ (p ++ [j]) <+: q) →
          (∀ e, (∃ j, 0 ≤ j ∧ (p ++ [j]) <+: e) → e <+: q →
            (abLoop cs p 0 a b m false []
              (if m then EVal.negInf else EVal.posInf)
              ((s₁.setShadow (.nAlpha p) (.fvN (some a))).setShadow
                (.nBeta p) (.fvN (some b)))).2.2.2.shadow (.ePruned e) ≠
              .fvB true) →
          ((s₂.setShadow (.nAlpha p) (.fvN (some a))).setShadow (.nBeta p)
            (.fvN (some b))).vis (.nValue q) =
          ((s₁.setShadow (.nAlpha p) (.fvN (some a))).setShadow (.nBeta p)
            (.fvN (some b))).vis (.nValue q) := by
        intro q hq hch
        obtain ⟨j, _, hjq⟩ := hq
        simp only [TState.setShadow_vis]
        refine hagree q (prefix_of_snoc hjq) ?_
        intro e he1 he2 he3
        obtain ⟨j', hj'⟩ := exists_snoc_prefix he1 he2
        exact hch e ⟨j', Nat.zero_le _, hj'⟩ he3
      obtain ⟨ih1, ih2⟩ := abLoop_tworun cs p 0 a b m false [] []
        (if m then EVal.negInf else EVal.posInf)
        ((s₁.setShadow (.nAlpha p) (.fvN (some a))).setShadow (.nBeta p)
          (.fvN (some b)))
        ((s₂.setShadow (.nAlpha p) (.fvN (some a))).setShadow (.nBeta p)
          (.fvN (some b))) hcl1 hcl2 hagr
      refine ⟨ih1, ?_⟩
      intro q hq hne
      obtain ⟨j, hj⟩ := exists_snoc_prefix hq hne
      exact ih2 q ⟨j, Nat.zero_le _, hj⟩
termination_by t _ _ _ _ _ _ => sizeOf t
decreasing_by all_goals simp_wf <;> omega

/-- The two-run property of the child loop of `abActions`: with identical
bounds, best value and prune flag, states whose remaining-subtree `__pruned`
shadows are clear, and leaf agreement on the conditionally-unpruned nodes
of the remaining subtrees, the loop returns the same value and performs the
same edge-`__pruned` writes in the remaining subtrees. -/
theorem abLoop_tworun : ∀ (cs : List TNode) (p : List ℕ) (k : ℕ) (a b : EVal)
    (m pr : Bool) (lce₁ lce₂ : List Action) (cv : EVal) (s₁ s₂ : TState),
    (∀ j q, k ≤ j → (p ++ [j]) <+: q →
      s₁.shadow (.ePruned q) = .fvB false) →
    (∀ j q, k ≤ j → (p ++ [j]) <+: q →
      s₂.shadow (.ePruned q) = .fvB false) →
    (∀ q, (∃ j, k ≤ j ∧ (p ++ [j]) <+: q) →
      (∀ e, (∃ j, k ≤ j ∧ (p ++ [j]) <+: e) → e <+: q →
        (abLoop cs p k a b m pr lce₁ cv s₁).2.2.2.shadow (.ePruned e) ≠
          .fvB true) →
      s₂.vis (.nValue q) = s₁.vis (.nValue q)) →
    (abLoop cs p k a b m pr lce₂ cv s₂).1 =
      (abLoop cs p k a b m pr lce₁ cv s₁).1 ∧
    ∀ q, (∃ j, k ≤ j ∧ (p ++ [j]) <+: q) →
      (abLoop cs p k a b m pr lce₂ cv s₂).2.2.2.shadow (.ePruned q) =
        (abLoop cs p k a b m pr lce₁ cv s₁).2.2.2.shadow (.ePruned q)
  | [], p, k, a, b, m, pr, lce₁, lce₂, cv, s₁, s₂ => by
    intro hc1 hc2 _
    rw [abLoop, abLoop]
    refine ⟨rfl, ?_⟩
    intro q hq
    obtain ⟨j, hj, hjq⟩ := hq
    rw [hc1 j q hj hjq, hc2 j q hj hjq]
  | c :: rest, p, k, a, b, m, pr, lce₁, lce₂, cv, s₁, s₂ => by
    intro hc1 hc2 hagree
    cases pr with
    | true =>
      rw [abLoop_cons_pruned] at hagree
      rw [abLoop_cons_pruned, abLoop_cons_pruned]
      have hPv1 :
          ((generatePruneActionList c (p ++ [k]) s₁).2.setShadow
            (.nPruned p) (.fvB true)).vis = s₁.vis := by
        simp only [TState.setShadow_vis, generatePruneActionList]
        exact pruneInner_vis c (p ++ [k]) s₁
      have hPv2 :
          ((generatePruneActionList c (p ++ [k]) s₂).2.setShadow
            (.nPruned p) (.fvB true)).vis = s₂.vis := by
        simp only [TState.setShadow_vis, generatePruneActionList]
        exact pruneInner_vis c (p ++ [k]) s₂
      have hcl1 : ∀ j q, k + 1 ≤ j → (p ++ [j]) <+: q →
          ((generatePruneActionList c (p ++ [k]) s₁).2.setShadow
            (.nPruned p) (.fvB true)).shadow (.ePruned q) = .fvB false := by
        intro j q hj hjq
        rw [setShadow_shadow_ne _ _ (by simp)]
        simp only [generatePruneActionList]
        rw [pruneInner_shadow_frame c (p ++ [k]) s₁ (.ePruned q)
          (not_prefix_snoc_ne (show j ≠ k by omega) hjq)]
        exact hc1 j q (by omega) hjq
      have hcl2 : ∀ j q, k + 1 ≤ j → (p ++ [j]) <+: q →
          ((generatePruneActionList c (p ++ [k]) s₂).2.setShadow
            (.nPruned p) (.fvB true)).shadow (.ePruned q) = .fvB false := by
        intro j q hj hjq
        rw [setShadow_shadow_ne _ _ (by simp)]
        simp only [generatePruneActionList]
        rw [pruneInner_shadow_frame c (p ++ [k]) s₂ (.ePruned q)
          (not_prefix_snoc_ne (show j ≠ k by omega) hjq)]
        exact hc2 j q (by omega) hjq
      have hagr : ∀ q, (∃ j, k + 1 ≤ j ∧ (p ++ [j]) <+: q) →
          (∀ e, (∃ j, k + 1 ≤ j ∧ (p ++ [j]) <+: e) → e <+: q →
            (abLoop rest p (k + 1) a b m true
              ((lce₁ ++ (generatePruneActionList c (p ++ [k]) s₁).1) ++
                [⟨some (.nPruned p), .fvB false, .fvB true⟩]) cv
              ((generatePruneActionList c (p ++ [k]) s₁).2.setShadow
                (.nPruned p) (.fvB true))).2.2.2.shadow (.ePruned e) ≠
              .fvB true) →
          ((generatePruneActionList c (p ++ [k]) s₂).2.setShadow
            (.nPruned p) (.fvB true)).vis (.nValue q) =
          ((generatePruneActionList c (p ++ [k]) s₁).2.setShadow
            (.nPruned p) (.fvB true)).vis (.nValue q) := by
        intro q hq hch
        obtain ⟨j, hj, hjq⟩ := hq
        rw [hPv1, hPv2]
        refine hagree q ⟨j, by omega, hjq⟩ ?_
        intro e he heq
        obtain ⟨j', hj', hje⟩ := he
        have hj'j : j' = j := prefix_index_eq hje heq hjq
        subst hj'j
        exact hch e ⟨j', by omega, hje⟩ heq
      obtain ⟨ih1, ih2⟩ := abLoop_tworun rest p (k + 1) a b m true
        ((lce₁ ++ (generatePruneActionList c (p ++ [k]) s₁).1) ++
          [⟨some (.nPruned p), .fvB false, .fvB true⟩])
        ((lce₂ ++ (generatePruneActionList c (p ++ [k]) s₂).1) ++
          [⟨some (.nPruned p), .fvB false, .fvB true⟩]) cv
        ((generatePruneActionList c (p ++ [k]) s₁).2.setShadow
          (.nPruned p) (.fvB true))
        ((generatePruneActionList c (p ++ [k]) s₂).2.setShadow
          (.nPruned p) (.fvB true)) hcl1 hcl2 hagr
      refine ⟨ih1, ?_⟩
      intro q hq
      obtain ⟨j, hj, hjq⟩ := hq
      by_cases hqk : (p ++ [k]) <+: q
      · rw [abLoop_shadow_ePruned_frame rest p (k + 1) a b m true _ cv _ q
          (fun j' hj' => not_prefix_snoc_ne (show k ≠ j' by omega) hqk)]
        rw [abLoop_shadow_ePruned_frame rest p (k + 1) a b m true _ cv _ q
          (fun j' hj' => not_prefix_snoc_ne (show k ≠ j' by omega) hqk)]
        rw [setShadow_shadow_ne _ _ (by simp),
          setShadow_shadow_ne _ _ (by simp)]
        simp only [generatePruneActionList]
        exact (pruneInner_tworun c (p ++ [k]) s₁ s₂ (.ePruned q)
          (by rw [hc1 k q le_rfl hqk, hc2 k q le_rfl hqk])).symm
      · have hjne : j ≠ k := fun hh => hqk (hh ▸ hjq)
        exact ih2 q ⟨j, by omega, hjq⟩
    | false =>
      rw [abLoop_cons_searched] at hagree
      rw [abLoop_cons_searched, abLoop_cons_searched]
      dsimp only at hagree ⊢
      set R₁ := abActions c (p ++ [k]) a b (!m) s₁ with hR1
      set R₂ := abActions c (p ++ [k]) a b (!m) s₂ with hR2
      set I₁ := abIter p a b m lce₁ cv R₁ with hI1
      set I₂ := abIter p a b m lce₂ cv R₂ with hI2
      have hcc1 : ∀ q, (p ++ [k]) <+: q → q ≠ p ++ [k] →
          s₁.shadow (.ePruned q) = .fvB false :=
        fun q hq _ => hc1 k q le_rfl hq
      have hcc2 : ∀ q, (p ++ [k]) <+: q → q ≠ p ++ [k] →
          s₂.shadow (.ePruned q) = .fvB false :=
        fun q hq _ => hc2 k q le_rfl hq
      have hchagree : ∀ q, (p ++ [k]) <+: q →
          (∀ e, (p ++ [k]) <+: e → e ≠ p ++ [k] → e <+: q →
            (abActions c (p ++ [k]) a b (!m) s₁).st.shadow (.ePruned e) ≠
              .fvB true) →
          s₂.vis (.nValue q) = s₁.vis (.nValue q) := by
        intro q hq hch
        refine hagree q ⟨k, le_rfl, hq⟩ ?_
        intro e he heq
        obtain ⟨j, hj, hje⟩ := he
        have hjk : j = k := prefix_index_eq hje heq hq
        subst hjk
        by_cases he2 : e = p ++ [j]
        · subst he2
          rw [abLoop_shadow_ePruned_frame rest p (j + 1) I₁.newA I₁.newB m
            (decide (I₁.newB ≤ I₁.newA)) I₁.newExit I₁.newCurVal I₁.st _
            (fun j' hj' => not_prefix_snoc_ne (show j ≠ j' by omega)
              List.prefix_rfl)]
          rw [hI1, abIter_shadow_ePruned, hR1, abActions_shadow_ePruned_self]
          rw [hc1 j (p ++ [j]) le_rfl List.prefix_rfl]
          simp
        · rw [abLoop_shadow_ePruned_frame rest p (j + 1) I₁.newA I₁.newB m
            (decide (I₁.newB ≤ I₁.newA)) I₁.newExit I₁.newCurVal I₁.st _
            (fun j' hj' => not_prefix_snoc_ne (show j ≠ j' by omega) hje)]
          rw [hI1, abIter_shadow_ePruned]
          exact hch e hje he2 heq
      obtain ⟨hrv, hsh⟩ := abActions_tworun c (p ++ [k]) a b (!m) s₁ s₂
        hcc1 hcc2 hchagree
      rw [← hR1, ← hR2] at hrv hsh
      have hA : I₂.newA = I₁.newA := by
        rw [hI2, hI1, abIter_newA, abIter_newA, hrv]
      have hB : I₂.newB = I₁.newB := by
        rw [hI2, hI1, abIter_newB, abIter_newB, hrv]
      have hCV : I₂.newCurVal = I₁.newCurVal := by
        rw [hI2, hI1, abIter_newCurVal, abIter_newCurVal, hrv]
      have hcl1 : ∀ j q, k + 1 ≤ j → (p ++ [j]) <+: q →
          I₁.st.shadow (.ePruned q) = .fvB false := by
        intro j q hj hjq
        rw [hI1, abIter_shadow_ePruned, hR1]
        rw [abActions_shadow_frame c (p ++ [k]) a b (!m) s₁ (.ePruned q)
          (not_prefix_snoc_ne (show j ≠ k by omega) hjq)]
        exact hc1 j q (by omega) hjq
      have hcl2 : ∀ j q, k + 1 ≤ j → (p ++ [j]) <+: q →
          I₂.st.shadow (.ePruned q) = .fvB false := by
        intro j q hj hjq
        rw [hI2, abIter_shadow_ePruned, hR2]
        rw [abActions_shadow_frame c (p ++ [k]) a b (!m) s₂ (.ePruned q)
          (not_prefix_snoc_ne (show j ≠ k by omega) hjq)]
        exact hc2 j q (by omega) hjq
      have hagr : ∀ q, (∃ j, k + 1 ≤ j ∧ (p ++ [j]) <+: q) →
          (∀ e, (∃ j, k + 1 ≤ j ∧ (p ++ [j]) <+: e) → e <+: q →
            (abLoop rest p (k + 1) I₁.newA I₁.newB m
              (decide (I₁.newB ≤ I₁.newA)) I₁.newExit I₁.newCurVal
              I₁.st).2.2.2.shadow (.ePruned e) ≠ .fvB true) →
          I₂.st.vis (.nValue q) = I₁.st.vis (.nValue q) := by
        intro q hq hch
        obtain ⟨j, hj, hjq⟩ := hq
        have hv1 : I₁.st.vis = s₁.vis := by
          rw [hI1, abIter_vis, hR1, abActions_vis]
        have hv2 : I₂.st.vis = s₂.vis := by
          rw [hI2, abIter_vis, hR2, abActions_vis]
        rw [hv1, hv2]
        refine hagree q ⟨j, by omega, hjq⟩ ?_
        intro e he heq
        obtain ⟨j', hj', hje⟩ := he
        have hj'j : j' = j := prefix_index_eq hje heq hjq
        subst hj'j
        exact hch e ⟨j', by omega, hje⟩ heq
      rw [hA, hB, hCV]
      obtain ⟨ih1, ih2⟩ := abLoop_tworun rest p (k + 1) I₁.newA I₁.newB m
        (decide (I₁.newB ≤ I₁.newA)) I₁.newExit I₂.newExit I₁.newCurVal
        I₁.st I₂.st hcl1 hcl2 hagr
      refine ⟨ih1, ?_⟩
      intro q hq
      obtain ⟨j, hj, hjq⟩ := hq
      by_cases hqk : (p ++ [k]) <+: q
      · rw [abLoop_shadow_ePruned_frame rest p (k + 1) I₁.newA I₁.newB m
          (decide (I₁.newB ≤ I₁.newA)) I₂.newExit I₁.newCurVal I₂.st q
          (fun j' hj' => not_prefix_snoc_ne (show k ≠ j' by omega) hqk)]
        rw [abLoop_shadow_ePruned_frame rest p (k + 1) I₁.newA I₁.newB m
          (decide (I₁.newB ≤ I₁.newA)) I₁.newExit I₁.newCurVal I₁.st q
          (fun j' hj' => not_prefix_snoc_ne (show k ≠ j' by omega) hqk)]
        rw [hI1, hI2, abIter_shadow_ePruned, abIter_shadow_ePruned]
        by_cases he2 : q = p ++ [k]
        · subst he2
          rw [hR1, hR2, abActions_shadow_ePruned_self,
            abActions_shadow_ePruned_self,
            hc1 k _ le_rfl List.prefix_rfl, hc2 k _ le_rfl List.prefix_rfl]
        · exact hsh q hqk he2
      · have hjne : j ≠ k := fun hh => hqk (hh ▸ hjq)
        exact ih2 q ⟨j, by omega, hjq⟩
termination_by cs _ _ _ _ _ _ _ _ _ _ _ => sizeOf cs
decreasing_by all_goals simp_wf <;> omega

end

/-! ### Minimax correctness of the recorded root shadow value (C1) -/

/-- C1 counterexample: the depth-1 generated tree (a bare leaf, which is a
fully generated tree: its one leaf holds the numeric value 7 and it has no
interior nodes) has minimax value 7, but `alphaBeta` records no root shadow
value at all (`__value` stays unset), so the claim fails on it. -/
theorem claim_C1_counterexample :
    (alphaBeta
        ⟨some (generateABTreeRootNode .maxNode 1 2), .maxNode, 1, 2, true⟩
        (initState (generateABTreeRootNode .maxNode 1 2)
          (fun _ => 7))).2.shadow (.nValue []) ≠
      .fvN (some (minimax
        (fun q => if isLeafPath (generateABTreeRootNode .maxNode 1 2) q
          then EVal.fin 7 else EVal.fin 0)
        (generateABTreeRootNode .maxNode 1 2) [])) := by
  simp +decide [alphaBeta, generateABTreeRootNode, generateSubTree, abActions,
    initState, isLeafPath, nodeAt, TNode.children, TNode.nodeType,
    edgeEnteredLoc, TState.setShadow, TState.setVis, FV.getN, Option.getD,
    Function.update, minimax, oppositeNodeType, FV.isTrue]

/-- C1 (amended with at least one interior node, `depth ≥ 2`): for every
generated tree with a max/min root kind, depth ≥ 2 and branching factor ≥ 2,
the root shadow value recorded by the search compiler (`__value` after
`alphaBeta` with initial bounds (−∞, +∞)) equals the independent, unpruned
kind-driven minimax of the same tree with the same leaf values.  (On the
excluded depth-1 tree the root is a leaf and no shadow value is recorded.)
-/
theorem claim_C1_minimax_correctness :
    ∀ (rootKind : NodeKind) (d bFac : ℕ) (L : List ℕ → ℤ),
      (rootKind = .maxNode ∨ rootKind = .minNode) → 2 ≤ d → 2 ≤ bFac →
      (alphaBeta
          ⟨some (generateABTreeRootNode rootKind d bFac), rootKind, d, bFac,
            true⟩
          (initState (generateABTreeRootNode rootKind d bFac) L)).2.shadow
        (.nValue []) =
      .fvN (some (minimax
        (fun q => if isLeafPath (generateABTreeRootNode rootKind d bFac) q
          then EVal.fin (L q) else EVal.fin 0)
        (generateABTreeRootNode rootKind d bFac) [])) := by
  intro rootKind d bFac L hk hd hb
  have hM : (rootKind = NodeKind.maxNode ∨ rootKind = NodeKind.minNode) := hk
  set root := generateABTreeRootNode rootKind d bFac with hroot
  set s0 := initState root L with hs0
  set m : Bool := decide (rootKind = NodeKind.maxNode) with hm
  -- the compile is a single abActions call from the root
  have halpha : (alphaBeta ⟨some root, rootKind, d, bFac, true⟩ s0).2 =
      (abActions root [] .negInf .posInf m s0).st := rfl
  rw [halpha]
  -- the search value is pure and finite
  have hRV := abActions_returnVal root [] .negInf .posInf m s0
  have hcomp : CompleteT root := by
    rw [hroot]
    exact completeT_generateSubTree bFac (by omega) (d - 1) rootKind
  obtain ⟨z, hz⟩ := abVal_fin root (visV s0) [] .negInf .posInf m hcomp
    (visV_initState_fin root L)
  -- exactness of the fail-soft value on the full window
  have hKM := (abVal_km root (visV s0) [] .negInf .posInf m
    EVal.negInf_lt_posInf).2.2
  rw [hz] at hKM
  have hexact : abVal (visV s0) root [] .negInf .posInf m =
      minimaxF (visV s0) root [] m := by
    rw [hz]
    exact hKM (EVal.negInf_lt_fin z) (EVal.fin_lt_posInf z)
  -- the root is interior, so its shadow value records the search value
  obtain ⟨r', hr'⟩ : ∃ r', d - 1 = r' + 1 := ⟨d - 2, by omega⟩
  have hrootshape : root = .mk rootKind ((List.range bFac).map fun _ =>
      generateSubTree (oppositeNodeType rootKind) r' bFac) := by
    rw [hroot]
    unfold generateABTreeRootNode
    rw [hr', generateSubTree]
  have hntne : rootKind ≠ NodeKind.leafNode := by
    rcases hM with h | h <;> subst h <;> simp
  have hsv := abActions_shadow_value rootKind
    ((List.range bFac).map fun _ =>
      generateSubTree (oppositeNodeType rootKind) r' bFac)
    [] .negInf .posInf m s0 hntne
  rw [← hrootshape] at hsv
  rcases hsv with h | h
  · rw [hRV, hz] at h
    exfalso
    have hne : ∀ (mb : Bool),
        EVal.fin z ≠ (if mb = true then EVal.negInf else EVal.posInf) := by
      intro mb
      cases mb <;> simp
    exact hne m h
  · rw [h, hRV, hexact]
    -- kind-driven minimax = flag-driven minimax on the generated tree
    have hgen' : minimax (visV s0) root [] = minimaxF (visV s0) root [] m :=
      minimax_generateSubTree (visV s0) bFac (d - 1) rootKind hM []
    rw [← hgen']
    -- the leaf-value assignment read by the compiler is the generated one
    rw [show visV s0 = (fun q => if isLeafPath root q then EVal.fin (L q)
      else EVal.fin 0) from visV_initState root L]

/-- Witness for C1 at a concrete generated tree (depth 2, branching 2,
max root). -/
theorem claim_C1_minimax_correctness_witness :
    (alphaBeta
        ⟨some (generateABTreeRootNode .maxNode 2 2), .maxNode, 2, 2, true⟩
        (initState (generateABTreeRootNode .maxNode 2 2)
          (fun _ => 1))).2.shadow (.nValue []) =
      .fvN (some (minimax
        (fun q => if isLeafPath (generateABTreeRootNode .maxNode 2 2) q
          then EVal.fin 1 else EVal.fin 0)
        (generateABTreeRootNode .maxNode 2 2) [])) :=
  claim_C1_minimax_correctness .maxNode 2 2 (fun _ => 1) (Or.inl rfl)
    (by norm_num) (by norm_num)

/-! ### What the answer checker enforces (C4) -/

theorem noLeafChildren_generateSubTree (bFac : ℕ) :
    ∀ (r : ℕ) (nt : NodeKind), nt ≠ .leafNode →
      NoLeafChildren (generateSubTree nt r bFac) := by
  intro r
  induction r with
  | zero => intro nt _; exact NoLeafChildren.leaf
  | succ r ih =>
    intro nt hnt
    rw [generateSubTree]
    refine NoLeafChildren.node _ _ hnt ?_
    intro c hc
    obtain ⟨j, -, hj⟩ := List.mem_map.mp hc
    rw [← hj]
    refine ih (oppositeNodeType nt) ?_
    cases nt <;> simp_all [oppositeNodeType]

mutual

/-- `checkSubTree` succeeds exactly when every interior node of the subtree
passes the value check and — where its incoming edge is shadow-pruned —
the edge flag check. -/
theorem checkSubTree_iff : ∀ (t : TNode) (p : List ℕ) (s : JState),
    NoLeafChildren t → (checkSubTree t p s = true ↔ SpecAt t p s)
  | .mk nt cs, p, s => by
    intro hnlc
    rw [checkSubTree]
    by_cases hnt : nt = .leafNode
    · rw [if_pos hnt]
      constructor
      · intro _
        intro q u hu hune
        cases hnlc with
        | leaf =>
          cases q with
          | nil =>
            simp only [nodeAt, Option.some.injEq] at hu
            subst hu
            exact absurd rfl hune
          | cons j q' =>
            simp [nodeAt, TNode.children] at hu
        | node _ _ hnt' _ => exact absurd hnt hnt'
      · intro _
        rfl
    · rw [if_neg hnt]
      have hkids : ∀ c ∈ cs, NoLeafChildren c := by
        cases hnlc with
        | leaf => intro c hc; simp at hc
        | node _ _ _ hc => exact hc
      split_ifs with hv he
      · simp only [Bool.false_eq_true, false_iff]
        intro hsp
        have h1 := (hsp [] (.mk nt cs) rfl hnt).1
        rw [List.append_nil] at h1
        exact hv h1
      · simp only [Bool.false_eq_true, false_iff]
        intro hsp
        have h2 := (hsp [] (.mk nt cs) rfl hnt).2
        rw [List.append_nil] at h2
        exact he.2.2 ((h2 he.1 he.2.1).symm)
      · rw [checkChildren_iff cs p 0 s hkids]
        constructor
        · intro hall q u hu hune
          cases q with
          | nil =>
            simp only [nodeAt, Option.some.injEq] at hu
            subst hu
            rw [List.append_nil]
            refine ⟨not_not.mp hv, ?_⟩
            intro hne htr
            push_neg at he
            exact (he hne htr).symm
          | cons j q' =>
            rw [nodeAt] at hu
            dsimp only [TNode.children] at hu
            rcases hcj : cs.get? j with - | c
            · rw [hcj] at hu
              simp at hu
            · rw [hcj] at hu
              dsimp only at hu
              have hthis := hall j c hcj q' u hu hune
              have hpath : ((p ++ [0 + j]) ++ q') = p ++ (j :: q') := by
                simp
              rw [hpath] at hthis
              exact hthis
        · intro hsp i c hci
          intro q u hu hune
          have hnode : nodeAt (TNode.mk nt cs) (i :: q) = some u := by
            rw [nodeAt]
            dsimp only [TNode.children]
            rw [hci]
            exact hu
          have h := hsp (i :: q) u hnode hune
          have hpath : p ++ (i :: q) = (p ++ [0 + i]) ++ q := by simp
          rw [← hpath]
          exact h
termination_by t _ _ => sizeOf t
decreasing_by all_goals simp_wf <;> omega

/-- The `res = res && checkSubTree(...)` child loop succeeds exactly when
every child's subtree check succeeds. -/
theorem checkChildren_iff : ∀ (cs : List TNode) (p : List ℕ) (k : ℕ)
    (s : JState), (∀ c ∈ cs, NoLeafChildren c) →
    (checkChildren cs p k s = true ↔
      ∀ i c, cs.get? i = some c → SpecAt c (p ++ [k + i]) s)
  | [], p, k, s => by
    intro _
    rw [checkChildren]
    constructor
    · intro _ i c hci
      simp at hci
    · intro _
      rfl
  | c :: rest, p, k, s => by
    intro hnlc
    rw [checkChildren, Bool.and_eq_true]
    rw [checkSubTree_iff c (p ++ [k]) s (hnlc c (by simp))]
    rw [checkChildren_iff rest p (k + 1) s
      (fun c' hc' => hnlc c' (by simp [hc']))]
    constructor
    · intro h i c' hci
      obtain ⟨h1, h2⟩ := h
      cases i with
      | zero =>
        simp only [List.get?, Option.some.injEq] at hci
        subst hci
        exact h1
      | succ i' =>
        have hthis := h2 i' c' (by simpa using hci)
        have hn : k + 1 + i' = k + (i' + 1) := by omega
        rw [hn] at hthis
        exact hthis
    · intro hall
      refine ⟨hall 0 c (by simp), ?_⟩
      intro i c' hci
      have hthis := hall (i + 1) c' (by simpa using hci)
      have hn : k + (i + 1) = k + 1 + i := by omega
      rw [hn] at hthis
      exact hthis
termination_by cs _ _ _ => sizeOf cs
decreasing_by all_goals simp_wf <;> omega

end

/-! ### Per-step target analysis of the compiled log (C8) -/

theorem homog_generateSubTree (bFac : ℕ) :
    ∀ (r : ℕ) (nt : NodeKind), nt ≠ .leafNode →
      Homog (generateSubTree nt r bFac) := by
  intro r
  induction r with
  | zero => intro nt _; exact Homog.leaf
  | succ r ih =>
    intro nt hnt
    have hopp : oppositeNodeType nt ≠ .leafNode := by
      cases nt <;> simp_all [oppositeNodeType]
    rw [generateSubTree]
    refine Homog.node _ _ hnt ?_ ?_
    · cases r with
      | zero =>
        left
        intro c hc
        obtain ⟨j, -, hj⟩ := List.mem_map.mp hc
        rw [← hj, generateSubTree]
        rfl
      | succ r' =>
        right
        intro c hc
        obtain ⟨j, -, hj⟩ := List.mem_map.mp hc
        rw [← hj, generateSubTree]
        exact hopp
    · intro c hc
      obtain ⟨j, -, hj⟩ := List.mem_map.mp hc
      rw [← hj]
      exact ih (oppositeNodeType nt) hopp

theorem abActions_enterActions_eq (nt : NodeKind) (cs : List TNode)
    (p : List ℕ) (a b : EVal) (m : Bool) (s : TState) :
    (abActions (.mk nt cs) p a b m s).enterActions =
      if nt = .leafNode then
        [⟨edgeEnteredLoc p, .fvB false, .fvB true⟩,
         ⟨some (.nEntered p), .fvB false, .fvB true⟩]
      else
        [⟨edgeEnteredLoc p, .fvB false, .fvB true⟩,
         ⟨some (.nEntered p), .fvB false, .fvB true⟩,
         ⟨some (.nAlpha p), s.vis (.nAlpha p), .fvN (some a)⟩,
         ⟨some (.nBeta p), s.vis (.nBeta p), .fvN (some b)⟩] := by
  rw [abActions]
  split
  · rfl
  · rfl

theorem abActions_exitActions_eq (nt : NodeKind) (cs : List TNode)
    (p : List ℕ) (a b : EVal) (m : Bool) (s : TState) :
    (abActions (.mk nt cs) p a b m s).exitActions =
      if nt = .leafNode then [⟨edgeEnteredLoc p, .fvB true, .fvB false⟩]
      else
        [⟨edgeEnteredLoc p, .fvB true, .fvB false⟩,
         ⟨some (.nEntered p), .fvB true, .fvB false⟩] := by
  rw [abActions]
  split
  · rfl
  · rfl

theorem abActions_childActionsList_leaf (nt : NodeKind) (cs : List TNode)
    (p : List ℕ) (a b : EVal) (m : Bool) (s : TState)
    (h : nt = .leafNode) :
    (abActions (.mk nt cs) p a b m s).childActionsList = [] := by
  rw [abActions, if_pos h]

theorem abActions_childActionsList_node (nt : NodeKind) (cs : List TNode)
    (p : List ℕ) (a b : EVal) (m : Bool) (s : TState)
    (h : nt ≠ .leafNode) :
    (abActions (.mk nt cs) p a b m s).childActionsList =
      (abLoop cs p 0 a b m false [] (if m then .negInf else .posInf)
        ((s.setShadow (.nAlpha p) (.fvN (some a))).setShadow (.nBeta p)
          (.fvN (some b)))).2.1 ++
      [(abLoop cs p 0 a b m false [] (if m then .negInf else .posInf)
        ((s.setShadow (.nAlpha p) (.fvN (some a))).setShadow (.nBeta p)
          (.fvN (some b)))).2.2.1] := by
  rw [abActions, if_neg h]

theorem abActions_childActionsList_ne (nt : NodeKind) (cs : List TNode)
    (p : List ℕ) (a b : EVal) (m : Bool) (s : TState)
    (h : nt ≠ .leafNode) :
    (abActions (.mk nt cs) p a b m s).childActionsList ≠ [] := by
  rw [abActions_childActionsList_node nt cs p a b m s h]
  simp

/-- The value/bound update batch of one loop iteration: how it is attached
(leaf child: onto the child's enter group and the pending exit is the bare
child exit; interior child: the enter group only receives the pending
`lce`, and the batch rides on the child's exit), that its same-target
actions are identical, and that it only targets the parent's value and
bound fields. -/
theorem abIter_char (p : List ℕ) (a b : EVal) (m : Bool) (lce : List Action)
    (cv : EVal) (res : ABRes) :
    ∃ sv : List Action,
      ((res.childActionsList = [] →
        (abIter p a b m lce cv res).newEnter =
          (res.enterActions ++ sv) ++ lce ∧
        (abIter p a b m lce cv res).newExit = res.exitActions) ∧
       (res.childActionsList ≠ [] →
        (abIter p a b m lce cv res).newEnter = res.enterActions ++ lce ∧
        (abIter p a b m lce cv res).newExit = res.exitActions ++ sv)) ∧
      SLI sv ∧
      (∀ x ∈ sv, x.loc = some (.nValue p) ∨ x.loc = some (.nAlpha p) ∨
        x.loc = some (.nBeta p)) := by
  refine ⟨(if (if m then decide (cv < res.returnVal)
        else decide (res.returnVal < cv)) then
      [⟨some (.nValue p), res.st.shadow (.nValue p),
        .fvN (some res.returnVal)⟩]
    else []) ++
    (if (if m then decide (a < res.returnVal)
        else decide (res.returnVal < b)) then
      (if m then
        [⟨some (.nAlpha p),
          (if (if m then decide (cv < res.returnVal)
              else decide (res.returnVal < cv)) then
            res.st.setShadow (.nValue p) (.fvN (some res.returnVal))
          else res.st).shadow (.nAlpha p), .fvN (some res.returnVal)⟩]
      else
        [⟨some (.nBeta p),
          (if (if m then decide (cv < res.returnVal)
              else decide (res.returnVal < cv)) then
            res.st.setShadow (.nValue p) (.fvN (some res.returnVal))
          else res.st).shadow (.nBeta p), .fvN (some res.returnVal)⟩])
    else []), ⟨?_, ?_⟩, ?_, ?_⟩
  · intro h
    simp only [abIter]
    rw [if_neg (show ¬ (res.childActionsList ≠ []) from fun hne => hne h)]
    exact ⟨rfl, rfl⟩
  · intro h
    simp only [abIter]
    rw [if_pos h]
    exact ⟨rfl, rfl⟩
  · intro x hx y hy l hx1 hy1
    cases hC1 : (if m = true then decide (cv < res.returnVal)
        else decide (res.returnVal < cv)) <;>
      cases hC2 : (if m = true then decide (a < res.returnVal)
        else decide (res.returnVal < b)) <;>
      cases m <;>
      rw [hC1, hC2] at hx hy <;>
      simp only [Bool.false_eq_true, eq_self_iff_true, if_true, if_false,
        List.singleton_append, List.nil_append, List.append_nil] at hx hy <;>
      (try fin_cases hx) <;> (try fin_cases hy) <;> simp_all <;>
      exact absurd (hx1.trans hy1.symm) (by simp)
  · intro x hx
    cases hC1 : (if m = true then decide (cv < res.returnVal)
        else decide (res.returnVal < cv)) <;>
      cases hC2 : (if m = true then decide (a < res.returnVal)
        else decide (res.returnVal < b)) <;>
      cases m <;>
      rw [hC1, hC2] at hx <;>
      simp only [Bool.false_eq_true, eq_self_iff_true, if_true, if_false,
        List.singleton_append, List.nil_append, List.append_nil] at hx <;>
      (try fin_cases hx) <;> simp_all

mutual

theorem pruneInner_actions : ∀ (t : TNode) (pc : List ℕ) (s : TState),
    ∀ x ∈ (pruneInner t pc s).1, ∃ q, pc <+: q ∧
      x = ⟨some (.ePruned q), .fvB false, .fvB true⟩
  | .mk nt cs, pc, s => by
    intro x hx
    rw [pruneInner] at hx
    by_cases hpc : pc = []
    · rw [if_pos hpc] at hx
      dsimp only at hx
      rw [List.nil_append] at hx
      exact pruneChildren_actions cs pc 0 s x hx
    · rw [if_neg hpc] at hx
      dsimp only at hx
      rcases List.mem_append.mp hx with h | h
      · rw [List.mem_singleton] at h
        exact ⟨pc, List.prefix_rfl, h⟩
      · exact pruneChildren_actions cs pc 0 _ x h
termination_by t _ _ => sizeOf t
decreasing_by all_goals simp_wf <;> omega

theorem pruneChildren_actions : ∀ (cs : List TNode) (pc : List ℕ) (k : ℕ)
    (s : TState), ∀ x ∈ (pruneChildren cs pc k s).1, ∃ q, pc <+: q ∧
      x = ⟨some (.ePruned q), .fvB false, .fvB true⟩
  | [], _, _, _ => by
    intro x hx
    rw [pruneChildren] at hx
    simp at hx
  | c :: rest, pc, k, s => by
    intro x hx
    rw [pruneChildren] at hx
    dsimp only at hx
    rcases List.mem_append.mp hx with h | h
    · obtain ⟨q, hq, hx⟩ := pruneInner_actions c (pc ++ [k]) s x h
      exact ⟨q, prefix_of_snoc hq, hx⟩
    · exact pruneChildren_actions rest pc (k + 1) _ x h
termination_by cs _ _ _ => sizeOf cs
decreasing_by all_goals simp_wf <;> omega

end

theorem SLI_nil : SLI [] := by
  intro x hx
  simp at hx

set_option maxHeartbeats 2000000 in
mutual

/-- Every step pushed onto `childActionsList` by a call of the compiler on
a sibling-homogeneous tree has identical same-target actions. -/
theorem abActions_sli : ∀ (t : TNode) (p : List ℕ) (a b : EVal) (m : Bool)
    (s : TState), Homog t →
    ∀ g ∈ (abActions t p a b m s).childActionsList, SLI g
  | .mk nt cs, p, a, b, m, s => by
    intro ht g hg
    by_cases hnt : nt = .leafNode
    · rw [abActions_childActionsList_leaf nt cs p a b m s hnt] at hg
      simp at hg
    · rw [abActions_childActionsList_node nt cs p a b m s hnt] at hg
      have hH : ∀ c ∈ cs, Homog c := by
        cases ht with
        | leaf => exact absurd rfl hnt
        | node _ _ _ _ hc => exact hc
      have hK : (∀ c ∈ cs, c.nodeType = .leafNode) ∨
          (∀ c ∈ cs, c.nodeType ≠ .leafNode) := by
        cases ht with
        | leaf => exact absurd rfl hnt
        | node _ _ _ hk _ => exact hk
      obtain ⟨hG, hE⟩ := abLoop_sli cs p 0 a b m false []
        (if m then .negInf else .posInf)
        ((s.setShadow (.nAlpha p) (.fvN (some a))).setShadow (.nBeta p)
          (.fvN (some b))) hH hK SLI_nil
        (fun x hx => absurd hx (by simp))
        (fun c0 _ _ x hx => absurd hx (by simp))
        (fun x hx => absurd hx (by simp))
      rcases List.mem_append.mp hg with h | h
      · exact hG g h
      · rw [List.mem_singleton] at h
        rw [h]
        exact hE
termination_by t _ _ _ _ _ => sizeOf t
decreasing_by all_goals simp_wf <;> omega

/-- The loop invariant behind `abActions_sli`: provided the pending
previous-child exit group has identical same-target actions, stays out of
the remaining children's subtrees, carries no parent value/bound action
when the next child is a leaf, and holds only canonical actions on the
parent's `pruned` flag, every emitted step — and the final pending group —
has identical same-target actions. -/
theorem abLoop_sli : ∀ (cs : List TNode) (p : List ℕ) (k : ℕ) (a b : EVal)
    (m pr : Bool) (lce : List Action) (cv : EVal) (s : TState),
    (∀ c ∈ cs, Homog c) →
    ((∀ c ∈ cs, c.nodeType = .leafNode) ∨
      (∀ c ∈ cs, c.nodeType ≠ .leafNode)) →
    SLI lce →
    (∀ x ∈ lce, ∀ l : Loc, x.loc = some l → ∀ j, k ≤ j →
      ¬ ((p ++ [j]) <+: l.path)) →
    (∀ c0, cs.head? = some c0 → c0.nodeType = .leafNode → ∀ x ∈ lce,
      x.loc ≠ some (.nValue p) ∧ x.loc ≠ some (.nAlpha p) ∧
      x.loc ≠ some (.nBeta p)) →
    (∀ x ∈ lce, x.loc = some (.nPruned p) →
      x = ⟨some (.nPruned p), .fvB false, .fvB true⟩) →
    (∀ g ∈ (abLoop cs p k a b m pr lce cv s).2.1, SLI g) ∧
    SLI (abLoop cs p k a b m pr lce cv s).2.2.1
  | [], p, k, a, b, m, pr, lce, cv, s => by
    intro _ _ hsli _ _ _
    rw [abLoop]
    exact ⟨fun g hg => absurd hg (by simp), hsli⟩
  | c :: rest, p, k, a, b, m, pr, lce, cv, s => by
    intro hH hK hsli hlceA hlceP hlceN
    have hHr : ∀ c' ∈ rest, Homog c' := fun c' hc' => hH c' (by simp [hc'])
    have hKr : (∀ c' ∈ rest, c'.nodeType = .leafNode) ∨
        (∀ c' ∈ rest, c'.nodeType ≠ .leafNode) := by
      rcases hK with h | h
      · exact Or.inl (fun c' hc' => h c' (by simp [hc']))
      · exact Or.inr (fun c' hc' => h c' (by simp [hc']))
    cases pr with
    | true =>
      rw [abLoop_cons_pruned]
      have hpa := pruneInner_actions c (p ++ [k]) s
      have hsli' : SLI ((lce ++ (generatePruneActionList c (p ++ [k]) s).1)
          ++ [⟨some (.nPruned p), .fvB false, .fvB true⟩]) := by
        intro x hx y hy l hx1 hy1
        rcases List.mem_append.mp hx with hx | hx
        · rcases List.mem_append.mp hx with hx | hx
          · rcases List.mem_append.mp hy with hy | hy
            · rcases List.mem_append.mp hy with hy | hy
              · exact hsli x hx y hy l hx1 hy1
              · obtain ⟨q, hq, rfl⟩ := hpa y hy
                simp only [Option.some.injEq] at hy1
                exact absurd hq (by
                  rw [← hy1] at hx1
                  have := hlceA x hx _ hx1 k le_rfl
                  simpa using this)
            · rw [List.mem_singleton] at hy
              subst hy
              simp only [Option.some.injEq] at hy1
              rw [← hy1] at hx1
              rw [hlceN x hx hx1]
          · obtain ⟨q, hq, rfl⟩ := hpa x hx
            simp only [Option.some.injEq] at hx1
            rcases List.mem_append.mp hy with hy | hy
            · rcases List.mem_append.mp hy with hy | hy
              · exact absurd hq (by
                  rw [← hx1] at hy1
                  have := hlceA y hy _ hy1 k le_rfl
                  simpa using this)
              · obtain ⟨q', hq', rfl⟩ := hpa y hy
                simp only [Option.some.injEq] at hy1
                rw [← hy1] at hx1
                simp only [Loc.ePruned.injEq] at hx1
                rw [hx1]
            · rw [List.mem_singleton] at hy
              subst hy
              simp only [Option.some.injEq] at hy1
              rw [← hy1] at hx1
              simp at hx1
        · rw [List.mem_singleton] at hx
          subst hx
          simp only [Option.some.injEq] at hx1
          rcases List.mem_append.mp hy with hy | hy
          · rcases List.mem_append.mp hy with hy | hy
            · rw [← hx1] at hy1
              rw [hlceN y hy hy1]
            · obtain ⟨q, hq, rfl⟩ := hpa y hy
              simp only [Option.some.injEq] at hy1
              rw [← hx1] at hy1
              simp at hy1
          · rw [List.mem_singleton] at hy
            subst hy
            rfl
      refine abLoop_sli rest p (k + 1) a b m true _ cv _ hHr hKr hsli'
        ?_ ?_ ?_
      · intro x hx l hx1 j hj
        rcases List.mem_append.mp hx with hx | hx
        · rcases List.mem_append.mp hx with hx | hx
          · exact hlceA x hx l hx1 j (by omega)
          · obtain ⟨q, hq, rfl⟩ := hpa x hx
            simp only [Option.some.injEq] at hx1
            rw [← hx1]
            simp only [Loc.path]
            exact not_prefix_snoc_ne (show k ≠ j by omega) hq
        · rw [List.mem_singleton] at hx
          subst hx
          simp only [Option.some.injEq] at hx1
          rw [← hx1]
          simp only [Loc.path]
          exact snoc_not_prefix_self p j
      · intro c0 hc0 hc0leaf x hx
        have hcleaf : c.nodeType = .leafNode := by
          rcases hK with h | h
          · exact h c (by simp)
          · exact absurd hc0leaf (h c0 (by
              cases rest with
              | nil => simp at hc0
              | cons r rs =>
                simp only [List.head?, Option.some.injEq] at hc0
                rw [← hc0]
                simp))
        rcases List.mem_append.mp hx with hx | hx
        · rcases List.mem_append.mp hx with hx | hx
          · exact hlceP c rfl hcleaf x hx
          · obtain ⟨q, hq, rfl⟩ := hpa x hx
            refine ⟨?_, ?_, ?_⟩ <;> simp
        · rw [List.mem_singleton] at hx
          subst hx
          refine ⟨?_, ?_, ?_⟩ <;> simp
      · intro x hx hx1
        rcases List.mem_append.mp hx with hx | hx
        · rcases List.mem_append.mp hx with hx | hx
          · exact hlceN x hx hx1
          · obtain ⟨q, hq, rfl⟩ := hpa x hx
            simp at hx1
        · rw [List.mem_singleton] at hx
          exact hx
    | false =>
      rw [abLoop_cons_searched]
      obtain ⟨nc, csc⟩ := c
      have hHc : Homog (.mk nc csc) := hH _ (by simp)
      obtain ⟨sv, ⟨hnil, hne⟩, hsv, hsvloc⟩ := abIter_char p a b m lce cv
        (abActions (.mk nc csc) (p ++ [k]) a b (!m) s)
      have henter := abActions_enterActions_eq nc csc (p ++ [k]) a b (!m) s
      have hexit := abActions_exitActions_eq nc csc (p ++ [k]) a b (!m) s
      have hsnoc : (p ++ [k]) ≠ [] := by simp
      have hedge : edgeEnteredLoc (p ++ [k]) = some (.eEntered (p ++ [k])) :=
        by rw [edgeEnteredLoc, if_neg hsnoc]
      by_cases hcleaf : nc = .leafNode
      · -- searched leaf child
        have hcnil := abActions_childActionsList_leaf nc csc (p ++ [k]) a b
          (!m) s hcleaf
        obtain ⟨hEn, hEx⟩ := hnil hcnil
        set IT := abIter p a b m lce cv
          (abActions (TNode.mk nc csc) (p ++ [k]) a b (!m) s) with hIT
        rw [if_pos hcleaf] at henter
        rw [if_pos hcleaf] at hexit
        have hEnSli : SLI IT.newEnter := by
          rw [hEn, henter]
          intro x hx y hy l hx1 hy1
          rcases List.mem_append.mp hx with hx | hx
          · rcases List.mem_append.mp hy with hy | hy
            · rcases List.mem_append.mp hx with hx | hx
              · rcases List.mem_append.mp hy with hy | hy
                · rw [hedge] at hx hy
                  fin_cases hx <;> fin_cases hy <;> simp_all <;>
                first
                | exact absurd (hx1.trans hy1.symm) (by simp)
                | exact absurd (hy1.trans hx1.symm) (by simp)
                · rw [hedge] at hx
                  obtain hyl := hsvloc y hy
                  fin_cases hx <;> rcases hyl with hyl | hyl | hyl <;>
                    simp_all <;>
                    first
                    | exact absurd (hx1.trans hy1.symm) (by simp)
                    | exact absurd (hy1.trans hx1.symm) (by simp)
              · rcases List.mem_append.mp hy with hy | hy
                · rw [hedge] at hy
                  obtain hxl := hsvloc x hx
                  fin_cases hy <;> rcases hxl with hxl | hxl | hxl <;>
                    simp_all <;>
                    first
                    | exact absurd (hx1.trans hy1.symm) (by simp)
                    | exact absurd (hy1.trans hx1.symm) (by simp)
                · exact hsv x hx y hy l hx1 hy1
            · exfalso
              rcases List.mem_append.mp hx with hx | hx
              · rw [hedge] at hx
                have hA := hlceA y hy l hy1 k le_rfl
                fin_cases hx <;>
                  exact hA (by
                    simp only [Option.some.injEq] at hx1
                    rw [← hx1]
                    exact List.prefix_rfl)
              · obtain hxl := hsvloc x hx
                obtain ⟨h1, h2, h3⟩ := hlceP (.mk nc csc) rfl hcleaf y hy
                rcases hxl with hxl | hxl | hxl <;>
                  rw [hxl] at hx1 <;> rw [← hx1] at hy1 <;> simp_all
          · rcases List.mem_append.mp hy with hy | hy
            · exfalso
              rcases List.mem_append.mp hy with hy | hy
              · rw [hedge] at hy
                have hA := hlceA x hx l hx1 k le_rfl
                fin_cases hy <;>
                  exact hA (by
                    simp only [Option.some.injEq] at hy1
                    rw [← hy1]
                    exact List.prefix_rfl)
              · obtain hyl := hsvloc y hy
                obtain ⟨h1, h2, h3⟩ := hlceP (.mk nc csc) rfl hcleaf x hx
                rcases hyl with hyl | hyl | hyl <;>
                  rw [hyl] at hy1 <;> rw [← hy1] at hx1 <;> simp_all
            · exact hsli x hx y hy l hx1 hy1
        obtain ⟨hGr, hEr⟩ := abLoop_sli rest p (k + 1) IT.newA IT.newB m
          (decide (IT.newB ≤ IT.newA)) IT.newExit IT.newCurVal IT.st
          hHr hKr
          (by
            rw [hEx, hexit]
            intro x hx y hy l hx1 hy1
            rw [List.mem_singleton] at hx hy
            rw [hx, hy])
          (by
            rw [hEx, hexit]
            intro x hx l hx1 j hj
            rw [List.mem_singleton] at hx
            subst hx
            rw [hedge] at hx1
            simp only [Option.some.injEq] at hx1
            rw [← hx1]
            simp only [Loc.path]
            exact not_prefix_snoc_ne (show k ≠ j by omega) List.prefix_rfl)
          (by
            rw [hEx, hexit]
            intro c0 hc0 hc0leaf x hx
            rw [List.mem_singleton] at hx
            subst hx
            rw [hedge]
            refine ⟨?_, ?_, ?_⟩ <;> simp)
          (by
            rw [hEx, hexit]
            intro x hx hx1
            rw [List.mem_singleton] at hx
            subst hx
            rw [hedge] at hx1
            simp at hx1)
        constructor
        · intro g hg
          rcases List.mem_append.mp hg with hg | hg
          · rcases List.mem_cons.mp hg with hg | hg
            · rw [hg]
              exact hEnSli
            · rw [hcnil] at hg
              simp at hg
          · exact hGr g hg
        · exact hEr
      · -- searched interior child
        have hcne := abActions_childActionsList_ne nc csc (p ++ [k]) a b
          (!m) s hcleaf
        obtain ⟨hEn, hEx⟩ := hne hcne
        set IT := abIter p a b m lce cv
          (abActions (TNode.mk nc csc) (p ++ [k]) a b (!m) s) with hIT
        rw [if_neg hcleaf] at henter
        rw [if_neg hcleaf] at hexit
        have hEnSli : SLI IT.newEnter := by
          rw [hEn, henter]
          intro x hx y hy l hx1 hy1
          rcases List.mem_append.mp hx with hx | hx
          · rcases List.mem_append.mp hy with hy | hy
            · rw [hedge] at hx hy
              fin_cases hx <;> fin_cases hy <;> simp_all <;>
                first
                | exact absurd (hx1.trans hy1.symm) (by simp)
                | exact absurd (hy1.trans hx1.symm) (by simp)
            · exfalso
              rw [hedge] at hx
              have hA := hlceA y hy l hy1 k le_rfl
              fin_cases hx <;>
                exact hA (by
                    simp only [Option.some.injEq] at hx1
                    rw [← hx1]
                    exact List.prefix_rfl)
          · rcases List.mem_append.mp hy with hy | hy
            · exfalso
              rw [hedge] at hy
              have hA := hlceA x hx l hx1 k le_rfl
              fin_cases hy <;>
                exact hA (by
                    simp only [Option.some.injEq] at hy1
                    rw [← hy1]
                    exact List.prefix_rfl)
            · exact hsli x hx y hy l hx1 hy1
        obtain ⟨hGr, hEr⟩ := abLoop_sli rest p (k + 1) IT.newA IT.newB m
          (decide (IT.newB ≤ IT.newA)) IT.newExit IT.newCurVal IT.st
          hHr hKr
          (by
            rw [hEx, hexit]
            intro x hx y hy l hx1 hy1
            rcases List.mem_append.mp hx with hx | hx
            · rcases List.mem_append.mp hy with hy | hy
              · rw [hedge] at hx hy
                fin_cases hx <;> fin_cases hy <;> simp_all <;>
                first
                | exact absurd (hx1.trans hy1.symm) (by simp)
                | exact absurd (hy1.trans hx1.symm) (by simp)
              · exfalso
                rw [hedge] at hx
                obtain hyl := hsvloc y hy
                fin_cases hx <;> rcases hyl with hyl | hyl | hyl <;>
                  simp_all <;>
                    first
                    | exact absurd (hx1.trans hy1.symm) (by simp)
                    | exact absurd (hy1.trans hx1.symm) (by simp)
            · rcases List.mem_append.mp hy with hy | hy
              · exfalso
                rw [hedge] at hy
                obtain hxl := hsvloc x hx
                fin_cases hy <;> rcases hxl with hxl | hxl | hxl <;>
                  simp_all <;>
                    first
                    | exact absurd (hx1.trans hy1.symm) (by simp)
                    | exact absurd (hy1.trans hx1.symm) (by simp)
              · exact hsv x hx y hy l hx1 hy1)
          (by
            rw [hEx, hexit]
            intro x hx l hx1 j hj
            rcases List.mem_append.mp hx with hx | hx
            · rw [hedge] at hx
              fin_cases hx <;>
                simp only [Option.some.injEq] at hx1 <;>
                rw [← hx1] <;>
                simp only [Loc.path] <;>
                exact not_prefix_snoc_ne (show k ≠ j by omega)
                  List.prefix_rfl
            · obtain hxl := hsvloc x hx
              rcases hxl with hxl | hxl | hxl <;>
                rw [hxl] at hx1 <;>
                simp only [Option.some.injEq] at hx1 <;>
                rw [← hx1] <;>
                simp only [Loc.path] <;>
                exact snoc_not_prefix_self p j)
          (by
            intro c0 hc0 hc0leaf x hx
            exfalso
            rcases hKr with h | h
            · rcases hK with h' | h'
              · exact hcleaf (h' (.mk nc csc) (by simp))
              · cases rest with
                | nil => simp at hc0
                | cons r rs =>
                  refine h' c0 ?_ hc0leaf
                  simp only [List.head?, Option.some.injEq] at hc0
                  rw [← hc0]
                  simp
            · exact h c0 (by
                cases rest with
                | nil => simp at hc0
                | cons r rs =>
                  simp only [List.head?, Option.some.injEq] at hc0
                  rw [← hc0]
                  simp) hc0leaf)
          (by
            rw [hEx, hexit]
            intro x hx hx1
            exfalso
            rcases List.mem_append.mp hx with hx | hx
            · rw [hedge] at hx
              fin_cases hx <;> simp_all
            · obtain hxl := hsvloc x hx
              rcases hxl with hxl | hxl | hxl <;> rw [hxl] at hx1 <;>
                simp_all)
        constructor
        · intro g hg
          rcases List.mem_append.mp hg with hg | hg
          · rcases List.mem_cons.mp hg with hg | hg
            · rw [hg]
              exact hEnSli
            · exact abActions_sli (.mk nc csc) (p ++ [k]) a b (!m) s hHc
                g hg
          · exact hGr g hg
        · exact hEr
termination_by cs _ _ _ _ _ _ _ _ _ => sizeOf cs
decreasing_by all_goals simp_wf <;> omega

end

theorem abActions_enter_sli : ∀ (t : TNode) (p : List ℕ) (a b : EVal)
    (m : Bool) (s : TState), SLI ((abActions t p a b m s).enterActions)
  | .mk nt cs, p, a, b, m, s => by
    rw [abActions_enterActions_eq]
    by_cases hp : p = []
    · subst hp
      split <;>
        intro x hx y hy l hx1 hy1 <;>
        fin_cases hx <;> fin_cases hy <;>
        simp_all [edgeEnteredLoc] <;>
        first
        | exact absurd (hx1.trans hy1.symm) (by simp)
        | exact absurd (hy1.trans hx1.symm) (by simp)
    · have hedge : edgeEnteredLoc p = some (.eEntered p) := by
        rw [edgeEnteredLoc, if_neg hp]
      rw [hedge]
      split <;>
        intro x hx y hy l hx1 hy1 <;>
        fin_cases hx <;> fin_cases hy <;>
        simp_all <;>
        first
        | exact absurd (hx1.trans hy1.symm) (by simp)
        | exact absurd (hy1.trans hx1.symm) (by simp)

theorem abActions_exit_sli : ∀ (t : TNode) (p : List ℕ) (a b : EVal)
    (m : Bool) (s : TState), SLI ((abActions t p a b m s).exitActions)
  | .mk nt cs, p, a, b, m, s => by
    rw [abActions_exitActions_eq]
    by_cases hp : p = []
    · subst hp
      split <;>
        intro x hx y hy l hx1 hy1 <;>
        fin_cases hx <;> fin_cases hy <;>
        simp_all [edgeEnteredLoc] <;>
        first
        | exact absurd (hx1.trans hy1.symm) (by simp)
        | exact absurd (hy1.trans hx1.symm) (by simp)
    · have hedge : edgeEnteredLoc p = some (.eEntered p) := by
        rw [edgeEnteredLoc, if_neg hp]
      rw [hedge]
      split <;>
        intro x hx y hy l hx1 hy1 <;>
        fin_cases hx <;> fin_cases hy <;>
        simp_all <;>
        first
        | exact absurd (hx1.trans hy1.symm) (by simp)
        | exact absurd (hy1.trans hx1.symm) (by simp)

/-- Reversing two actions commutes when they target distinct real fields
or are identical. -/
theorem Action.reverse_comm (x y : Action)
    (h : ∀ l : Loc, x.loc = some l → y.loc = some l → x = y) (s : TState) :
    y.reverse (x.reverse s) = x.reverse (y.reverse s) := by
  rcases hx : x.loc with - | lx
  · simp [Action.reverse, hx]
  · rcases hy : y.loc with - | ly
    · simp [Action.reverse, hy]
    · by_cases hxy : lx = ly
      · subst hxy
        rw [h lx hx hy]
      · simp only [Action.reverse, hx, hy, TState.setVis]
        rw [Function.update_comm hxy]

/-- Reversing a step with identical same-target actions is insensitive to
the order of its actions. -/
theorem revStep_perm : ∀ {st st' : List Action}, st.Perm st' → SLI st →
    ∀ s : TState, revStep st' s = revStep st s := by
  intro st st' hp
  induction hp with
  | nil => intro _ _; rfl
  | cons a h ih =>
    intro hsli s
    simp only [revStep, List.foldl_cons]
    exact ih (fun x hx y hy l h1 h2 =>
      hsli x (List.mem_cons_of_mem a hx) y (List.mem_cons_of_mem a hy)
        l h1 h2) _
  | swap a b l =>
    intro hsli s
    simp only [revStep, List.foldl_cons]
    rw [Action.reverse_comm b a
      (fun l' h1 h2 => hsli b (by simp) a (by simp) l' h1 h2) s]
  | trans h1 h2 ih1 ih2 =>
    intro hsli s
    rw [ih2 (fun x hx y hy l hx1 hy1 =>
      hsli x (h1.mem_iff.mpr hx) y (h1.mem_iff.mpr hy) l hx1 hy1) s,
      ih1 hsli s]

/-! ### Round-trip playback: general step-list lemmas (C3) -/

theorem Action.apply_vis (a : Action) (s : TState) (l : Loc) :
    (a.apply s).vis l = if a.loc = some l then a.newVal else s.vis l := by
  rcases ha : a.loc with - | l'
  · simp [Action.apply, ha]
  · simp only [Action.apply, ha, TState.setVis]
    by_cases hl : l' = l
    · subst hl
      simp
    · rw [Function.update_noteq (Ne.symm hl), if_neg (by simp [hl])]

theorem Action.reverse_vis (a : Action) (s : TState) (l : Loc) :
    (a.reverse s).vis l = if a.loc = some l then a.oldVal else s.vis l := by
  rcases ha : a.loc with - | l'
  · simp [Action.reverse, ha]
  · simp only [Action.reverse, ha, TState.setVis]
    by_cases hl : l' = l
    · subst hl
      simp
    · rw [Function.update_noteq (Ne.symm hl), if_neg (by simp [hl])]

theorem Action.apply_shadow (a : Action) (s : TState) :
    (a.apply s).shadow = s.shadow := by
  rcases ha : a.loc with - | l' <;> simp [Action.apply, ha, TState.setVis]

theorem Action.reverse_shadow (a : Action) (s : TState) :
    (a.reverse s).shadow = s.shadow := by
  rcases ha : a.loc with - | l' <;> simp [Action.reverse, ha, TState.setVis]

theorem applyStep_vis : ∀ (st : List Action) (s : TState) (l : Loc),
    (applyStep st s).vis l = (lastNewA st l).getD (s.vis l)
  | [], s, l => rfl
  | x :: st, s, l => by
    show (applyStep st (x.apply s)).vis l = _
    rw [applyStep_vis st (x.apply s) l, lastNewA]
    cases hst : lastNewA st l
    · rw [Action.apply_vis]
      cases hx : decide (x.loc = some l) <;>
        simp_all
    · simp

theorem revStep_vis : ∀ (st : List Action) (s : TState) (l : Loc),
    (revStep st s).vis l = (lastOldA st l).getD (s.vis l)
  | [], s, l => rfl
  | x :: st, s, l => by
    show (revStep st (x.reverse s)).vis l = _
    rw [revStep_vis st (x.reverse s) l, lastOldA]
    cases hst : lastOldA st l
    · rw [Action.reverse_vis]
      cases hx : decide (x.loc = some l) <;>
        simp_all
    · simp

theorem applyStep_shadow : ∀ (st : List Action) (s : TState),
    (applyStep st s).shadow = s.shadow
  | [], s => rfl
  | x :: st, s => by
    show (applyStep st (x.apply s)).shadow = _
    rw [applyStep_shadow st (x.apply s), Action.apply_shadow]

theorem revStep_shadow : ∀ (st : List Action) (s : TState),
    (revStep st s).shadow = s.shadow
  | [], s => rfl
  | x :: st, s => by
    show (revStep st (x.reverse s)).shadow = _
    rw [revStep_shadow st (x.reverse s), Action.reverse_shadow]

theorem lastOldA_none_lastNewA : ∀ (st : List Action) (l : Loc),
    lastOldA st l = none → lastNewA st l = none
  | [], _, _ => rfl
  | x :: st, l, h => by
    rw [lastOldA] at h
    rw [lastNewA]
    cases hst : lastOldA st l
    · rw [hst] at h
      rw [lastOldA_none_lastNewA st l hst]
      cases hx : decide (x.loc = some l) <;> simp_all
    · rw [hst] at h
      simp at h

theorem backA_forA_vis : ∀ (sts : List (List Action)) (s : TState) (l : Loc),
    (backA sts (forA sts s)).vis l = (firstOld sts l).getD (s.vis l)
  | [], s, l => rfl
  | st :: rest, s, l => by
    rw [forA, backA, revStep_vis,
      backA_forA_vis rest (applyStep st s) l, firstOld]
    cases h1 : lastOldA st l
    · cases h2 : firstOld rest l
      · rw [applyStep_vis, lastOldA_none_lastNewA st l h1]
        rfl
      · rfl
    · rfl

theorem backA_forA_shadow : ∀ (sts : List (List Action)) (s : TState),
    (backA sts (forA sts s)).shadow = s.shadow
  | [], s => rfl
  | st :: rest, s => by
    rw [forA, backA, revStep_shadow,
      backA_forA_shadow rest (applyStep st s), applyStep_shadow]

theorem lastOldA_append_none {xs ys : List Action} {l : Loc}
    (h : lastOldA ys l = none) :
    lastOldA (xs ++ ys) l = lastOldA xs l := by
  induction xs with
  | nil => simpa using h
  | cons x xs ih =>
    rw [List.cons_append, lastOldA, ih, lastOldA]

theorem lastOldA_append_some {xs ys : List Action} {l : Loc} {v : FV}
    (h : lastOldA ys l = some v) :
    lastOldA (xs ++ ys) l = some v := by
  induction xs with
  | nil => simpa using h
  | cons x xs ih =>
    rw [List.cons_append, lastOldA, ih]

theorem lastOldA_none_of (xs : List Action) (l : Loc)
    (h : ∀ x ∈ xs, x.loc ≠ some l) : lastOldA xs l = none := by
  induction xs with
  | nil => rfl
  | cons x xs ih =>
    rw [lastOldA, ih (fun y hy => h y (by simp [hy]))]
    rw [if_neg (h x (by simp))]

theorem lastOldA_false_of (xs : List Action) (l : Loc)
    (h : ∀ x ∈ xs, x.oldVal = .fvB false) :
    lastOldA xs l = none ∨ lastOldA xs l = some (.fvB false) := by
  induction xs with
  | nil => exact Or.inl rfl
  | cons x xs ih =>
    rw [lastOldA]
    rcases ih (fun y hy => h y (by simp [hy])) with h' | h'
    · rw [h']
      by_cases hx : x.loc = some l
      · rw [if_pos hx, h x (by simp)]
        right
        rfl
      · rw [if_neg hx]
        left
        rfl
    · rw [h']
      right
      rfl

theorem firstOld_append_none {A B : List (List Action)} {l : Loc}
    (h : firstOld A l = none) :
    firstOld (A ++ B) l = firstOld B l := by
  induction A with
  | nil => rfl
  | cons st rest ih =>
    rw [firstOld] at h
    rw [List.cons_append, firstOld]
    cases hst : lastOldA st l
    · rw [hst] at h
      exact ih h
    · rw [hst] at h
      simp at h

theorem firstOld_append_some {A B : List (List Action)} {l : Loc} {v : FV}
    (h : firstOld A l = some v) :
    firstOld (A ++ B) l = some v := by
  induction A with
  | nil =>
    rw [firstOld] at h
    exact absurd h (by simp)
  | cons st rest ih =>
    rw [firstOld] at h
    rw [List.cons_append, firstOld]
    cases hst : lastOldA st l
    · rw [hst] at h
      exact ih h
    · rw [hst] at h
      exact h

theorem firstOld_none_of (A : List (List Action)) (l : Loc)
    (h : ∀ st ∈ A, lastOldA st l = none) : firstOld A l = none := by
  induction A with
  | nil => rfl
  | cons st rest ih =>
    rw [firstOld, h st (by simp), ih (fun st' hst' => h st' (by simp [hst']))]

theorem backA_append : ∀ (A B : List (List Action)) (s : TState),
    backA (A ++ B) s = backA A (backA B s)
  | [], B, s => rfl
  | st :: rest, B, s => by
    rw [List.cons_append, backA, backA, backA_append rest B s]

theorem driveForward_run : ∀ (r fuel : ℕ) (q : ALQ) (s : TState),
    q.inAction = true →
    -1 ≤ q.lastAction →
    q.lastAction + (r : ℤ) = (q.actionListQueue.length : ℤ) - 1 →
    r < fuel →
    ALQ.driveForward fuel q s =
      ({ q with lastAction := (q.actionListQueue.length : ℤ) - 1 },
       forA (q.actionListQueue.drop ((q.lastAction + 1).toNat)) s) := by
  intro r
  induction r with
  | zero =>
    intro fuel q s hin hge hla hfuel
    cases fuel with
    | zero => omega
    | succ f =>
      rw [ALQ.driveForward, ALQ.stepForward,
        if_pos (Or.inr (by omega : q.lastAction =
          (q.actionListQueue.length : ℤ) - 1))]
      have hd : (q.lastAction + 1).toNat = q.actionListQueue.length := by
        omega
      rw [hd, List.drop_length]
      have hq : ({ q with lastAction :=
          (q.actionListQueue.length : ℤ) - 1 } : ALQ) = q := by
        have : (q.actionListQueue.length : ℤ) - 1 = q.lastAction := by omega
        rw [this]
      rw [hq]
      rfl
  | succ r ih =>
    intro fuel q s hin hge hla hfuel
    cases fuel with
    | zero => omega
    | succ f =>
      rw [ALQ.driveForward, ALQ.stepForward, if_neg (by
        push_neg
        constructor
        · simp [hin]
        · omega)]
      have hidx : (q.lastAction + 1).toNat < q.actionListQueue.length := by
        omega
      have hstep : (ALQ.getI q.actionListQueue (q.lastAction + 1)).getD [] =
          q.actionListQueue[(q.lastAction + 1).toNat] := by
        rw [ALQ.getI, if_pos (by omega : (0 : ℤ) ≤ q.lastAction + 1)]
        rw [List.get?_eq_getElem?, List.getElem?_eq_getElem hidx]
        rfl
      dsimp only
      rw [hstep]
      rw [ih f { q with lastAction := q.lastAction + 1 }
        (applyStep q.actionListQueue[(q.lastAction + 1).toNat] s)
        hin (by dsimp only; omega) (by dsimp only; push_cast at hla ⊢; omega)
        (by omega)]
      have hdrop : q.actionListQueue.drop ((q.lastAction + 1).toNat) =
          q.actionListQueue[(q.lastAction + 1).toNat] ::
            q.actionListQueue.drop ((q.lastAction + 1 + 1).toNat) := by
        rw [List.drop_eq_getElem_cons hidx]
        have : (q.lastAction + 1).toNat + 1 = (q.lastAction + 1 + 1).toNat :=
          by omega
        rw [this]
      rw [hdrop, forA]

theorem driveBackward_run : ∀ (r fuel : ℕ) (q : ALQ) (s : TState),
    q.inAction = true →
    q.lastAction = (r : ℤ) - 1 →
    r ≤ q.actionListQueue.length →
    r < fuel →
    ALQ.driveBackward fuel q s =
      ({ q with lastAction := -1 }, backA (q.actionListQueue.take r) s) := by
  intro r
  induction r with
  | zero =>
    intro fuel q s hin hla hlen hfuel
    cases fuel with
    | zero => omega
    | succ f =>
      rw [ALQ.driveBackward, ALQ.stepBackward,
        if_pos (Or.inr (by omega : q.lastAction = -1))]
      have hq : ({ q with lastAction := (-1 : ℤ) } : ALQ) = q := by
        have : (-1 : ℤ) = q.lastAction := by omega
        rw [this]
      rw [hq, List.take_zero]
      rfl
  | succ r ih =>
    intro fuel q s hin hla hlen hfuel
    cases fuel with
    | zero => omega
    | succ f =>
      rw [ALQ.driveBackward, ALQ.stepBackward, if_neg (by
        push_neg
        constructor
        · simp [hin]
        · omega)]
      have hidx : q.lastAction.toNat < q.actionListQueue.length := by omega
      have hstep : (ALQ.getI q.actionListQueue q.lastAction).getD [] =
          q.actionListQueue[q.lastAction.toNat] := by
        rw [ALQ.getI, if_pos (by omega : (0 : ℤ) ≤ q.lastAction)]
        rw [List.get?_eq_getElem?, List.getElem?_eq_getElem hidx]
        rfl
      dsimp only
      rw [hstep]
      rw [ih f { q with lastAction := q.lastAction - 1 }
        (revStep q.actionListQueue[q.lastAction.toNat] s)
        hin (by dsimp only; omega) (by dsimp only; omega) (by omega)]
      have hr : q.lastAction.toNat = r := by omega
      have htake : q.actionListQueue.take (r + 1) =
          q.actionListQueue.take r ++ [q.actionListQueue[q.lastAction.toNat]]
          := by
        rw [List.take_succ]
        rw [List.getElem?_eq_getElem (by omega : r < q.actionListQueue.length)]
        simp only [hr, Option.toList_some]
      rw [htake, backA_append, backA, backA]

/-- The value/bound update batch of one loop iteration, with the recorded
old value of its `value` action: the batch carries a `value` action exactly
when the child's result improved the running best, and that action's old
value is the parent's shadow `__value` as it stood when the batch was
built. -/
theorem abIter_char_rt (p : List ℕ) (a b : EVal) (m : Bool)
    (lce : List Action) (cv : EVal) (res : ABRes) :
    ∃ sv : List Action,
      ((res.childActionsList = [] →
        (abIter p a b m lce cv res).newEnter =
          (res.enterActions ++ sv) ++ lce ∧
        (abIter p a b m lce cv res).newExit = res.exitActions) ∧
       (res.childActionsList ≠ [] →
        (abIter p a b m lce cv res).newEnter = res.enterActions ++ lce ∧
        (abIter p a b m lce cv res).newExit = res.exitActions ++ sv)) ∧
      (∀ x ∈ sv, x.loc = some (.nValue p) ∨ x.loc = some (.nAlpha p) ∨
        x.loc = some (.nBeta p)) ∧
      lastOldA sv (.nValue p) =
        (if (if m then decide (cv < res.returnVal)
            else decide (res.returnVal < cv))
         then some (res.st.shadow (.nValue p)) else none) := by
  refine ⟨(if (if m then decide (cv < res.returnVal)
        else decide (res.returnVal < cv)) then
      [⟨some (.nValue p), res.st.shadow (.nValue p),
        .fvN (some res.returnVal)⟩]
    else []) ++
    (if (if m then decide (a < res.returnVal)
        else decide (res.returnVal < b)) then
      (if m then
        [⟨some (.nAlpha p),
          (if (if m then decide (cv < res.returnVal)
              else decide (res.returnVal < cv)) then
            res.st.setShadow (.nValue p) (.fvN (some res.returnVal))
          else res.st).shadow (.nAlpha p), .fvN (some res.returnVal)⟩]
      else
        [⟨some (.nBeta p),
          (if (if m then decide (cv < res.returnVal)
              else decide (res.returnVal < cv)) then
            res.st.setShadow (.nValue p) (.fvN (some res.returnVal))
          else res.st).shadow (.nBeta p), .fvN (some res.returnVal)⟩])
    else []), ⟨?_, ?_⟩, ?_, ?_⟩
  · intro h
    simp only [abIter]
    rw [if_neg (show ¬ (res.childActionsList ≠ []) from fun hne => hne h)]
    exact ⟨rfl, rfl⟩
  · intro h
    simp only [abIter]
    rw [if_pos h]
    exact ⟨rfl, rfl⟩
  · intro x hx
    cases hC1 : (if m = true then decide (cv < res.returnVal)
        else decide (res.returnVal < cv)) <;>
      cases hC2 : (if m = true then decide (a < res.returnVal)
        else decide (res.returnVal < b)) <;>
      cases m <;>
      rw [hC1, hC2] at hx <;>
      simp only [Bool.false_eq_true, eq_self_iff_true, if_true, if_false,
        List.singleton_append, List.nil_append, List.append_nil] at hx <;>
      (try fin_cases hx) <;> simp_all
  · cases hC1 : (if m = true then decide (cv < res.returnVal)
        else decide (res.returnVal < cv)) <;>
      cases hC2 : (if m = true then decide (a < res.returnVal)
        else decide (res.returnVal < b)) <;>
      cases m <;>
      simp only [hC1, hC2, Bool.false_eq_true, eq_self_iff_true, if_true,
        if_false, List.singleton_append, List.nil_append,
        List.append_nil] <;>
      simp +decide [lastOldA]

theorem lastOldA_some_mem : ∀ (xs : List Action) (l : Loc) (v : FV),
    lastOldA xs l = some v → ∃ x ∈ xs, x.loc = some l ∧ x.oldVal = v
  | [], l, v, h => by simp [lastOldA] at h
  | x :: xs, l, v, h => by
    rw [lastOldA] at h
    cases hxs : lastOldA xs l
    · rw [hxs] at h
      by_cases hx : x.loc = some l
      · rw [if_pos hx] at h
        simp only [Option.some.injEq] at h
        exact ⟨x, by simp, hx, h⟩
      · rw [if_neg hx] at h
        simp at h
    · rw [hxs] at h
      simp only [Option.some.injEq] at h
      obtain ⟨y, hy, hyl, hyv⟩ := lastOldA_some_mem xs l v (by rw [hxs, h])
      exact ⟨y, by simp [hy], hyl, hyv⟩

theorem edgeEnteredLoc_ne (p : List ℕ) (l : Loc) (h : l ≠ .eEntered p) :
    edgeEnteredLoc p ≠ some l := by
  rw [edgeEnteredLoc]
  split
  · simp
  · intro hc
    simp only [Option.some.injEq] at hc
    exact h hc.symm

theorem enter_lastOldA_ne (nt : NodeKind) (cs : List TNode) (p : List ℕ)
    (a b : EVal) (m : Bool) (s : TState) (l : Loc)
    (h1 : l ≠ .eEntered p) (h2 : l ≠ .nEntered p) (h3 : l ≠ .nAlpha p)
    (h4 : l ≠ .nBeta p) :
    lastOldA (abActions (.mk nt cs) p a b m s).enterActions l = none := by
  rw [abActions_enterActions_eq]
  split <;>
    refine lastOldA_none_of _ _ ?_ <;>
    intro x hx <;>
    fin_cases hx <;>
    first
    | exact edgeEnteredLoc_ne p l h1
    | exact fun hc => h2 (Option.some_injective _ hc).symm
    | exact fun hc => h3 (Option.some_injective _ hc).symm
    | exact fun hc => h4 (Option.some_injective _ hc).symm

theorem exit_lastOldA_ne (nt : NodeKind) (cs : List TNode) (p : List ℕ)
    (a b : EVal) (m : Bool) (s : TState) (l : Loc)
    (h1 : l ≠ .eEntered p) (h2 : l ≠ .nEntered p) :
    lastOldA (abActions (.mk nt cs) p a b m s).exitActions l = none := by
  rw [abActions_exitActions_eq]
  split <;>
    refine lastOldA_none_of _ _ ?_ <;>
    intro x hx <;>
    fin_cases hx <;>
    first
    | exact edgeEnteredLoc_ne p l h1
    | exact fun hc => h2 (Option.some_injective _ hc).symm

theorem enter_lastOldA_nAlpha (nt : NodeKind) (cs : List TNode) (p : List ℕ)
    (a b : EVal) (m : Bool) (s : TState) (hnt : nt ≠ .leafNode) :
    lastOldA (abActions (.mk nt cs) p a b m s).enterActions (.nAlpha p) =
      some (s.vis (.nAlpha p)) := by
  rw [abActions_enterActions_eq, if_neg hnt]
  simp [lastOldA]

theorem enter_lastOldA_nBeta (nt : NodeKind) (cs : List TNode) (p : List ℕ)
    (a b : EVal) (m : Bool) (s : TState) (hnt : nt ≠ .leafNode) :
    lastOldA (abActions (.mk nt cs) p a b m s).enterActions (.nBeta p) =
      some (s.vis (.nBeta p)) := by
  rw [abActions_enterActions_eq, if_neg hnt]
  simp [lastOldA]

theorem enter_lastOldA_nEntered (nt : NodeKind) (cs : List TNode)
    (p : List ℕ) (a b : EVal) (m : Bool) (s : TState) :
    lastOldA (abActions (.mk nt cs) p a b m s).enterActions (.nEntered p) =
      some (.fvB false) := by
  rw [abActions_enterActions_eq]
  split <;> simp [lastOldA]

theorem enter_lastOldA_eEntered (nt : NodeKind) (cs : List TNode)
    (p : List ℕ) (a b : EVal) (m : Bool) (s : TState) (hp : p ≠ []) :
    lastOldA (abActions (.mk nt cs) p a b m s).enterActions (.eEntered p) =
      some (.fvB false) := by
  rw [abActions_enterActions_eq]
  split <;> simp [lastOldA, edgeEnteredLoc, hp]

theorem enter_lastOldA_eE_root (nt : NodeKind) (cs : List TNode)
    (a b : EVal) (m : Bool) (s : TState) :
    lastOldA (abActions (.mk nt cs) [] a b m s).enterActions
      (.eEntered []) = none := by
  rw [abActions_enterActions_eq]
  split <;> simp [lastOldA, edgeEnteredLoc]

theorem exit_lastOldA_eE_root (nt : NodeKind) (cs : List TNode)
    (a b : EVal) (m : Bool) (s : TState) :
    lastOldA (abActions (.mk nt cs) [] a b m s).exitActions
      (.eEntered []) = none := by
  rw [abActions_exitActions_eq]
  split <;> simp [lastOldA, edgeEnteredLoc]

theorem enter_leaf_lastOldA_nValAB (nt : NodeKind) (cs : List TNode)
    (p : List ℕ) (a b : EVal) (m : Bool) (s : TState)
    (hnt : nt = .leafNode) (l : Loc)
    (h1 : l ≠ .eEntered p) (h2 : l ≠ .nEntered p) :
    lastOldA (abActions (.mk nt cs) p a b m s).enterActions l = none := by
  rw [abActions_enterActions_eq, if_pos hnt]
  refine lastOldA_none_of _ _ ?_
  intro x hx
  fin_cases hx
  · exact edgeEnteredLoc_ne p l h1
  · exact fun hc => h2 (Option.some_injective _ hc).symm

theorem firstOld_cons_none {st : List Action} {sts : List (List Action)}
    {l : Loc} (h : lastOldA st l = none) :
    firstOld (st :: sts) l = firstOld sts l := by
  rw [firstOld, h]

theorem firstOld_cons_some {st : List Action} {sts : List (List Action)}
    {l : Loc} {v : FV} (h : lastOldA st l = some v) :
    firstOld (st :: sts) l = some v := by
  rw [firstOld, h]

/-! ### Round-trip playback of the compiled log (C3)

The key compile-time fact: in the list of steps produced by `abActions`,
the first action ever to touch a location records as its old value exactly
the pre-compilation visible value of that location (or the location is
never touched at all).  Undoing all steps therefore restores every visible
field. -/

set_option maxHeartbeats 4000000 in
mutual

theorem abActions_rt : ∀ (t : TNode) (p : List ℕ) (a b : EVal) (m : Bool)
    (s : TState),
    (∀ q, s.vis (.eEntered q) = .fvB false ∧
      s.vis (.nEntered q) = .fvB false ∧
      s.vis (.ePruned q) = .fvB false ∧
      s.vis (.nPruned q) = .fvB false) →
    (∀ q u, nodeAt t q = some u → u.nodeType ≠ .leafNode →
      s.shadow (.nValue (p ++ q)) = s.vis (.nValue (p ++ q))) →
    (∀ l : Loc, ¬ (p <+: l.path) →
      lastOldA (abActions t p a b m s).enterActions l = none ∧
      firstOld (abActions t p a b m s).childActionsList l = none ∧
      lastOldA (abActions t p a b m s).exitActions l = none) ∧
    (∀ l : Loc,
      firstOld ([(abActions t p a b m s).enterActions] ++
          ((abActions t p a b m s).childActionsList ++
            [(abActions t p a b m s).exitActions])) l = none ∨
      firstOld ([(abActions t p a b m s).enterActions] ++
          ((abActions t p a b m s).childActionsList ++
            [(abActions t p a b m s).exitActions])) l = some (s.vis l))
  | .mk nt cs, p, a, b, m, s => by
    intro hfl hvint
    by_cases hnt : nt = .leafNode
    · -- leaf node: only the entered flags of the node and its parent edge
      -- are touched, with their visible (false) values as old values
      have hcal := abActions_childActionsList_leaf nt cs p a b m s hnt
      have hframe : ∀ l : Loc, ¬ (p <+: l.path) →
          lastOldA (abActions (TNode.mk nt cs) p a b m s).enterActions l =
            none ∧
          firstOld (abActions (TNode.mk nt cs) p a b m s).childActionsList
            l = none ∧
          lastOldA (abActions (TNode.mk nt cs) p a b m s).exitActions l =
            none := by
        intro l hl
        have hlp : l.path ≠ p := fun he => hl (he ▸ List.prefix_rfl)
        obtain ⟨-, hn2, hn3, hn4, -, hn6, -⟩ := loc_ne_of_path_ne hlp
        refine ⟨enter_lastOldA_ne nt cs p a b m s l hn6 hn4 hn2 hn3, ?_,
          exit_lastOldA_ne nt cs p a b m s l hn6 hn4⟩
        rw [hcal]
        rfl
      refine ⟨hframe, ?_⟩
      intro l
      by_cases hout : p <+: l.path
      · by_cases hpp : l.path = p
        · cases l with
          | nValue q =>
            simp only [Loc.path] at hpp
            subst hpp
            refine Or.inl ?_
            rw [List.singleton_append,
              firstOld_cons_none (enter_lastOldA_ne nt cs q a b m s _
                (by simp) (by simp) (by simp) (by simp)),
              hcal, List.nil_append,
              firstOld_cons_none (exit_lastOldA_ne nt cs q a b m s _
                (by simp) (by simp))]
            rfl
          | nAlpha q =>
            simp only [Loc.path] at hpp
            subst hpp
            refine Or.inl ?_
            rw [List.singleton_append,
              firstOld_cons_none (enter_leaf_lastOldA_nValAB nt cs q a b m s
                hnt _ (by simp) (by simp)),
              hcal, List.nil_append,
              firstOld_cons_none (exit_lastOldA_ne nt cs q a b m s _
                (by simp) (by simp))]
            rfl
          | nBeta q =>
            simp only [Loc.path] at hpp
            subst hpp
            refine Or.inl ?_
            rw [List.singleton_append,
              firstOld_cons_none (enter_leaf_lastOldA_nValAB nt cs q a b m s
                hnt _ (by simp) (by simp)),
              hcal, List.nil_append,
              firstOld_cons_none (exit_lastOldA_ne nt cs q a b m s _
                (by simp) (by simp))]
            rfl
          | nEntered q =>
            simp only [Loc.path] at hpp
            subst hpp
            refine Or.inr ?_
            rw [List.singleton_append,
              firstOld_cons_some (enter_lastOldA_nEntered nt cs q a b m s),
              (hfl q).2.1]
          | nPruned q =>
            simp only [Loc.path] at hpp
            subst hpp
            refine Or.inl ?_
            rw [List.singleton_append,
              firstOld_cons_none (enter_lastOldA_ne nt cs q a b m s _
                (by simp) (by simp) (by simp) (by simp)),
              hcal, List.nil_append,
              firstOld_cons_none (exit_lastOldA_ne nt cs q a b m s _
                (by simp) (by simp))]
            rfl
          | eEntered q =>
            simp only [Loc.path] at hpp
            subst hpp
            by_cases hq : q = []
            · subst hq
              refine Or.inl ?_
              rw [List.singleton_append,
                firstOld_cons_none (enter_lastOldA_eE_root nt cs a b m s),
                hcal, List.nil_append,
                firstOld_cons_none (exit_lastOldA_eE_root nt cs a b m s)]
              rfl
            · refine Or.inr ?_
              rw [List.singleton_append,
                firstOld_cons_some
                  (enter_lastOldA_eEntered nt cs q a b m s hq),
                (hfl q).1]
          | ePruned q =>
            simp only [Loc.path] at hpp
            subst hpp
            refine Or.inl ?_
            rw [List.singleton_append,
              firstOld_cons_none (enter_lastOldA_ne nt cs q a b m s _
                (by simp) (by simp) (by simp) (by simp)),
              hcal, List.nil_append,
              firstOld_cons_none (exit_lastOldA_ne nt cs q a b m s _
                (by simp) (by simp))]
            rfl
        · obtain ⟨-, hn2, hn3, hn4, -, hn6, -⟩ := loc_ne_of_path_ne hpp
          refine Or.inl ?_
          rw [List.singleton_append,
            firstOld_cons_none (enter_lastOldA_ne nt cs p a b m s l
              hn6 hn4 hn2 hn3),
            hcal, List.nil_append,
            firstOld_cons_none (exit_lastOldA_ne nt cs p a b m s l hn6 hn4)]
          rfl
      · obtain ⟨he, hc, hx⟩ := hframe l hout
        refine Or.inl ?_
        rw [List.singleton_append, firstOld_cons_none he,
          firstOld_append_none hc, firstOld_cons_none hx]
        rfl
    · -- interior node
      have hcal := abActions_childActionsList_node nt cs p a b m s hnt
      set S := (s.setShadow (.nAlpha p) (.fvN (some a))).setShadow (.nBeta p)
        (.fvN (some b)) with hS
      have hSv : S.vis = s.vis := rfl
      have hfl' : ∀ q, S.vis (.eEntered q) = .fvB false ∧
          S.vis (.nEntered q) = .fvB false ∧
          S.vis (.ePruned q) = .fvB false ∧
          S.vis (.nPruned q) = .fvB false := by
        intro q
        rw [hSv]
        exact hfl q
      have hvr' : ∀ i c, cs.get? i = some c → ∀ q u, nodeAt c q = some u →
          u.nodeType ≠ .leafNode →
          S.shadow (.nValue ((p ++ [0 + i]) ++ q)) =
            S.vis (.nValue ((p ++ [0 + i]) ++ q)) := by
        intro i c hic q u hq hu
        have hnode : nodeAt (TNode.mk nt cs) (i :: q) = some u := by
          rw [nodeAt]
          dsimp only [TNode.children]
          rw [hic]
          exact hq
        have h0 := hvint (i :: q) u hnode hu
        have hpath : p ++ (i :: q) = (p ++ [0 + i]) ++ q := by simp
        rw [← hpath, hSv, hS, setShadow_shadow_ne _ _ (by simp),
          setShadow_shadow_ne _ _ (by simp)]
        exact h0
      have hlfS : ∀ l : Loc, (∃ j, 0 ≤ j ∧ (p ++ [j]) <+: l.path) →
          lastOldA [] l = none := fun l _ => rfl
      obtain ⟨I0, II0, III0, IV0⟩ := abLoop_rt cs p 0 a b m false []
        (if m then .negInf else .posInf) S hfl' hvr' hlfS
      have hframe : ∀ l : Loc, ¬ (p <+: l.path) →
          lastOldA (abActions (TNode.mk nt cs) p a b m s).enterActions l =
            none ∧
          firstOld (abActions (TNode.mk nt cs) p a b m s).childActionsList
            l = none ∧
          lastOldA (abActions (TNode.mk nt cs) p a b m s).exitActions l =
            none := by
        intro l hl
        have hlp : l.path ≠ p := fun he => hl (he ▸ List.prefix_rfl)
        obtain ⟨hn1, hn2, hn3, hn4, hn5, hn6, -⟩ := loc_ne_of_path_ne hlp
        refine ⟨enter_lastOldA_ne nt cs p a b m s l hn6 hn4 hn2 hn3, ?_,
          exit_lastOldA_ne nt cs p a b m s l hn6 hn4⟩
        rw [hcal,
          I0 l (fun j _ hj => hl (prefix_of_snoc hj)) hn1 hn2 hn3 hn5]
        rfl
      refine ⟨hframe, ?_⟩
      intro l
      by_cases hout : p <+: l.path
      · by_cases hpp : l.path = p
        · cases l with
          | nValue q =>
            simp only [Loc.path] at hpp
            subst hpp
            have hvS : S.shadow (.nValue q) = S.vis (.nValue q) := by
              have h0 := hvint [] (TNode.mk nt cs) rfl hnt
              rw [List.append_nil] at h0
              rw [hSv, hS, setShadow_shadow_ne _ _ (by simp),
                setShadow_shadow_ne _ _ (by simp)]
              exact h0
            have hres := III0 (Or.inl ⟨hvS, rfl⟩)
            rw [hSv] at hres
            rw [List.singleton_append,
              firstOld_cons_none (enter_lastOldA_ne nt cs q a b m s _
                (by simp) (by simp) (by simp) (by simp)), hcal]
            rcases hres with hres | hres
            · rw [firstOld_append_none hres,
                firstOld_cons_none (exit_lastOldA_ne nt cs q a b m s _
                  (by simp) (by simp))]
              exact Or.inl rfl
            · rw [firstOld_append_some hres]
              exact Or.inr rfl
          | nAlpha q =>
            simp only [Loc.path] at hpp
            subst hpp
            refine Or.inr ?_
            rw [List.singleton_append,
              firstOld_cons_some (enter_lastOldA_nAlpha nt cs q a b m s hnt)]
          | nBeta q =>
            simp only [Loc.path] at hpp
            subst hpp
            refine Or.inr ?_
            rw [List.singleton_append,
              firstOld_cons_some (enter_lastOldA_nBeta nt cs q a b m s hnt)]
          | nEntered q =>
            simp only [Loc.path] at hpp
            subst hpp
            refine Or.inr ?_
            rw [List.singleton_append,
              firstOld_cons_some (enter_lastOldA_nEntered nt cs q a b m s),
              (hfl q).2.1]
          | nPruned q =>
            simp only [Loc.path] at hpp
            subst hpp
            have hres := IV0 (Or.inl rfl)
            rw [List.singleton_append,
              firstOld_cons_none (enter_lastOldA_ne nt cs q a b m s _
                (by simp) (by simp) (by simp) (by simp)), hcal]
            rcases hres with hres | hres
            · rw [firstOld_append_none hres,
                firstOld_cons_none (exit_lastOldA_ne nt cs q a b m s _
                  (by simp) (by simp))]
              exact Or.inl rfl
            · rw [firstOld_append_some hres, (hfl q).2.2.2]
              exact Or.inr rfl
          | eEntered q =>
            simp only [Loc.path] at hpp
            subst hpp
            by_cases hq : q = []
            · subst hq
              refine Or.inl ?_
              rw [List.singleton_append,
                firstOld_cons_none (enter_lastOldA_eE_root nt cs a b m s),
                hcal,
                firstOld_append_none (I0 (Loc.eEntered [])
                  (fun j _ => by simp [Loc.path])
                  (by simp) (by simp) (by simp) (by simp)),
                firstOld_cons_none (exit_lastOldA_eE_root nt cs a b m s)]
              rfl
            · refine Or.inr ?_
              rw [List.singleton_append,
                firstOld_cons_some
                  (enter_lastOldA_eEntered nt cs q a b m s hq),
                (hfl q).1]
          | ePruned q =>
            simp only [Loc.path] at hpp
            subst hpp
            refine Or.inl ?_
            rw [List.singleton_append,
              firstOld_cons_none (enter_lastOldA_ne nt cs q a b m s _
                (by simp) (by simp) (by simp) (by simp)), hcal,
              firstOld_append_none (I0 (Loc.ePruned q)
                (fun j _ => snoc_not_prefix_self q j)
                (by simp) (by simp) (by simp) (by simp)),
              firstOld_cons_none (exit_lastOldA_ne nt cs q a b m s _
                (by simp) (by simp))]
            rfl
        · obtain ⟨j, hjl⟩ := exists_snoc_prefix hout hpp
          have hres := II0 l ⟨j, Nat.zero_le _, hjl⟩
          rw [hSv] at hres
          obtain ⟨-, hn2, hn3, hn4, -, hn6, -⟩ := loc_ne_of_path_ne hpp
          rw [List.singleton_append,
            firstOld_cons_none (enter_lastOldA_ne nt cs p a b m s l
              hn6 hn4 hn2 hn3), hcal]
          rcases hres with hres | hres
          · rw [firstOld_append_none hres,
              firstOld_cons_none (exit_lastOldA_ne nt cs p a b m s l
                hn6 hn4)]
            exact Or.inl rfl
          · rw [firstOld_append_some hres]
            exact Or.inr rfl
      · obtain ⟨he, hc, hx⟩ := hframe l hout
        refine Or.inl ?_
        rw [List.singleton_append, firstOld_cons_none he,
          firstOld_append_none hc, firstOld_cons_none hx]
        rfl
termination_by t _ _ _ _ _ => sizeOf t
decreasing_by all_goals simp_wf <;> omega

theorem abLoop_rt : ∀ (cs : List TNode) (p : List ℕ) (k : ℕ) (a b : EVal)
    (m pr : Bool) (lce : List Action) (cv : EVal) (s : TState),
    (∀ q, s.vis (.eEntered q) = .fvB false ∧
      s.vis (.nEntered q) = .fvB false ∧
      s.vis (.ePruned q) = .fvB false ∧
      s.vis (.nPruned q) = .fvB false) →
    (∀ i c, cs.get? i = some c → ∀ q u, nodeAt c q = some u →
      u.nodeType ≠ .leafNode →
      s.shadow (.nValue ((p ++ [k + i]) ++ q)) =
        s.vis (.nValue ((p ++ [k + i]) ++ q))) →
    (∀ l : Loc, (∃ j, k ≤ j ∧ (p ++ [j]) <+: l.path) →
      lastOldA lce l = none) →
    (∀ l : Loc, (∀ j, k ≤ j → ¬ ((p ++ [j]) <+: l.path)) →
      l ≠ .nValue p → l ≠ .nAlpha p → l ≠ .nBeta p → l ≠ .nPruned p →
      firstOld ((abLoop cs p k a b m pr lce cv s).2.1 ++
          [(abLoop cs p k a b m pr lce cv s).2.2.1]) l = lastOldA lce l) ∧
    (∀ l : Loc, (∃ j, k ≤ j ∧ (p ++ [j]) <+: l.path) →
      firstOld ((abLoop cs p k a b m pr lce cv s).2.1 ++
          [(abLoop cs p k a b m pr lce cv s).2.2.1]) l = none ∨
      firstOld ((abLoop cs p k a b m pr lce cv s).2.1 ++
          [(abLoop cs p k a b m pr lce cv s).2.2.1]) l = some (s.vis l)) ∧
    (((s.shadow (.nValue p) = s.vis (.nValue p) ∧
        lastOldA lce (.nValue p) = none) ∨
      lastOldA lce (.nValue p) = some (s.vis (.nValue p))) →
      (firstOld ((abLoop cs p k a b m pr lce cv s).2.1 ++
          [(abLoop cs p k a b m pr lce cv s).2.2.1]) (.nValue p) = none ∨
       firstOld ((abLoop cs p k a b m pr lce cv s).2.1 ++
          [(abLoop cs p k a b m pr lce cv s).2.2.1]) (.nValue p) =
        some (s.vis (.nValue p)))) ∧
    ((lastOldA lce (.nPruned p) = none ∨
      lastOldA lce (.nPruned p) = some (.fvB false)) →
      (firstOld ((abLoop cs p k a b m pr lce cv s).2.1 ++
          [(abLoop cs p k a b m pr lce cv s).2.2.1]) (.nPruned p) = none ∨
       firstOld ((abLoop cs p k a b m pr lce cv s).2.1 ++
          [(abLoop cs p k a b m pr lce cv s).2.2.1]) (.nPruned p) =
        some (.fvB false)))
  | [], p, k, a, b, m, pr, lce, cv, s => by
    intro hfl hvr hlf
    rw [abLoop]
    dsimp only
    refine ⟨?_, ?_, ?_, ?_⟩
    · intro l _ _ _ _ _
      rw [List.nil_append]
      cases h : lastOldA lce l with
      | none => rw [firstOld_cons_none h]; rfl
      | some v => rw [firstOld_cons_some h]
    · intro l hl
      rw [List.nil_append, firstOld_cons_none (hlf l hl)]
      exact Or.inl rfl
    · intro hval
      rw [List.nil_append]
      rcases hval with ⟨-, h⟩ | h
      · rw [firstOld_cons_none h]
        exact Or.inl rfl
      · rw [firstOld_cons_some h]
        exact Or.inr rfl
    · intro hval
      rw [List.nil_append]
      rcases hval with h | h
      · rw [firstOld_cons_none h]
        exact Or.inl rfl
      · rw [firstOld_cons_some h]
        exact Or.inr rfl
  | c :: rest, p, k, a, b, m, pr, lce, cv, s => by
    intro hfl hvr hlf
    cases pr with
    | true =>
      rw [abLoop_cons_pruned]
      set PA := (generatePruneActionList c (p ++ [k]) s).1 with hPA
      set P := (generatePruneActionList c (p ++ [k]) s).2.setShadow
        (.nPruned p) (.fvB true) with hP
      have hpa : ∀ x ∈ PA, ∃ q, (p ++ [k]) <+: q ∧
          x = ⟨some (.ePruned q), .fvB false, .fvB true⟩ := by
        rw [hPA]
        exact pruneInner_actions c (p ++ [k]) s
      have hPv : P.vis = s.vis := by
        rw [hP]
        simp only [TState.setShadow_vis]
        exact pruneInner_vis c (p ++ [k]) s
      have hPsh : ∀ l : Loc, ¬ ((p ++ [k]) <+: l.path) → l ≠ .nPruned p →
          P.shadow l = s.shadow l := by
        intro l h1 h2
        rw [hP, setShadow_shadow_ne _ _ h2]
        exact pruneInner_shadow_frame c (p ++ [k]) s l h1
      have hpan : ∀ l : Loc, ¬ ((p ++ [k]) <+: l.path) →
          lastOldA PA l = none := by
        intro l hl
        refine lastOldA_none_of _ _ ?_
        intro x hx
        obtain ⟨q, hq, rfl⟩ := hpa x hx
        intro hc
        simp only [Option.some.injEq] at hc
        rw [← hc] at hl
        exact hl hq
      have hnpn : ∀ l : Loc, l ≠ .nPruned p →
          lastOldA [(⟨some (.nPruned p), .fvB false, .fvB true⟩ : Action)] l
            = none := by
        intro l hl
        refine lastOldA_none_of _ _ ?_
        intro x hx
        rw [List.mem_singleton] at hx
        subst hx
        intro hc
        simp only [Option.some.injEq] at hc
        exact hl hc.symm
      have hlce2 : ∀ l : Loc, ¬ ((p ++ [k]) <+: l.path) → l ≠ .nPruned p →
          lastOldA ((lce ++ PA) ++
            [⟨some (.nPruned p), .fvB false, .fvB true⟩]) l =
          lastOldA lce l := by
        intro l h1 h2
        rw [lastOldA_append_none (hnpn l h2), lastOldA_append_none
          (hpan l h1)]
      have hfl' : ∀ q, P.vis (.eEntered q) = .fvB false ∧
          P.vis (.nEntered q) = .fvB false ∧
          P.vis (.ePruned q) = .fvB false ∧
          P.vis (.nPruned q) = .fvB false := by
        intro q
        rw [hPv]
        exact hfl q
      have hvr' : ∀ i c', rest.get? i = some c' → ∀ q u,
          nodeAt c' q = some u → u.nodeType ≠ .leafNode →
          P.shadow (.nValue ((p ++ [k + 1 + i]) ++ q)) =
            P.vis (.nValue ((p ++ [k + 1 + i]) ++ q)) := by
        intro i c' hc' q u hq hu
        have hnk : ¬ ((p ++ [k]) <+: (p ++ [k + 1 + i]) ++ q) :=
          not_prefix_snoc_ne (show k + 1 + i ≠ k by omega)
            (List.prefix_append _ _)
        rw [hPv, hPsh (.nValue ((p ++ [k + 1 + i]) ++ q)) hnk (by simp)]
        have h0 := hvr (i + 1) c' hc' q u hq hu
        rwa [show k + (i + 1) = k + 1 + i by omega] at h0
      have hlf' : ∀ l : Loc, (∃ j, k + 1 ≤ j ∧ (p ++ [j]) <+: l.path) →
          lastOldA ((lce ++ PA) ++
            [⟨some (.nPruned p), .fvB false, .fvB true⟩]) l = none := by
        intro l hl
        obtain ⟨j, hj, hjl⟩ := hl
        have h1 : ¬ ((p ++ [k]) <+: l.path) := by
          intro hk'
          have := prefix_index_eq hjl List.prefix_rfl hk'
          omega
        have h2 : l ≠ .nPruned p := by
          intro he
          rw [he] at hjl
          exact snoc_not_prefix_self p j hjl
        rw [hlce2 l h1 h2]
        exact hlf l ⟨j, by omega, hjl⟩
      obtain ⟨I1, II1, III1, IV1⟩ := abLoop_rt rest p (k + 1) a b m true
        ((lce ++ PA) ++ [⟨some (.nPruned p), .fvB false, .fvB true⟩]) cv P
        hfl' hvr' hlf'
      refine ⟨?_, ?_, ?_, ?_⟩
      · intro l hreg h1 h2 h3 h4
        rw [I1 l (fun j hj => hreg j (by omega)) h1 h2 h3 h4]
        exact hlce2 l (hreg k le_rfl) h4
      · intro l hl
        obtain ⟨j, hj, hjl⟩ := hl
        have hlp : l.path ≠ p := by
          intro he
          rw [he] at hjl
          exact snoc_not_prefix_self p j hjl
        obtain ⟨hn1, hn2, hn3, -, hn5, -, -⟩ := loc_ne_of_path_ne hlp
        by_cases hk' : (p ++ [k]) <+: l.path
        · rw [I1 l (fun j' hj' =>
            not_prefix_snoc_ne (show k ≠ j' by omega) hk') hn1 hn2 hn3 hn5,
            lastOldA_append_none (hnpn l hn5)]
          cases hpav : lastOldA PA l with
          | none =>
            rw [lastOldA_append_none hpav]
            exact Or.inl (hlf l ⟨j, hj, hjl⟩)
          | some v =>
            rw [lastOldA_append_some hpav]
            obtain ⟨x, hx, hxl, hxv⟩ := lastOldA_some_mem PA l v hpav
            obtain ⟨qq, hqq, rfl⟩ := hpa x hx
            simp only [Option.some.injEq] at hxl
            subst hxl
            have hvv : (.fvB false : FV) = v := hxv
            refine Or.inr ?_
            rw [← hvv, (hfl qq).2.2.1]
        · have hjk : j ≠ k := fun he => hk' (he ▸ hjl)
          have hres := II1 l ⟨j, by omega, hjl⟩
          rw [hPv] at hres
          exact hres
      · intro hval
        have h1 : ¬ ((p ++ [k]) <+: (Loc.nValue p).path) :=
          snoc_not_prefix_self p k
        have hl2 := hlce2 (.nValue p) h1 (by simp)
        have hsv2 := hPsh (.nValue p) h1 (by simp)
        have hres := III1 (by
          rcases hval with ⟨ha, hb⟩ | hc
          · refine Or.inl ⟨?_, ?_⟩
            · rw [hsv2, hPv]
              exact ha
            · rw [hl2]
              exact hb
          · refine Or.inr ?_
            rw [hl2, hPv]
            exact hc)
        rw [hPv] at hres
        exact hres
      · intro _
        refine IV1 (Or.inr ?_)
        refine lastOldA_append_some ?_
        simp [lastOldA]
    | false =>
      rw [abLoop_cons_searched]
      dsimp only
      obtain ⟨sv, ⟨hnil, hne⟩, hsvloc, hsvold⟩ := abIter_char_rt p a b m
        lce cv (abActions c (p ++ [k]) a b (!m) s)
      set RES := abActions c (p ++ [k]) a b (!m) s with hRES
      set IT := abIter p a b m lce cv RES with hIT
      have hvc : ∀ q u, nodeAt c q = some u → u.nodeType ≠ .leafNode →
          s.shadow (.nValue ((p ++ [k]) ++ q)) =
            s.vis (.nValue ((p ++ [k]) ++ q)) := by
        intro q u hq hu
        exact hvr 0 c rfl q u hq hu
      obtain ⟨cfr, cii⟩ := abActions_rt c (p ++ [k]) a b (!m) s hfl hvc
      rw [← hRES] at cfr cii
      have hITv : IT.st.vis = s.vis := by
        rw [hIT, abIter_vis, hRES, abActions_vis]
      have hshf : RES.st.shadow (.nValue p) = s.shadow (.nValue p) := by
        rw [hRES]
        exact abActions_shadow_frame c (p ++ [k]) a b (!m) s (.nValue p)
          (snoc_not_prefix_self p k)
      have hfl' : ∀ q, IT.st.vis (.eEntered q) = .fvB false ∧
          IT.st.vis (.nEntered q) = .fvB false ∧
          IT.st.vis (.ePruned q) = .fvB false ∧
          IT.st.vis (.nPruned q) = .fvB false := by
        intro q
        rw [hITv]
        exact hfl q
      have hvr' : ∀ i c', rest.get? i = some c' → ∀ q u,
          nodeAt c' q = some u → u.nodeType ≠ .leafNode →
          IT.st.shadow (.nValue ((p ++ [k + 1 + i]) ++ q)) =
            IT.st.vis (.nValue ((p ++ [k + 1 + i]) ++ q)) := by
        intro i c' hc' q u hq hu
        have hnk : ¬ ((p ++ [k]) <+: (p ++ [k + 1 + i]) ++ q) :=
          not_prefix_snoc_ne (show k + 1 + i ≠ k by omega)
            (List.prefix_append _ _)
        have hlpp : (Loc.nValue ((p ++ [k + 1 + i]) ++ q)).path ≠ p := by
          intro he
          have hlen := congrArg List.length he
          simp only [Loc.path, List.length_append, List.length_cons] at hlen
          omega
        rw [hITv, hIT, abIter_shadow_frame _ _ _ _ _ _ _ _ hlpp, hRES,
          abActions_shadow_frame c (p ++ [k]) a b (!m) s
            (.nValue ((p ++ [k + 1 + i]) ++ q)) hnk]
        have h0 := hvr (i + 1) c' hc' q u hq hu
        rwa [show k + (i + 1) = k + 1 + i by omega] at h0
      have hlf' : ∀ l : Loc, (∃ j, k + 1 ≤ j ∧ (p ++ [j]) <+: l.path) →
          lastOldA IT.newExit l = none := by
        intro l hl
        obtain ⟨j, hj, hjl⟩ := hl
        have hnk : ¬ ((p ++ [k]) <+: l.path) := by
          intro hk'
          have := prefix_index_eq hjl List.prefix_rfl hk'
          omega
        have hsvn : lastOldA sv l = none := by
          refine lastOldA_none_of _ _ ?_
          intro x hx
          rcases hsvloc x hx with h | h | h <;> rw [h] <;> intro hc <;>
            simp only [Option.some.injEq] at hc <;> rw [← hc] at hjl <;>
            exact snoc_not_prefix_self p j hjl
        by_cases hccal : RES.childActionsList = []
        · rw [(hnil hccal).2]
          exact (cfr l hnk).2.2
        · rw [(hne hccal).2, lastOldA_append_none hsvn]
          exact (cfr l hnk).2.2
      obtain ⟨I1, II1, III1, IV1⟩ := abLoop_rt rest p (k + 1) IT.newA
        IT.newB m (decide (IT.newB ≤ IT.newA)) IT.newExit IT.newCurVal
        IT.st hfl' hvr' hlf'
      refine ⟨?_, ?_, ?_, ?_⟩
      · intro l hreg h1 h2 h3 h4
        have hnk : ¬ ((p ++ [k]) <+: l.path) := hreg k le_rfl
        have hsvn : lastOldA sv l = none := by
          refine lastOldA_none_of _ _ ?_
          intro x hx
          rcases hsvloc x hx with h | h | h <;> rw [h] <;> intro hc <;>
            simp only [Option.some.injEq] at hc
          · exact h1 hc.symm
          · exact h2 hc.symm
          · exact h3 hc.symm
        simp only [List.cons_append, List.append_assoc]
        cases hlce3 : lastOldA lce l with
        | some v =>
          have hgrp : lastOldA IT.newEnter l = some v := by
            by_cases hccal : RES.childActionsList = []
            · rw [(hnil hccal).1]
              exact lastOldA_append_some hlce3
            · rw [(hne hccal).1]
              exact lastOldA_append_some hlce3
          rw [firstOld_cons_some hgrp]
        | none =>
          have hgrp : lastOldA IT.newEnter l = none := by
            by_cases hccal : RES.childActionsList = []
            · rw [(hnil hccal).1, lastOldA_append_none hlce3,
                lastOldA_append_none hsvn]
              exact (cfr l hnk).1
            · rw [(hne hccal).1, lastOldA_append_none hlce3]
              exact (cfr l hnk).1
          rw [firstOld_cons_none hgrp,
            firstOld_append_none (cfr l hnk).2.1,
            I1 l (fun j hj => hreg j (by omega)) h1 h2 h3 h4]
          by_cases hccal : RES.childActionsList = []
          · rw [(hnil hccal).2]
            exact (cfr l hnk).2.2
          · rw [(hne hccal).2, lastOldA_append_none hsvn]
            exact (cfr l hnk).2.2
      · intro l hl
        obtain ⟨j, hj, hjl⟩ := hl
        have hlp : l.path ≠ p := by
          intro he
          rw [he] at hjl
          exact snoc_not_prefix_self p j hjl
        obtain ⟨hn1, hn2, hn3, -, hn5, -, -⟩ := loc_ne_of_path_ne hlp
        have hsvn : lastOldA sv l = none := by
          refine lastOldA_none_of _ _ ?_
          intro x hx
          rcases hsvloc x hx with h | h | h <;> rw [h] <;> intro hc <;>
            simp only [Option.some.injEq] at hc
          · exact hn1 hc.symm
          · exact hn2 hc.symm
          · exact hn3 hc.symm
        simp only [List.cons_append, List.append_assoc]
        by_cases hk' : (p ++ [k]) <+: l.path
        · have hlcen : lastOldA lce l = none := hlf l ⟨k, le_rfl, hk'⟩
          cases hent : lastOldA RES.enterActions l with
          | some v =>
            have hv : v = s.vis l := by
              rcases cii l with hc | hc <;>
                rw [List.singleton_append, firstOld_cons_some hent] at hc
              · exact absurd hc (by simp)
              · exact Option.some_injective _ hc
            have hgrp : lastOldA IT.newEnter l = some v := by
              by_cases hccal : RES.childActionsList = []
              · rw [(hnil hccal).1, lastOldA_append_none hlcen,
                  lastOldA_append_none hsvn]
                exact hent
              · rw [(hne hccal).1, lastOldA_append_none hlcen]
                exact hent
            rw [firstOld_cons_some hgrp, hv]
            exact Or.inr rfl
          | none =>
            have hgrp : lastOldA IT.newEnter l = none := by
              by_cases hccal : RES.childActionsList = []
              · rw [(hnil hccal).1, lastOldA_append_none hlcen,
                  lastOldA_append_none hsvn]
                exact hent
              · rw [(hne hccal).1, lastOldA_append_none hlcen]
                exact hent
            rw [firstOld_cons_none hgrp]
            cases hcal2 : firstOld RES.childActionsList l with
            | some v =>
              have hv : v = s.vis l := by
                rcases cii l with hc | hc <;>
                  rw [List.singleton_append, firstOld_cons_none hent,
                    firstOld_append_some hcal2] at hc
                · exact absurd hc (by simp)
                · exact Option.some_injective _ hc
              rw [firstOld_append_some hcal2, hv]
              exact Or.inr rfl
            | none =>
              rw [firstOld_append_none hcal2,
                I1 l (fun j' hj' =>
                  not_prefix_snoc_ne (show k ≠ j' by omega) hk')
                  hn1 hn2 hn3 hn5]
              cases hexi : lastOldA RES.exitActions l with
              | some v =>
                have hv : v = s.vis l := by
                  rcases cii l with hc | hc <;>
                    rw [List.singleton_append, firstOld_cons_none hent,
                      firstOld_append_none hcal2,
                      firstOld_cons_some hexi] at hc
                  · exact absurd hc (by simp)
                  · exact Option.some_injective _ hc
                have hex2 : lastOldA IT.newExit l = some v := by
                  by_cases hccal : RES.childActionsList = []
                  · rw [(hnil hccal).2]
                    exact hexi
                  · rw [(hne hccal).2, lastOldA_append_none hsvn]
                    exact hexi
                rw [hex2, hv]
                exact Or.inr rfl
              | none =>
                refine Or.inl ?_
                by_cases hccal : RES.childActionsList = []
                · rw [(hnil hccal).2]
                  exact hexi
                · rw [(hne hccal).2, lastOldA_append_none hsvn]
                  exact hexi
        · have hjk : j ≠ k := fun he => hk' (he ▸ hjl)
          have hlcen : lastOldA lce l = none := hlf l ⟨j, hj, hjl⟩
          have hgrp : lastOldA IT.newEnter l = none := by
            by_cases hccal : RES.childActionsList = []
            · rw [(hnil hccal).1, lastOldA_append_none hlcen,
                lastOldA_append_none hsvn]
              exact (cfr l hk').1
            · rw [(hne hccal).1, lastOldA_append_none hlcen]
              exact (cfr l hk').1
          rw [firstOld_cons_none hgrp,
            firstOld_append_none (cfr l hk').2.1]
          have hres := II1 l ⟨j, by omega, hjl⟩
          rw [hITv] at hres
          exact hres
      · intro hval
        simp only [List.cons_append, List.append_assoc]
        by_cases hccal : RES.childActionsList = []
        · obtain ⟨hEn, hEx⟩ := hnil hccal
          rcases hval with ⟨hsh, hlcen⟩ | hlces
          · cases hC1 : (if m = true then decide (cv < RES.returnVal)
                else decide (RES.returnVal < cv)) with
            | true =>
              rw [hC1] at hsvold
              simp only [eq_self_iff_true, if_true] at hsvold
              refine Or.inr ?_
              have hgrp : lastOldA IT.newEnter (.nValue p) =
                  some (s.vis (.nValue p)) := by
                rw [hEn, lastOldA_append_none hlcen,
                  lastOldA_append_some hsvold, hshf, hsh]
              rw [firstOld_cons_some hgrp]
            | false =>
              rw [hC1] at hsvold
              simp only [Bool.false_eq_true, if_false] at hsvold
              have hgrp : lastOldA IT.newEnter (.nValue p) = none := by
                rw [hEn, lastOldA_append_none hlcen,
                  lastOldA_append_none hsvold]
                exact (cfr (.nValue p) (snoc_not_prefix_self p k)).1
              rw [firstOld_cons_none hgrp, firstOld_append_none
                (cfr (.nValue p) (snoc_not_prefix_self p k)).2.1]
              have hmodeA : IT.st.shadow (.nValue p) =
                  IT.st.vis (.nValue p) ∧
                  lastOldA IT.newExit (.nValue p) = none := by
                constructor
                · rw [hITv, hIT, abIter_st_shadow_nValue, hC1]
                  simp only [Bool.false_eq_true, if_false]
                  rw [hshf, hsh]
                · rw [hEx]
                  exact (cfr (.nValue p) (snoc_not_prefix_self p k)).2.2
              have hres := III1 (Or.inl hmodeA)
              rw [hITv] at hres
              exact hres
          · refine Or.inr ?_
            have hgrp : lastOldA IT.newEnter (.nValue p) =
                some (s.vis (.nValue p)) := by
              rw [hEn]
              exact lastOldA_append_some hlces
            rw [firstOld_cons_some hgrp]
        · obtain ⟨hEn, hEx⟩ := hne hccal
          rcases hval with ⟨hsh, hlcen⟩ | hlces
          · have hgrp : lastOldA IT.newEnter (.nValue p) = none := by
              rw [hEn, lastOldA_append_none hlcen]
              exact (cfr (.nValue p) (snoc_not_prefix_self p k)).1
            rw [firstOld_cons_none hgrp, firstOld_append_none
              (cfr (.nValue p) (snoc_not_prefix_self p k)).2.1]
            cases hC1 : (if m = true then decide (cv < RES.returnVal)
                else decide (RES.returnVal < cv)) with
            | true =>
              rw [hC1] at hsvold
              simp only [eq_self_iff_true, if_true] at hsvold
              have hmodeB : lastOldA IT.newExit (.nValue p) =
                  some (IT.st.vis (.nValue p)) := by
                rw [hITv, hEx, lastOldA_append_some hsvold, hshf, hsh]
              have hres := III1 (Or.inr hmodeB)
              rw [hITv] at hres
              exact hres
            | false =>
              rw [hC1] at hsvold
              simp only [Bool.false_eq_true, if_false] at hsvold
              have hmodeA : IT.st.shadow (.nValue p) =
                  IT.st.vis (.nValue p) ∧
                  lastOldA IT.newExit (.nValue p) = none := by
                constructor
                · rw [hITv, hIT, abIter_st_shadow_nValue, hC1]
                  simp only [Bool.false_eq_true, if_false]
                  rw [hshf, hsh]
                · rw [hEx, lastOldA_append_none hsvold]
                  exact (cfr (.nValue p) (snoc_not_prefix_self p k)).2.2
              have hres := III1 (Or.inl hmodeA)
              rw [hITv] at hres
              exact hres
          · refine Or.inr ?_
            have hgrp : lastOldA IT.newEnter (.nValue p) =
                some (s.vis (.nValue p)) := by
              rw [hEn]
              exact lastOldA_append_some hlces
            rw [firstOld_cons_some hgrp]
      · intro hval
        simp only [List.cons_append, List.append_assoc]
        have hsvn : lastOldA sv (.nPruned p) = none := by
          refine lastOldA_none_of _ _ ?_
          intro x hx
          rcases hsvloc x hx with h | h | h <;> rw [h] <;> simp
        rcases hval with hval | hval
        · have hgrp : lastOldA IT.newEnter (.nPruned p) = none := by
            by_cases hccal : RES.childActionsList = []
            · rw [(hnil hccal).1, lastOldA_append_none hval,
                lastOldA_append_none hsvn]
              exact (cfr (.nPruned p) (snoc_not_prefix_self p k)).1
            · rw [(hne hccal).1, lastOldA_append_none hval]
              exact (cfr (.nPruned p) (snoc_not_prefix_self p k)).1
          rw [firstOld_cons_none hgrp, firstOld_append_none
            (cfr (.nPruned p) (snoc_not_prefix_self p k)).2.1]
          refine IV1 (Or.inl ?_)
          by_cases hccal : RES.childActionsList = []
          · rw [(hnil hccal).2]
            exact (cfr (.nPruned p) (snoc_not_prefix_self p k)).2.2
          · rw [(hne hccal).2, lastOldA_append_none hsvn]
            exact (cfr (.nPruned p) (snoc_not_prefix_self p k)).2.2
        · refine Or.inr ?_
          have hgrp : lastOldA IT.newEnter (.nPruned p) =
              some (.fvB false) := by
            by_cases hccal : RES.childActionsList = []
            · rw [(hnil hccal).1]
              exact lastOldA_append_some hval
            · rw [(hne hccal).1]
              exact lastOldA_append_some hval
          rw [firstOld_cons_some hgrp]
termination_by cs _ _ _ _ _ _ _ _ _ => sizeOf cs
decreasing_by all_goals simp_wf <;> omega

end

/-- Entering playback on a queue whose cursor is at the start and then
running `goToEnd` followed by `goToBeginning` applies every recorded step
in order and then reverses them all: the final tree state is
`backA queue (forA queue s)`. -/
theorem goToEnd_goToBeginning_run (q0 : ALQ) (s : TState)
    (hin : q0.inAction = true) (hla : q0.lastAction = -1) :
    (ALQ.goToBeginning (ALQ.goToEnd q0 s).1 (ALQ.goToEnd q0 s).2).2 =
      backA q0.actionListQueue (forA q0.actionListQueue s) := by
  have h1 := driveForward_run q0.actionListQueue.length
    (q0.actionListQueue.length + 1) q0 s hin (le_of_eq hla.symm)
    (by rw [hla]; omega) (Nat.lt_succ_self _)
  rw [hla, (by norm_num : ((-1 : ℤ) + 1).toNat = 0), List.drop_zero] at h1
  have hE : ALQ.goToEnd q0 s =
      ({ q0 with lastAction := (q0.actionListQueue.length : ℤ) - 1 },
        forA q0.actionListQueue s) := by
    rw [ALQ.goToEnd, if_neg (not_not_intro hin)]
    exact h1
  rw [hE]
  dsimp only
  have hupd : ({ q0 with lastAction :=
      ((q0.actionListQueue.length : ℤ) - 1) } : ALQ).actionListQueue =
      q0.actionListQueue := rfl
  have h2 := driveBackward_run q0.actionListQueue.length
    (q0.actionListQueue.length + 1)
    ({ q0 with lastAction := ((q0.actionListQueue.length : ℤ) - 1) })
    (forA q0.actionListQueue s) hin rfl (le_refl _) (Nat.lt_succ_self _)
  rw [ALQ.goToBeginning, if_neg (not_not_intro hin), hupd, h2]
  dsimp only
  rw [hupd, List.take_length]

/-- C3: round-trip playback.  For any generated tree (any root kind, depth,
branching factor and leaf scores), compile the search with `alphaBeta`,
engage playback (`inAction := true`), run `stepForward` to the end of the
log (`goToEnd`) and then `stepBackward` back to the beginning
(`goToBeginning`): every visible node and edge field (value, alpha, beta,
entered, pruned flags at every location) ends with its exact pre-playback
value. -/
theorem claim_C3_round_trip (rootKind : NodeKind) (d bFac : ℕ)
    (L : List ℕ → ℤ) :
    ∀ l : Loc,
      (ALQ.goToBeginning
          (ALQ.goToEnd
            { (alphaBeta
                ⟨some (generateABTreeRootNode rootKind d bFac), rootKind,
                  d, bFac, true⟩
                (initState (generateABTreeRootNode rootKind d bFac) L)).1
              with inAction := true }
            (alphaBeta
              ⟨some (generateABTreeRootNode rootKind d bFac), rootKind,
                d, bFac, true⟩
              (initState (generateABTreeRootNode rootKind d bFac) L)).2).1
          (ALQ.goToEnd
            { (alphaBeta
                ⟨some (generateABTreeRootNode rootKind d bFac), rootKind,
                  d, bFac, true⟩
                (initState (generateABTreeRootNode rootKind d bFac) L)).1
              with inAction := true }
            (alphaBeta
              ⟨some (generateABTreeRootNode rootKind d bFac), rootKind,
                d, bFac, true⟩
              (initState (generateABTreeRootNode rootKind d bFac)
                L)).2).2).2.vis l =
      (alphaBeta
          ⟨some (generateABTreeRootNode rootKind d bFac), rootKind, d,
            bFac, true⟩
          (initState (generateABTreeRootNode rootKind d bFac) L)).2.vis
        l := by
  intro l
  have hrun := goToEnd_goToBeginning_run
    { (alphaBeta
        ⟨some (generateABTreeRootNode rootKind d bFac), rootKind, d, bFac,
          true⟩
        (initState (generateABTreeRootNode rootKind d bFac) L)).1
      with inAction := true }
    (alphaBeta
      ⟨some (generateABTreeRootNode rootKind d bFac), rootKind, d, bFac,
        true⟩
      (initState (generateABTreeRootNode rootKind d bFac) L)).2
    rfl rfl
  rw [hrun, backA_forA_vis]
  have hfl0 : ∀ q,
      (initState (generateABTreeRootNode rootKind d bFac) L).vis
        (.eEntered q) = .fvB false ∧
      (initState (generateABTreeRootNode rootKind d bFac) L).vis
        (.nEntered q) = .fvB false ∧
      (initState (generateABTreeRootNode rootKind d bFac) L).vis
        (.ePruned q) = .fvB false ∧
      (initState (generateABTreeRootNode rootKind d bFac) L).vis
        (.nPruned q) = .fvB false :=
    fun _ => ⟨rfl, rfl, rfl, rfl⟩
  have hvint0 : ∀ q u,
      nodeAt (generateABTreeRootNode rootKind d bFac) q = some u →
      u.nodeType ≠ .leafNode →
      (initState (generateABTreeRootNode rootKind d bFac) L).shadow
        (.nValue ([] ++ q)) =
      (initState (generateABTreeRootNode rootKind d bFac) L).vis
        (.nValue ([] ++ q)) := by
    intro q u hq hu
    have hleaf : isLeafPath (generateABTreeRootNode rootKind d bFac) q =
        false := by
      rw [isLeafPath, hq]
      simp [hu]
    simp [initState, hleaf]
  obtain ⟨-, hii⟩ := abActions_rt (generateABTreeRootNode rootKind d bFac)
    [] .negInf .posInf (decide (rootKind = NodeKind.maxNode))
    (initState (generateABTreeRootNode rootKind d bFac) L) hfl0 hvint0
  have hqq : ({ (alphaBeta
      ⟨some (generateABTreeRootNode rootKind d bFac), rootKind, d, bFac,
        true⟩
      (initState (generateABTreeRootNode rootKind d bFac) L)).1
      with inAction := true } : ALQ).actionListQueue =
      [(abActions (generateABTreeRootNode rootKind d bFac) []
          .negInf .posInf (decide (rootKind = NodeKind.maxNode))
          (initState (generateABTreeRootNode rootKind d bFac)
            L)).enterActions] ++
        ((abActions (generateABTreeRootNode rootKind d bFac) []
          .negInf .posInf (decide (rootKind = NodeKind.maxNode))
          (initState (generateABTreeRootNode rootKind d bFac)
            L)).childActionsList ++
        [(abActions (generateABTreeRootNode rootKind d bFac) []
          .negInf .posInf (decide (rootKind = NodeKind.maxNode))
          (initState (generateABTreeRootNode rootKind d bFac)
            L)).exitActions]) := by
    rw [← List.append_assoc]
    rfl
  have hvis : (alphaBeta
      ⟨some (generateABTreeRootNode rootKind d bFac), rootKind, d, bFac,
        true⟩
      (initState (generateABTreeRootNode rootKind d bFac) L)).2.vis =
      (initState (generateABTreeRootNode rootKind d bFac) L).vis :=
    abActions_vis (generateABTreeRootNode rootKind d bFac) [] .negInf
      .posInf (decide (rootKind = NodeKind.maxNode))
      (initState (generateABTreeRootNode rootKind d bFac) L)
  rw [hqq]
  rcases hii l with hc | hc
  · rw [hc]
    rfl
  · rw [hc, hvis]
    rfl

/-! ### Pruning soundness (C2) -/

/-- C2: pruning soundness.  For every generated tree, reassigning the leaf
values arbitrarily — provided every leaf whose chain of ancestor edges is
never marked `__pruned` by the first compile keeps its value — and
recompiling the search yields the same root shadow value.  (Leaves under a
shadow-pruned edge are exactly those allowed to change.) -/
theorem claim_C2_pruning_soundness :
    ∀ (rootKind : NodeKind) (d bFac : ℕ) (L₁ L₂ : List ℕ → ℤ),
      (rootKind = .maxNode ∨ rootKind = .minNode) → 1 ≤ bFac →
      (∀ q, isLeafPath (generateABTreeRootNode rootKind d bFac) q = true →
        (∀ e, e ≠ ([] : List ℕ) → e <+: q →
          (alphaBeta
              ⟨some (generateABTreeRootNode rootKind d bFac), rootKind, d,
                bFac, true⟩
              (initState (generateABTreeRootNode rootKind d bFac)
                L₁)).2.shadow (.ePruned e) ≠ .fvB true) →
        L₂ q = L₁ q) →
      (alphaBeta
          ⟨some (generateABTreeRootNode rootKind d bFac), rootKind, d, bFac,
            true⟩
          (initState (generateABTreeRootNode rootKind d bFac) L₂)).2.shadow
        (.nValue []) =
      (alphaBeta
          ⟨some (generateABTreeRootNode rootKind d bFac), rootKind, d, bFac,
            true⟩
          (initState (generateABTreeRootNode rootKind d bFac) L₁)).2.shadow
        (.nValue []) := by
  intro rootKind d bFac L₁ L₂ hk hb hagree
  have hM : (rootKind = NodeKind.maxNode ∨ rootKind = NodeKind.minNode) := hk
  set root := generateABTreeRootNode rootKind d bFac with hroot
  set m : Bool := decide (rootKind = NodeKind.maxNode) with hm
  have halpha1 : (alphaBeta ⟨some root, rootKind, d, bFac, true⟩
      (initState root L₁)).2 =
      (abActions root [] .negInf .posInf m (initState root L₁)).st := rfl
  have halpha2 : (alphaBeta ⟨some root, rootKind, d, bFac, true⟩
      (initState root L₂)).2 =
      (abActions root [] .negInf .posInf m (initState root L₂)).st := rfl
  rw [halpha1] at hagree
  rw [halpha1, halpha2]
  have hag : ∀ q, ([] : List ℕ) <+: q →
      (∀ e, ([] : List ℕ) <+: e → e ≠ ([] : List ℕ) → e <+: q →
        (abActions root [] .negInf .posInf m
          (initState root L₁)).st.shadow (.ePruned e) ≠ .fvB true) →
      (initState root L₂).vis (.nValue q) =
        (initState root L₁).vis (.nValue q) := by
    intro q _ hch
    show (if isLeafPath root q then FV.fvN (some (.fin (L₂ q)))
        else FV.fvN none) =
      (if isLeafPath root q then FV.fvN (some (.fin (L₁ q)))
        else FV.fvN none)
    by_cases hleaf : isLeafPath root q
    · rw [if_pos hleaf, if_pos hleaf,
        hagree q (by simpa using hleaf)
          (fun e hene heq => hch e List.nil_prefix hene heq)]
    · rw [if_neg hleaf, if_neg hleaf]
  obtain ⟨hrv, -⟩ := abActions_tworun root [] .negInf .posInf m
    (initState root L₁) (initState root L₂)
    (fun q _ _ => rfl) (fun q _ _ => rfl) hag
  rcases Nat.eq_zero_or_pos (d - 1) with h0 | hpos
  · -- depth ≤ 1: the root is a leaf and neither compile writes its shadow
    -- value, which stays unset in both runs.
    have hleafroot : root = .mk .leafNode [] := by
      rw [hroot]
      unfold generateABTreeRootNode
      rw [h0, generateSubTree]
    have hst : ∀ (L : List ℕ → ℤ),
        (abActions root [] .negInf .posInf m (initState root L)).st =
          initState root L := by
      intro L
      rw [hleafroot, abActions]
      simp only [eq_self_iff_true, if_true]
    rw [hst L₁, hst L₂]
    rfl
  · -- depth ≥ 2: the root is interior; both compiles record their (equal)
    -- finite search values in the root's shadow value.
    obtain ⟨r', hr'⟩ : ∃ r', d - 1 = r' + 1 := ⟨d - 1 - 1, by omega⟩
    have hrootshape : root = .mk rootKind ((List.range bFac).map fun _ =>
        generateSubTree (oppositeNodeType rootKind) r' bFac) := by
      rw [hroot]
      unfold generateABTreeRootNode
      rw [hr', generateSubTree]
    have hntne : rootKind ≠ NodeKind.leafNode := by
      rcases hM with h | h <;> subst h <;> simp
    have hcomp : CompleteT root := by
      rw [hroot]
      exact completeT_generateSubTree bFac (by omega) (d - 1) rootKind
    have hRV1 := abActions_returnVal root [] .negInf .posInf m
      (initState root L₁)
    obtain ⟨z, hz⟩ := abVal_fin root (visV (initState root L₁)) []
      .negInf .posInf m hcomp (visV_initState_fin root L₁)
    have hne : ∀ (mb : Bool),
        EVal.fin z ≠ (if mb = true then EVal.negInf else EVal.posInf) := by
      intro mb
      cases mb <;> simp
    have hsv1 := abActions_shadow_value rootKind
      ((List.range bFac).map fun _ =>
        generateSubTree (oppositeNodeType rootKind) r' bFac)
      [] .negInf .posInf m (initState root L₁) hntne
    rw [← hrootshape] at hsv1
    have hsv2 := abActions_shadow_value rootKind
      ((List.range bFac).map fun _ =>
        generateSubTree (oppositeNodeType rootKind) r' bFac)
      [] .negInf .posInf m (initState root L₂) hntne
    rw [← hrootshape] at hsv2
    rcases hsv1 with h1 | h1
    · exfalso
      rw [hRV1, hz] at h1
      exact hne m h1
    · rcases hsv2 with h2 | h2
      · exfalso
        rw [hrv, hRV1, hz] at h2
        exact hne m h2
      · rw [h1, h2, hrv]

/-- Witness for C2 at a concrete generated tree (depth 2, branching 2, max
root, both leaf assignments constantly 1). -/
theorem claim_C2_pruning_soundness_witness :
    (alphaBeta
        ⟨some (generateABTreeRootNode .maxNode 2 2), .maxNode, 2, 2, true⟩
        (initState (generateABTreeRootNode .maxNode 2 2)
          (fun _ => 1))).2.shadow (.nValue []) =
    (alphaBeta
        ⟨some (generateABTreeRootNode .maxNode 2 2), .maxNode, 2, 2, true⟩
        (initState (generateABTreeRootNode .maxNode 2 2)
          (fun _ => 1))).2.shadow (.nValue []) :=
  claim_C2_pruning_soundness .maxNode 2 2 (fun _ => 1) (fun _ => 1)
    (Or.inl rfl) (by norm_num) (fun q _ _ => rfl)

/-! ### The concrete depth-3, branching-factor-2 scenario -/

/-- The leaf scores 3, 5, 2, 9 in left-to-right order. -/
def leafValsC5 : List ℕ → ℤ
  | [0, 0] => 3
  | [0, 1] => 5
  | [1, 0] => 2
  | [1, 1] => 9
  | _ => 0

/-- The depth-3, branching-factor-2 max-rooted generated tree. -/
def rootC5 : TNode := generateABTreeRootNode .maxNode 3 2

def treeC5 : Tree := ⟨some rootC5, .maxNode, 3, 2, true⟩

/-- The compiled search on that tree from its generation state. -/
def compiledC5 : ALQ × TState := alphaBeta treeC5 (initState rootC5 leafValsC5)

/-- Concretization of an abstract visible field to its raw JS value on a
post-`setSolution` heap: `setSolution` writes every interior value and
bound through `?? null` and every flag through `|| false`, and leaves hold
their generated numbers, so on such a heap an unset visible numeric field
is `null` and every visible flag it writes is a real boolean.  (The
`entered` flags, which the answer checker never reads, are `undefined` on
the real heap but concretized to `false`; on every location `checkAnswer`
consults — interior values and `pruned` flags — the concretization is
exact.) -/
def jVis : FV → JV
  | .fvN none => .jnull
  | .fvN (some v) => .jnum v
  | .fvB b => .jbool b

/-- Concretization of an abstract shadow field to its raw JS value: shadow
fields start out absent (`undefined`) and the compiler only ever writes a
number into `__value`/`__alpha`/`__beta` and `true` into `__pruned`, never
`null` or `false` — so the abstract `fvN none` / `fvB false` shadow states
are exactly JS `undefined`. -/
def jShadow : FV → JV
  | .fvN none => .jundef
  | .fvN (some v) => .jnum v
  | .fvB false => .jundef
  | .fvB true => .jbool true

/-- The raw-JS heap corresponding to an abstract
compile-then-show-solution state. -/
def jStateOf (s : TState) : JState :=
  ⟨fun l => jVis (s.vis l), fun l => jShadow (s.shadow l)⟩

/-- A learner state on the compiled depth-3 scenario, at raw JS
granularity: the solution is filled in everywhere, then the visible
`pruned` flag of the edge into the pruned leaf `[1, 1]` is cleared again.
Its shadow `__pruned` stays `true`. -/
def stateC4 : JState :=
  (jStateOf (setSolution (some rootC5) compiledC5.2)).setVis
    (.ePruned [1, 1]) (.jbool false)

/-- Leaf scores for a depth-4, branching-factor-2 max-rooted scenario in
which an *interior* node gets pruned: the first min child evaluates to
min(max(5,5), max(1,1)) = 1, so the root's α reaches 1; the second min
child's first grandchild evaluates to max(0,0) = 0 ≤ α, so its second
grandchild — an interior max node at depth 3 — is pruned. -/
def leafValsC4 : List ℕ → ℤ
  | [0, 0, _] => 5
  | [0, 1, _] => 1
  | _ => 0

/-- The depth-4, branching-factor-2 max-rooted generated tree. -/
def rootC4 : TNode := generateABTreeRootNode .maxNode 4 2

/-- The compiled search on that tree from its generation state. -/
def compiledC4 : ALQ × TState :=
  alphaBeta ⟨some rootC4, .maxNode, 4, 2, true⟩ (initState rootC4 leafValsC4)

/-- C5 counterexample: on the depth-3, branching-factor-2 max-rooted tree
with leaves [3, 5, 2, 9], the root's shadow value after compilation is not
5 as the claim states. -/
theorem claim_C5_counterexample :
    (compiledC5.2).shadow (.nValue []) ≠ .fvN (some (.fin 5)) := by
  simp +decide [compiledC5, treeC5, rootC5, leafValsC5, alphaBeta,
    generateABTreeRootNode, generateSubTree, abActions, abLoop, initState,
    isLeafPath, nodeAt, TNode.children, TNode.nodeType, edgeEnteredLoc,
    TState.setShadow, TState.setVis, FV.getN, Option.getD,
    generatePruneActionList, pruneInner, pruneChildren, Function.update,
    ALQ.pushActionList, ALQ.extendActionList, ALQ.new, List.range,
    List.range.loop, List.map, oppositeNodeType, FV.isTrue]

/-- C5 (amended): the max root takes the maximum of its min children
(`max (min 3 5) (min 2 9) = 3`), so compilation records root shadow
value 3. -/
theorem claim_C5_concrete_root_value :
    (compiledC5.2).shadow (.nValue []) = .fvN (some (.fin 3)) := by
  simp +decide [compiledC5, treeC5, rootC5, leafValsC5, alphaBeta,
    generateABTreeRootNode, generateSubTree, abActions, abLoop, initState,
    isLeafPath, nodeAt, TNode.children, TNode.nodeType, edgeEnteredLoc,
    TState.setShadow, TState.setVis, FV.getN, Option.getD,
    generatePruneActionList, pruneInner, pruneChildren, Function.update,
    ALQ.pushActionList, ALQ.extendActionList, ALQ.new, List.range,
    List.range.loop, List.map, oppositeNodeType, FV.isTrue]

/-- Leaf scores for the depth-3, branching-factor-3 max-rooted scenario:
first min child [5, 5, 5], second min child [1, 0, 0] (its first leaf
already fails the α = 5 bound, so its remaining two children are pruned),
third min child [0, 0, 0]. -/
def leafValsC8 : List ℕ → ℤ
  | [0, _] => 5
  | [1, 0] => 1
  | _ => 0

/-- Step 8 of the compiled log on that scenario: the exit group of the min
node [1], holding two identical `node.pruned` actions for node [1] — one
per pruned child — besides the child-edge actions. -/
def stepC8 : List Action :=
  [⟨some (.eEntered [1, 0]), .fvB true, .fvB false⟩,
   ⟨some (.ePruned [1, 1]), .fvB false, .fvB true⟩,
   ⟨some (.nPruned [1]), .fvB false, .fvB true⟩,
   ⟨some (.ePruned [1, 2]), .fvB false, .fvB true⟩,
   ⟨some (.nPruned [1]), .fvB false, .fvB true⟩]

/-! ### Verification semantics of the answer checker (C4) -/

/-- C4 counterexample: `checkAnswer` is not equivalent to the claimed
contract, because the leaf early-return skips the pruned-flag check of an
edge *into a leaf*.  On the compiled depth-3 scenario, fill in the full
solution and then clear the visible `pruned` flag of the shadow-pruned
edge into leaf `[1, 1]`: `checkAnswer` still accepts, yet the claimed
"every shadow-pruned edge has matching visible flag" condition fails. -/
theorem claim_C4_counterexample :
    ¬ (∀ (t : TNode) (s : JState),
        checkAnswer (some t) s = true ↔
          specInteriorValuesOk t s ∧ specPrunedEdgesOk t s) := by
  intro hclaim
  have hchk : checkAnswer (some rootC5) stateC4 = true := by
    simp +decide [stateC4, compiledC5, treeC5, rootC5, leafValsC5, alphaBeta,
      generateABTreeRootNode, generateSubTree, abActions, abLoop, initState,
      isLeafPath, nodeAt, TNode.children, TNode.nodeType, edgeEnteredLoc,
      TState.setShadow, TState.setVis, FV.getN, Option.getD,
      generatePruneActionList, pruneInner, pruneChildren, Function.update,
      ALQ.pushActionList, ALQ.extendActionList, ALQ.new, List.range,
      List.range.loop, List.map, oppositeNodeType, FV.isTrue, setSolution,
      setSolutionSub, setSolutionChildren, jStateOf, jVis, jShadow,
      JState.setVis, JV.isTruthy, checkAnswer, checkSubTree, checkChildren]
  have h := (hclaim rootC5 stateC4).mp hchk
  have hnode : nodeAt rootC5 [1, 1] = some (.mk .leafNode []) := by
    simp [rootC5, generateABTreeRootNode, generateSubTree, nodeAt,
      TNode.children, List.range, List.range.loop, List.map,
      oppositeNodeType]
  have hsh : (stateC4.shadow (.ePruned [1, 1])).isTruthy := by
    simp +decide [stateC4, compiledC5, treeC5, rootC5, leafValsC5, alphaBeta,
      generateABTreeRootNode, generateSubTree, abActions, abLoop, initState,
      isLeafPath, nodeAt, TNode.children, TNode.nodeType, edgeEnteredLoc,
      TState.setShadow, TState.setVis, FV.getN, Option.getD,
      generatePruneActionList, pruneInner, pruneChildren, Function.update,
      ALQ.pushActionList, ALQ.extendActionList, ALQ.new, List.range,
      List.range.loop, List.map, oppositeNodeType, FV.isTrue, setSolution,
      setSolutionSub, setSolutionChildren, jStateOf, jVis, jShadow,
      JState.setVis, JV.isTruthy]
  have hvne := h.2 [1, 1] (.mk .leafNode []) hnode (by decide) hsh
  have hvis : stateC4.vis (.ePruned [1, 1]) = .jbool false := by
    simp +decide [stateC4, JState.setVis, Function.update]
  have hshv : stateC4.shadow (.ePruned [1, 1]) = .jbool true := by
    simp +decide [stateC4, compiledC5, treeC5, rootC5, leafValsC5, alphaBeta,
      generateABTreeRootNode, generateSubTree, abActions, abLoop, initState,
      isLeafPath, nodeAt, TNode.children, TNode.nodeType, edgeEnteredLoc,
      TState.setShadow, TState.setVis, FV.getN, Option.getD,
      generatePruneActionList, pruneInner, pruneChildren, Function.update,
      ALQ.pushActionList, ALQ.extendActionList, ALQ.new, List.range,
      List.range.loop, List.map, oppositeNodeType, FV.isTrue, setSolution,
      setSolutionSub, setSolutionChildren, jStateOf, jVis, jShadow,
      JState.setVis]
  rw [hvis, hshv] at hvne
  simp at hvne

/-- C4 (amended): for every tree whose leaves have no stored children (all
generated trees) and every raw-JS state, `checkAnswer` returns true iff
every interior node's visible value is strictly (`===`) equal to its
shadow `__value` — in particular a pruned interior node, whose `__value`
stays `undefined` while its visible value is `null` or a number, always
fails the check — and every edge whose shadow `__pruned` is truthy *and*
whose child endpoint is an interior node has its visible `pruned` flag
strictly equal to the shadow flag.  Edges into leaves are exempt: the
checker's leaf early-return never reaches their edge check. -/
theorem claim_C4_verification_semantics :
    ∀ (t : TNode) (s : JState), NoLeafChildren t →
      (checkAnswer (some t) s = true ↔
        specInteriorValuesOk t s ∧ specPrunedEdgesIntoInteriorOk t s) := by
  intro t s hnlc
  have hbase : checkAnswer (some t) s = checkSubTree t [] s := rfl
  rw [hbase, checkSubTree_iff t [] s hnlc]
  constructor
  · intro hall
    constructor
    · intro p u hu hune
      simpa using (hall p u hu hune).1
    · intro p u hu hune hne htr
      simpa using (hall p u hu hune).2 (by simpa using hne) htr
  · rintro ⟨hA, hB⟩
    intro q u hu hune
    exact ⟨hA q u hu hune, fun hne htr => hB q u hu hune (by simpa using hne)
      htr⟩

/-- Witness for C4 (amended) at a concrete two-node tree in a raw-JS state
with all visible fields `null` and all shadow fields `undefined`. -/
theorem claim_C4_verification_semantics_witness :
    checkAnswer (some (TNode.mk .maxNode [TNode.mk .leafNode []]))
        ⟨fun _ => .jnull, fun _ => .jundef⟩ = true ↔
      specInteriorValuesOk (TNode.mk .maxNode [TNode.mk .leafNode []])
        ⟨fun _ => .jnull, fun _ => .jundef⟩ ∧
      specPrunedEdgesIntoInteriorOk
        (TNode.mk .maxNode [TNode.mk .leafNode []])
        ⟨fun _ => .jnull, fun _ => .jundef⟩ :=
  claim_C4_verification_semantics _ _
    (NoLeafChildren.node .maxNode _ (by simp) (fun c hc => by
      rw [List.mem_singleton] at hc
      subst hc
      exact NoLeafChildren.leaf))

/-- Corroboration of the strict-equality semantics against the program's
actual behaviour: on the compiled depth-4 scenario, whose interior node
`[1, 1]` is pruned so its `__value` stays `undefined`, `checkAnswer`
rejects even the fully filled-in solution — `setSolution` sets that node's
visible value to `undefined ?? null = null`, and `null !== undefined`. -/
theorem checkAnswer_rejects_pruned_interior :
    checkAnswer (some rootC4)
      (jStateOf (setSolution (some rootC4) compiledC4.2)) = false := by
  simp +decide [compiledC4, rootC4, leafValsC4, alphaBeta,
    generateABTreeRootNode, generateSubTree, abActions, abLoop, initState,
    isLeafPath, nodeAt, TNode.children, TNode.nodeType, edgeEnteredLoc,
    TState.setShadow, TState.setVis, FV.getN, Option.getD,
    generatePruneActionList, pruneInner, pruneChildren, Function.update,
    ALQ.pushActionList, ALQ.extendActionList, ALQ.new, List.range,
    List.range.loop, List.map, oppositeNodeType, FV.isTrue, setSolution,
    setSolutionSub, setSolutionChildren, jStateOf, jVis, jShadow,
    JV.isTruthy, checkAnswer, checkSubTree, checkChildren]


/-! ### Per-step field disjointness (C8) -/

/-- C8 counterexample: a step of a compiled log can target the same
(object, field) pair twice.  On the depth-3, branching-factor-3 max-rooted
tree with leaves [5,5,5 | 1,0,0 | 0,0,0], the exit group of min node [1]
(step 8) contains the `node.pruned` action for node [1] twice — the loop
pushes one per pruned child. -/
theorem claim_C8_counterexample :
    ¬ (∀ (rootKind : NodeKind) (d bFac : ℕ) (L : List ℕ → ℤ)
        (n : ℕ) (step : List Action) (i j : ℕ) (a b : Action),
        (alphaBeta
            ⟨some (generateABTreeRootNode rootKind d bFac), rootKind, d,
              bFac, true⟩
            (initState (generateABTreeRootNode rootKind d bFac)
              L)).1.actionListQueue.get? n = some step →
        step.get? i = some a → step.get? j = some b → a.loc = b.loc →
        i = j) := by
  intro hclaim
  have h8 : (alphaBeta
      ⟨some (generateABTreeRootNode .maxNode 3 3), .maxNode, 3, 3, true⟩
      (initState (generateABTreeRootNode .maxNode 3 3)
        leafValsC8)).1.actionListQueue.get? 8 = some stepC8 := by
    simp +decide [stepC8, leafValsC8, alphaBeta,
      generateABTreeRootNode, generateSubTree, abActions, abLoop, initState,
      isLeafPath, nodeAt, TNode.children, TNode.nodeType, edgeEnteredLoc,
      TState.setShadow, TState.setVis, FV.getN, Option.getD,
      generatePruneActionList, pruneInner, pruneChildren, Function.update,
      ALQ.pushActionList, ALQ.extendActionList, ALQ.new, List.range,
      List.range.loop, List.map, oppositeNodeType, FV.isTrue]
  have h24 := hclaim .maxNode 3 3 leafValsC8 8 stepC8 2 4
    ⟨some (.nPruned [1]), .fvB false, .fvB true⟩
    ⟨some (.nPruned [1]), .fvB false, .fvB true⟩
    h8 rfl rfl rfl
  omega

/-- C8 (amended): in every step of the action log produced by compiling
the search on any generated tree, any two actions targeting the same real
(object, field) pair are the same action record (the only repeat is the
parent's canonical `pruned: false → true` marker, pushed once per pruned
child), so reversing a step's actions in any order — in particular in
reverse order — yields the same state as reversing them in recorded
order. -/
theorem claim_C8_step_reversal :
    ∀ (rootKind : NodeKind) (d bFac : ℕ) (L : List ℕ → ℤ),
      (rootKind = .maxNode ∨ rootKind = .minNode) →
      ∀ st ∈ (alphaBeta
          ⟨some (generateABTreeRootNode rootKind d bFac), rootKind, d, bFac,
            true⟩
          (initState (generateABTreeRootNode rootKind d bFac)
            L)).1.actionListQueue,
        SLI st ∧ ∀ st' : List Action, st.Perm st' → ∀ s : TState,
          revStep st' s = revStep st s := by
  intro rootKind d bFac L hk st hst
  suffices hs : SLI st from
    ⟨hs, fun st' hp s => revStep_perm hp hs s⟩
  have hq : (alphaBeta
      ⟨some (generateABTreeRootNode rootKind d bFac), rootKind, d, bFac,
        true⟩
      (initState (generateABTreeRootNode rootKind d bFac)
        L)).1.actionListQueue =
      ([(abActions (generateABTreeRootNode rootKind d bFac) []
          .negInf .posInf (decide (rootKind = NodeKind.maxNode))
          (initState (generateABTreeRootNode rootKind d bFac)
            L)).enterActions] ++
        (abActions (generateABTreeRootNode rootKind d bFac) []
          .negInf .posInf (decide (rootKind = NodeKind.maxNode))
          (initState (generateABTreeRootNode rootKind d bFac)
            L)).childActionsList) ++
      [(abActions (generateABTreeRootNode rootKind d bFac) []
          .negInf .posInf (decide (rootKind = NodeKind.maxNode))
          (initState (generateABTreeRootNode rootKind d bFac)
            L)).exitActions] := rfl
  rw [hq] at hst
  rcases List.mem_append.mp hst with h | h
  · rcases List.mem_append.mp h with h | h
    · rw [List.mem_singleton] at h
      rw [h]
      exact abActions_enter_sli _ [] .negInf .posInf _ _
    · have hhom : Homog (generateABTreeRootNode rootKind d bFac) := by
        unfold generateABTreeRootNode
        exact homog_generateSubTree bFac (d - 1) rootKind
          (by rcases hk with h' | h' <;> subst h' <;> simp)
      exact abActions_sli _ [] .negInf .posInf _ _ hhom st h
  · rw [List.mem_singleton] at h
    rw [h]
    exact abActions_exit_sli _ [] .negInf .posInf _ _

/-- The root enter step of the compiled log on the depth-2,
branching-factor-2 max-rooted tree with all leaf scores 0. -/
def stW : List Action :=
  [⟨none, .fvB false, .fvB true⟩,
   ⟨some (.nEntered []), .fvB false, .fvB true⟩,
   ⟨some (.nAlpha []), .fvN none, .fvN (some .negInf)⟩,
   ⟨some (.nBeta []), .fvN none, .fvN (some .posInf)⟩]

/-- Witness for C8 (amended) at the root enter step of a concrete
compiled log. -/
theorem claim_C8_step_reversal_witness :
    SLI stW ∧ ∀ st' : List Action, stW.Perm st' → ∀ s : TState,
      revStep st' s = revStep stW s :=
  claim_C8_step_reversal .maxNode 2 2 (fun _ => 0) (Or.inl rfl) stW
    (by
      simp +decide [stW, alphaBeta, generateABTreeRootNode, generateSubTree,
        abActions, abLoop, initState, isLeafPath, nodeAt, TNode.children,
        TNode.nodeType, edgeEnteredLoc, TState.setShadow, TState.setVis,
        FV.getN, Option.getD, generatePruneActionList, pruneInner,
        pruneChildren, Function.update, ALQ.pushActionList,
        ALQ.extendActionList, ALQ.new, List.range, List.range.loop,
        List.map, oppositeNodeType, FV.isTrue])

end AB
